import Mathlib

/-!
# HDP-LDA collapsed Gibbs sampler: shallow embedding of `src/HdpLda.cpp`

Conventions of the embedding.

* `shared_ptr<Topic>` / `shared_ptr<Table>` are object identities (`Nat`) into two
  heaps, `topicHeap` and `tableHeap`; `new` takes the next unused identity.  An object
  nobody points to any more simply stays in the heap, unobservable.
* `int` counters are `Int` (no wrap-around: a corpus has far fewer than `2^31` tokens).
  Decrements are therefore real decrements, a count could go negative in the model.
* `double` values are `ℚ` (exact arithmetic).  The libm calls `log`, `exp`, `lgamma`
  are fields of a record `Libm`: a statement holds whatever they return, unless it
  says what it assumes of them (`log 1 = 0`, the real logarithm, ...).
* `uniform()` reads a stream of variates `Rng`; every statement quantifies over it.
* `std::list::remove(x)` is `List.filter (· ≠ x)`, `push_back` is `++ [x]`.
* Word-ids are `Nat`.  The constructor is the only place where a word-id coming from
  outside indexes a count vector; there an index outside the vector is `none`.  The
  samplers only use the words stored by a successful construction.
* The Gamma, Beta and Bernoulli distributions of the library are outside the sources: in
  `sampleGamma` and `sampleAlpha0` a draw is the parameters it is given, which the model
  returns, and the value it returns, which is an argument of the model.

Plan of the file: the embedding; the invariants (`RInv` for restaurants, tables and
customers, `TInv` for topics and tables, both relative to what is currently counted, so
that they also hold in the middle of a step); their preservation by every primitive
operation, step and loop; the constructor; the statements about reachable states; the
rising factorial; the draws; the statements about single steps of the two samplers and
about the hyper-parameter sampler.
-/

namespace hdplda

/-! ## Data model (declared in `HdpLda.h`, which is not part of the sources) -/

/-- Modelled from the spec: the class `Topic` of `HdpLda.h` (absent): total token count
`n`, dense per-word counts `n_v` of length `V`, table count `m`, and the per-word cache
`phi_v` written at line 114. -/
structure Topic where
  n : Int
  n_v : List Int
  m : Int
  phi_v : List ℚ

/-- Modelled from the spec: the class `Table` of `HdpLda.h` (absent): customers seated
`n`, dense per-word counts `n_v` of length `V`, and the topic it serves. -/
structure Table where
  n : Int
  n_v : List Int
  topic : Nat

/-- Modelled from the spec: the class `Customer` of `HdpLda.h` (absent). -/
structure Customer where
  word : Nat
  table : Nat
deriving DecidableEq

/-- Modelled from the spec: the class `Restaurant` of `HdpLda.h` (absent). -/
structure Restaurant where
  customers : List Customer
  tables : List Nat
  n : Int

/-- Modelled from the spec: the class `Corpus` (absent): `D` documents, each an ordered
sequence of word-ids, over a vocabulary of size `V`. -/
structure Corpus where
  documents : List (List Nat)
  V : Nat

/-- Number of documents, `corpus.D`. -/
def Corpus.D (c : Corpus) : Nat := c.documents.length

/-- Total number of tokens, `corpus.N`. -/
def Corpus.N (c : Corpus) : Nat := (c.documents.map List.length).sum

/-- Modelled from the spec: constructor `Topic(V, beta)` of `HdpLda.h` (absent), a topic
with zero counts. -/
def Topic.new (V : Nat) (_beta : ℚ) : Topic :=
  { n := 0, n_v := List.replicate V 0, m := 0, phi_v := List.replicate V 0 }

/-- Modelled from the spec: constructor `Table(topic)` of `HdpLda.h` (absent), a table
with zero counts serving `topic`. -/
def Table.new (V : Nat) (topic : Nat) : Table :=
  { n := 0, n_v := List.replicate V 0, topic := topic }

/-- The members of class `HdpLda` that the sampler reads or writes, with the two heaps. -/
structure HdpLda where
  V : Nat
  D : Nat
  N : Nat
  K : Int
  gamma : ℚ
  alpha0 : ℚ
  beta : ℚ
  gamma_a : ℚ
  gamma_b : ℚ
  alpha0_a : ℚ
  alpha0_b : ℚ
  m : Int
  topics : List Nat
  restaurants : List Restaurant
  topicHeap : Nat → Topic
  nextTopic : Nat
  tableHeap : Nat → Table
  nextTable : Nat

/-- The libm functions used by the topic sampler, left uninterpreted. -/
structure Libm (R : Type) where
  log : R → R
  exp : R → R
  lgamma : R → R

/-- Stream of the variates returned by successive calls of `uniform()`. -/
abbrev Rng := Nat → ℚ

/-- One call of `uniform()`: the next variate and the advanced stream. -/
def uniform (g : Rng) : ℚ × Rng := (g 0, fun i => g (i + 1))

/-! ## Elementary operations on vectors and on the registry -/

/-- Update `l[v] += d` on a dense count vector. -/
def incAt (l : List Int) (v : Nat) (d : Int) : List Int := l.set v (l.getD v 0 + d)

/-- Access `restaurants[j]`. -/
def HdpLda.rest (s : HdpLda) (j : Nat) : Restaurant :=
  s.restaurants.getD j { customers := [], tables := [], n := 0 }

/-- Write `restaurants[j]`. -/
def HdpLda.setRest (s : HdpLda) (j : Nat) (r : Restaurant) : HdpLda :=
  { s with restaurants := s.restaurants.set j r }

/-- All tables of the franchise, restaurant by restaurant. -/
def HdpLda.allTables (s : HdpLda) : List Nat := s.restaurants.flatMap Restaurant.tables

/-- Lines 172-173 (also 27 and 303-304): `new Topic(V, beta)` pushed on the topic list. -/
def addTopic (s : HdpLda) : HdpLda × Nat :=
  ({ s with topicHeap := Function.update s.topicHeap s.nextTopic (Topic.new s.V s.beta),
            nextTopic := s.nextTopic + 1,
            topics := s.topics ++ [s.nextTopic] }, s.nextTopic)

/-- Lines 175-178 (also 34-37): `new Table(topic)` pushed on restaurant `j`, then
`topic->m++` and `m++`. -/
def addTable (s : HdpLda) (j : Nat) (k : Nat) : HdpLda × Nat :=
  let t := s.nextTable
  let r := s.rest j
  let tp := s.topicHeap k
  ({ s with tableHeap := Function.update s.tableHeap t (Table.new s.V k),
            nextTable := t + 1,
            restaurants := s.restaurants.set j { r with tables := r.tables ++ [t] },
            topicHeap := Function.update s.topicHeap k { tp with m := tp.m + 1 },
            m := s.m + 1 }, t)

/-- Lines 180-183 (also 44-47): the four increments for a customer of word `v` seated at
table `t`. -/
def incrementCounts (s : HdpLda) (t v : Nat) : HdpLda :=
  let tbl := s.tableHeap t
  let tp := s.topicHeap tbl.topic
  { s with tableHeap := Function.update s.tableHeap t
             { tbl with n := tbl.n + 1, n_v := incAt tbl.n_v v 1 },
           topicHeap := Function.update s.topicHeap tbl.topic
             { tp with n := tp.n + 1, n_v := incAt tp.n_v v 1 } }

/-- Lines 79-82: the four decrements for a customer of word `v` leaving table `t`. -/
def decrementCounts (s : HdpLda) (t v : Nat) : HdpLda :=
  let tbl := s.tableHeap t
  let tp := s.topicHeap tbl.topic
  { s with tableHeap := Function.update s.tableHeap t
             { tbl with n := tbl.n - 1, n_v := incAt tbl.n_v v (-1) },
           topicHeap := Function.update s.topicHeap tbl.topic
             { tp with n := tp.n - 1, n_v := incAt tp.n_v v (-1) } }

/-- Lines 85-94: if table `t` of restaurant `j` has no customer left, remove it from the
restaurant, decrement its topic's `m` and the franchise `m`, and remove the topic from
the franchise when no table serves it any more. -/
def removeEmptyTable (s : HdpLda) (j t : Nat) : HdpLda :=
  if (s.tableHeap t).n = 0 then
    let k := (s.tableHeap t).topic
    let r := s.rest j
    let tp := s.topicHeap k
    let s1 : HdpLda :=
      { s with restaurants := s.restaurants.set j { r with tables := r.tables.filter (· ≠ t) },
               topicHeap := Function.update s.topicHeap k { tp with m := tp.m - 1 },
               m := s.m - 1 }
    if (s1.topicHeap k).m = 0 then { s1 with topics := s1.topics.filter (· ≠ k) } else s1
  else s

/-- Line 184 (`customers[i].table = newTable`). -/
def assignTable (s : HdpLda) (j i t : Nat) : HdpLda :=
  let r := s.rest j
  let c : Customer := { word := (r.customers.getD i ⟨0, 0⟩).word, table := t }
  s.setRest j { r with customers := r.customers.set i c }

/-- Lines 142-148 (also 158-166 and 290-296): the first index `t ≤ T` whose cumulative
sum exceeds `rnd`, and `T` when there is none. -/
def drawIndex (cdf : List ℚ) (rnd : ℚ) (T : Nat) : Nat :=
  ((List.range (T + 1)).find? (fun t => decide (cdf.getD t 0 > rnd))).getD T

/-! ## Constructor (lines 16-51) -/

/-- Lines 41-49: the tokens of document `j`, seated one by one at table `t`.  An access
`n_v[v]` outside the vector has no defined result: it is `none`. -/
def initTokens (s : HdpLda) (j t : Nat) : List Nat → Option HdpLda
  | [] => some s
  | v :: toks =>
    if v < s.V then
      let s1 := incrementCounts s t v
      let r := s1.rest j
      initTokens (s1.setRest j { r with customers := r.customers ++ [⟨v, t⟩] }) j t toks
    else none

/-- Lines 31-49: the first table of restaurant `j`, its `n`, and its customers. -/
def initDocument (s : HdpLda) (j : Nat) (firstTopic : Nat) (doc : List Nat) : Option HdpLda :=
  let p := addTable s j firstTopic
  let r := p.1.rest j
  initTokens (p.1.setRest j { r with n := doc.length }) j p.2 doc

/-- Lines 30-50: the loop over the documents, from index `j` on. -/
def initDocuments (firstTopic : Nat) : HdpLda → Nat → List (List Nat) → Option HdpLda
  | s, _, [] => some s
  | s, j, doc :: docs =>
    match initDocument s j firstTopic doc with
    | none => none
    | some s1 => initDocuments firstTopic s1 (j + 1) docs

/-- Lines 19-25: the member initialisers, `m = 0` and `restaurants.resize(D)`, before
the first topic is created. -/
def emptyState (corpus : Corpus) (gamma alpha0 beta : ℚ) (K : Int)
    (gamma_a gamma_b alpha0_a alpha0_b : ℚ) : HdpLda :=
  { V := corpus.V, D := corpus.D, N := corpus.N, K := K,
    gamma := gamma, alpha0 := alpha0, beta := beta,
    gamma_a := gamma_a, gamma_b := gamma_b, alpha0_a := alpha0_a, alpha0_b := alpha0_b,
    m := 0, topics := [],
    restaurants := List.replicate corpus.D { customers := [], tables := [], n := 0 },
    topicHeap := fun _ => Topic.new corpus.V beta, nextTopic := 0,
    tableHeap := fun _ => Table.new corpus.V 0, nextTable := 0 }

/-- Lines 16-51: constructor `HdpLda::HdpLda`.  The seed only initialises the engine,
which the embedding replaces by the stream `Rng`. -/
def HdpLda.init (corpus : Corpus) (gamma alpha0 beta : ℚ) (K : Int)
    (gamma_a gamma_b alpha0_a alpha0_b : ℚ) : Option HdpLda :=
  let p := addTopic (emptyState corpus gamma alpha0 beta K gamma_a gamma_b alpha0_a alpha0_b)
  initDocuments p.2 p.1 0 corpus.documents

/-! ## Table sampler (lines 64-187) -/

/-- Lines 112-119: for every topic in list order, cache `phi_v[v]`, accumulate `G0_v`
and record the running sum in `G0_vk`.  The result is the topic heap, `G0_v` and
`G0_vk[0..K)`. -/
def phiLoop (s : HdpLda) (v : Nat) : (Nat → Topic) × ℚ × List ℚ :=
  s.topics.foldl (fun acc k =>
    let tp := acc.1 k
    let phi : ℚ := ((tp.n_v.getD v 0 : ℚ) + s.beta) / ((tp.n : ℚ) + (s.V : ℚ) * s.beta)
    let tp1 : Topic := { tp with phi_v := tp.phi_v.set v phi }
    let G0_v := acc.2.1 + (tp1.m : ℚ) * tp1.phi_v.getD v 0
    (Function.update acc.1 k tp1, G0_v, acc.2.2 ++ [G0_v])) (s.topicHeap, 0, [])

/-- Lines 127-134: running sums of `n_jt * psi_jt(v)` over the tables of the restaurant. -/
def tableLoop (s : HdpLda) (tables : List Nat) (v : Nat) : ℚ × List ℚ :=
  tables.foldl (fun acc t =>
    let tbl := s.tableHeap t
    let sum := acc.1 + (tbl.n : ℚ) * (s.topicHeap tbl.topic).phi_v.getD v 0
    (sum, acc.2 ++ [sum])) (0, [])

/-- Lines 78-94: customer `i` of restaurant `j` leaves its table. -/
def unseat (s : HdpLda) (j i : Nat) : HdpLda :=
  let c := (s.rest j).customers.getD i ⟨0, 0⟩
  removeEmptyTable (decrementCounts s c.table c.word) j c.table

/-- Lines 180-184: the customer `i` of restaurant `j`, of word `v`, is seated at `t`. -/
def seat (s : HdpLda) (j i v t : Nat) : HdpLda :=
  assignTable (incrementCounts s t v) j i t

/-- Lines 97-185: the table draw, the dish draw for a new table, and the seating, in the
state `s2` reached after the customer left and the `phi_v` cache was refreshed; `G0_sum`
and `G0_vk0` are the values of `G0_v` and `G0_vk[0..K)` at line 119. -/
def seatDraw (s2 : HdpLda) (j i v : Nat) (G0_sum : ℚ) (G0_vk0 : List ℚ) (g : Rng) :
    HdpLda × Rng :=
  let tables := (s2.rest j).tables
  let T := tables.length
  let K := s2.topics.length
  let G0_v1 := G0_sum + s2.gamma * (1 / (s2.V : ℚ))
  let G0_vk := G0_vk0 ++ [G0_v1]
  let G0_v := G0_v1 / ((s2.m : ℚ) + s2.gamma)
  let tl := tableLoop s2 tables v
  let unnormalizedCDF := tl.2 ++ [tl.1 + s2.alpha0 * G0_v]
  let u := uniform g
  let tNew := drawIndex unnormalizedCDF (u.1 * unnormalizedCDF.getD T 0) T
  if tNew < T then
    (seat s2 j i v (tables.getD tNew 0), u.2)
  else
    let u2 := uniform u.2
    let kNew := drawIndex G0_vk (u2.1 * G0_vk.getD K 0) K
    let p := if kNew < K then (s2, s2.topics.getD kNew 0) else addTopic s2
    let q := addTable p.1 j p.2
    (seat q.1 j i v q.2, u2.2)

/-- Lines 77-185: one iteration of the customer loop of `sampleTables`. -/
def sampleTablesStep (s : HdpLda) (j i : Nat) (g : Rng) : HdpLda × Rng :=
  let v := ((s.rest j).customers.getD i ⟨0, 0⟩).word
  let s1 := unseat s j i
  let ph := phiLoop s1 v
  seatDraw { s1 with topicHeap := ph.1 } j i v ph.2.1 ph.2.2 g

/-- Lines 72-186, one restaurant: the loop over its customers. -/
def sampleTablesRestaurant (s : HdpLda) (j : Nat) (g : Rng) : HdpLda × Rng :=
  (List.range (s.rest j).customers.length).foldl
    (fun p i => sampleTablesStep p.1 j i p.2) (s, g)

/-- Lines 64-187: `HdpLda::sampleTables`. -/
def sampleTables (s : HdpLda) (g : Rng) : HdpLda × Rng :=
  (List.range s.D).foldl (fun p j => sampleTablesRestaurant p.1 j p.2) (s, g)

/-! ## Topic sampler (lines 189-319) -/

/-- Lines 190-214: `HdpLda::logRisingFactorial`; the caller passes an `int` count as `n`. -/
def logRisingFactorial {R : Type} [LinearOrderedField R] (L : Libm R) (x : R) (n : Int) : R :=
  if 13 < n then
    if x < (10 : R) ^ 15 then L.lgamma (x + (n : R)) - L.lgamma x
    else (List.range n.toNat).foldl (fun total i => total + L.log (x + (i : R))) 0
  else
    if x < (10 : R) ^ 22 then
      L.log ((List.range n.toNat).foldl (fun total i => total * (x + (i : R))) 1)
    else (List.range n.toNat).foldl (fun total i => total + L.log (x + (i : R))) 0

/-- Lines 238-243: the words present at a table, with their counts. -/
def nonzeroCounts (V : Nat) (n_v : List Int) : List (Nat × Int) :=
  (List.range V).filterMap
    (fun v => if n_v.getD v 0 ≠ 0 then some (v, n_v.getD v 0) else none)

/-- Lines 250-254 and 308-312 (with `sign = -1`, `1`): add `sign * count` to `l[v]` for
every recorded pair. -/
def addCounts (l : List Int) (n_v : List (Nat × Int)) (sign : Int) : List Int :=
  n_v.foldl (fun acc p => incAt acc p.1 (sign * p.2)) l

/-- Lines 233-255: the table's block leaves its topic. -/
def detach (s : HdpLda) (t : Nat) : HdpLda :=
  let tbl := s.tableHeap t
  let k := tbl.topic
  let tp := s.topicHeap k
  let tp1 : Topic := { tp with m := tp.m - 1 }
  let n_v := nonzeroCounts s.V tbl.n_v
  if tp1.m = 0 then
    { s with m := s.m - 1, topicHeap := Function.update s.topicHeap k tp1,
             topics := s.topics.filter (· ≠ k) }
  else
    { s with m := s.m - 1,
             topicHeap := Function.update s.topicHeap k
               { tp1 with n := tp1.n - tbl.n, n_v := addCounts tp1.n_v n_v (-1) } }

/-- Lines 306-314: the table's block joins topic `k`. -/
def attach (s : HdpLda) (t k : Nat) : HdpLda :=
  let tbl := s.tableHeap t
  let tp := s.topicHeap k
  let n_v := nonzeroCounts s.V tbl.n_v
  { s with topicHeap := Function.update s.topicHeap k
             { tp with m := tp.m + 1, n := tp.n + tbl.n, n_v := addCounts tp.n_v n_v 1 },
           tableHeap := Function.update s.tableHeap t { tbl with topic := k },
           m := s.m + 1 }

/-- Lines 266-280: the `K + 1` log-weights of the table `t`. -/
def logWeights (L : Libm ℚ) (s : HdpLda) (t : Nat) : List ℚ :=
  let tbl := s.tableHeap t
  let n_v := nonzeroCounts s.V tbl.n_v
  s.topics.map (fun k =>
    let topic := s.topicHeap k
    n_v.foldl (fun acc p =>
        acc + logRisingFactorial L ((topic.n_v.getD p.1 0 : ℚ) + s.beta) p.2)
      (L.log (topic.m : ℚ)
        - logRisingFactorial L ((topic.n : ℚ) + (s.V : ℚ) * s.beta) tbl.n))
  ++ [n_v.foldl (fun acc p => acc + logRisingFactorial L s.beta p.2)
        (L.log s.gamma - logRisingFactorial L ((s.V : ℚ) * s.beta) tbl.n)]

/-- Line 282: `*(boost::min_element(logPk))`. -/
def minElement (l : List ℚ) : ℚ := l.tail.foldl min (l.headD 0)

/-- Lines 283-286: running sums of `exp(logPk[k] - maxLogP)`. -/
def expCDF (L : Libm ℚ) (logPk : List ℚ) (maxLogP : ℚ) : List ℚ :=
  (logPk.foldl (fun acc x => (acc.1 + L.exp (x - maxLogP), acc.2 ++ [acc.1 + L.exp (x - maxLogP)]))
    ((0 : ℚ), ([] : List ℚ))).2

/-- Lines 259-314: the topic draw and the block increment, in the state `s1` reached
after the table's block left its topic. -/
def attachDraw (L : Libm ℚ) (s1 : HdpLda) (t : Nat) (g : Rng) : HdpLda × Rng :=
  let K := s1.topics.length
  let logPk := logWeights L s1 t
  let maxLogP := minElement logPk
  let unnormalizedCDF := expCDF L logPk maxLogP
  let u := uniform g
  let kNew := drawIndex unnormalizedCDF (u.1 * unnormalizedCDF.getD K 0) K
  let p := if kNew < K then (s1, s1.topics.getD kNew 0) else addTopic s1
  (attach p.1 t p.2, u.2)

/-- Lines 231-315: one iteration of the table loop of `sampleTopics`. -/
def sampleTopicsStep (L : Libm ℚ) (s : HdpLda) (t : Nat) (g : Rng) : HdpLda × Rng :=
  attachDraw L (detach s t) t g

/-- Lines 225-317, one restaurant: the loop over its tables. -/
def sampleTopicsRestaurant (L : Libm ℚ) (s : HdpLda) (j : Nat) (g : Rng) : HdpLda × Rng :=
  (s.rest j).tables.foldl (fun p t => sampleTopicsStep L p.1 t p.2) (s, g)

/-- Lines 216-319: `HdpLda::sampleTopics`. -/
def sampleTopics (L : Libm ℚ) (s : HdpLda) (g : Rng) : HdpLda × Rng :=
  (List.range s.D).foldl (fun p j => sampleTopicsRestaurant L p.1 j p.2) (s, g)

/-! ## Read operations -/

/-- Lines 347-367: `HdpLda::calcPhi`. -/
def calcPhi (s : HdpLda) : List (List ℚ) :=
  s.topics.map (fun k =>
    let topic := s.topicHeap k
    (List.range s.V).map (fun v =>
      ((topic.n_v.getD v 0 : ℚ) + s.beta) / ((topic.n : ℚ) + (s.V : ℚ) * s.beta)))

/-- Lines 386-389: `theta[j][k] += tables[t]->n` with `k` the position of the table's
topic in the topic list. -/
def thetaCounts (s : HdpLda) (tables : List Nat) : List ℚ :=
  tables.foldl (fun th t =>
    let k := s.topics.indexOf (s.tableHeap t).topic
    th.set k (th.getD k 0 + ((s.tableHeap t).n : ℚ))) (List.replicate s.topics.length 0)

/-- Lines 371-397: `HdpLda::calcTheta`. -/
def calcTheta (s : HdpLda) : List (List ℚ) :=
  let K := s.topics.length
  (List.range s.D).map (fun j =>
    let th := thetaCounts s (s.rest j).tables
    (List.range K).map (fun k =>
      (th.getD k 0
        + s.alpha0 * (((s.topicHeap (s.topics.getD k 0)).m : ℚ) + s.gamma / (K : ℚ))
            / ((s.m : ℚ) + s.gamma))
      / (((s.rest j).n : ℚ) + s.alpha0)))

/-- Lines 519-530: `HdpLda::calcSticksOfG0`. -/
def calcSticksOfG0 (s : HdpLda) : List ℚ :=
  let stickLengths := s.topics.map (fun k => ((s.topicHeap k).n : ℚ)) ++ [s.gamma]
  let total := stickLengths.foldl (· + ·) 0
  stickLengths.map (· / total)

/-! ## One sweep, and the assignments ending the hyper-parameter samplers -/

/-- Line 491 of `sampleGamma`: `gamma` receives the drawn value `x`. -/
def assignGamma (s : HdpLda) (x : ℚ) : HdpLda := { s with gamma := x }

/-- Line 513 of `sampleAlpha0`: `alpha0` receives the drawn value `x`. -/
def assignAlpha0 (s : HdpLda) (x : ℚ) : HdpLda := { s with alpha0 := x }

/-- Lines 55-60: `HdpLda::sampling`. -/
def sampling (L : Libm ℚ) (s : HdpLda) (g : Rng) : HdpLda × Rng :=
  let p := sampleTables s g
  let q := sampleTopics L p.1 p.2
  ({ q.1 with K := q.1.topics.length }, q.2)

/-- The hyper-parameters and priors of a state, as stored by the constructor. -/
def HdpLda.params (s : HdpLda) : ℚ × ℚ × ℚ × Int × ℚ × ℚ × ℚ × ℚ :=
  (s.gamma, s.alpha0, s.beta, s.K, s.gamma_a, s.gamma_b, s.alpha0_a, s.alpha0_b)

/-! ## Hyper-parameter sampler (lines 471-515)

The random distributions of the library are outside the sources: a call is modelled by the
parameters it is given and by the value it returns, which is an argument of the model. -/

/-- The parameters `sampleGamma` hands to the random distributions: `betaRandom(betaAlpha,
betaBeta)`, `bernoulli_distribution(p_pi)` and `gamma_distribution(shape, scale)`. -/
structure GammaParams where
  betaAlpha : ℚ
  betaBeta : ℚ
  p_pi : ℚ
  shape : ℚ
  scale : ℚ

/-- The parameters one iteration of `sampleAlpha0` hands to the random distributions:
for every document `j`, `betaRandom(betaAlpha, betaBeta[j])` and
`bernoulli_distribution(p_s[j])`, then `gamma_distribution(shape, scale)`. -/
structure Alpha0Params where
  betaAlpha : ℚ
  betaBeta : List ℚ
  p_s : List ℚ
  shape : ℚ
  scale : ℚ

/-- Lines 479-492: `HdpLda::sampleGamma`, where `eta` is the value returned by
`betaRandom`, `pi` the outcome of the Bernoulli draw and `x` the value returned by the
Gamma draw. The result is the new state and the parameters of the three draws. -/
def sampleGamma (L : Libm ℚ) (s : HdpLda) (eta : ℚ) (pi : Bool) (x : ℚ) : HdpLda × GammaParams :=
  let k : ℚ := (s.topics.length : ℚ)
  let p_pi0 := s.gamma_a + k - 1
  let p_pi := p_pi0 / (p_pi0 + (s.m : ℚ) * (s.gamma_b - L.log eta))
  let shape := if pi then s.gamma_a + k else s.gamma_a + k - 1
  let scale := 1 / (s.gamma_b - L.log eta)
  (assignGamma s x,
    { betaAlpha := s.gamma + 1, betaBeta := (s.m : ℚ), p_pi := p_pi, shape := shape,
      scale := scale })

/-- Lines 504-510: the sums `sum_log_w` and `sum_s` over the documents, where `w j` is the
value returned by `betaRandom` for document `j` and `sb j` the outcome of its Bernoulli
draw. -/
def alpha0Sums (L : Libm ℚ) (s : HdpLda) (w : Nat → ℚ) (sb : Nat → Bool) : ℚ × ℚ :=
  (List.range s.D).foldl
    (fun acc j => (acc.1 + L.log (w j), acc.2 + (if sb j then 1 else 0))) ((0 : ℚ), (0 : ℚ))

/-- Lines 504-513: the parameters of the draws of one iteration of `sampleAlpha0`. -/
def sampleAlpha0Params (L : Libm ℚ) (s : HdpLda) (w : Nat → ℚ) (sb : Nat → Bool) :
    Alpha0Params :=
  let sums := alpha0Sums L s w sb
  { betaAlpha := s.alpha0 + 1,
    betaBeta := (List.range s.D).map (fun j => ((s.rest j).n : ℚ)),
    p_s := (List.range s.D).map (fun j => ((s.rest j).n : ℚ) / (s.alpha0 + ((s.rest j).n : ℚ))),
    shape := s.alpha0_a + (s.m : ℚ) - sums.2,
    scale := 1 / (s.alpha0_b - sums.1) }

/-- Lines 496-515: `HdpLda::sampleAlpha0`, one list entry per iteration: the values `w`
returned by `betaRandom`, the Bernoulli outcomes `sb` and the value `x` returned by the
Gamma draw. The result is the new state and the parameters of the draws of every
iteration. -/
def sampleAlpha0 (L : Libm ℚ) :
    HdpLda → List ((Nat → ℚ) × (Nat → Bool) × ℚ) → HdpLda × List Alpha0Params
  | s, [] => (s, [])
  | s, d :: draws =>
    ((sampleAlpha0 L (assignAlpha0 s d.2.2) draws).1,
      sampleAlpha0Params L s d.1 d.2.1 :: (sampleAlpha0 L (assignAlpha0 s d.2.2) draws).2)

/-! ## The draws of the samplers: discrete sampling from cumulative sums -/

/-- Running sums `c[i] = w[0] + ... + w[i]` of a list of weights, accumulated the way
lines 130-131 (table draw), 115-116 (dish draw) and 283-285 (topic draw) do. -/
def cumulativeSums (w : List ℚ) : List ℚ :=
  (w.foldl (fun acc x => (acc.1 + x, acc.2 ++ [acc.1 + x])) ((0 : ℚ), ([] : List ℚ))).2

/-- Lines 141-148 (also 157-166 and 289-296) on the cumulative sums of the weights `w`:
the uniform variate `u` is scaled by the last cumulant, and the first cumulant strictly
greater than the scaled variate wins. -/
def sampleIndex (w : List ℚ) (u : ℚ) : Nat :=
  let cdf := cumulativeSums w
  let T := w.length - 1
  drawIndex cdf (u * cdf.getD T 0) T

/-- Lines 97-148: the index `tNew` that `seatDraw` draws for the table. -/
def tableDraw (s2 : HdpLda) (j v : Nat) (G0_sum : ℚ) (g : Rng) : Nat :=
  let tables := (s2.rest j).tables
  let T := tables.length
  let G0_v1 := G0_sum + s2.gamma * (1 / (s2.V : ℚ))
  let G0_v := G0_v1 / ((s2.m : ℚ) + s2.gamma)
  let tl := tableLoop s2 tables v
  let unnormalizedCDF := tl.2 ++ [tl.1 + s2.alpha0 * G0_v]
  drawIndex unnormalizedCDF ((uniform g).1 * unnormalizedCDF.getD T 0) T

/-- Lines 157-166: the index `kNew` that `seatDraw` draws for the dish of a new table,
from the stream `g` left by the table draw. -/
def dishDraw (s2 : HdpLda) (G0_sum : ℚ) (G0_vk0 : List ℚ) (g : Rng) : Nat :=
  let K := s2.topics.length
  let G0_vk := G0_vk0 ++ [G0_sum + s2.gamma * (1 / (s2.V : ℚ))]
  drawIndex G0_vk ((uniform g).1 * G0_vk.getD K 0) K

/-- Lines 259-296: the index `kNew` that `attachDraw` draws for the topic of table `t`. -/
def topicDraw (L : Libm ℚ) (s1 : HdpLda) (t : Nat) (g : Rng) : Nat :=
  let K := s1.topics.length
  let logPk := logWeights L s1 t
  let unnormalizedCDF := expCDF L logPk (minElement logPk)
  drawIndex unnormalizedCDF ((uniform g).1 * unnormalizedCDF.getD K 0) K

/-- Lines 112-119: the state after the `phi_v` cache was refreshed for word `v`. -/
def refreshPhi (s1 : HdpLda) (v : Nat) : HdpLda := { s1 with topicHeap := (phiLoop s1 v).1 }

/-- Lines 78-148 in a step of `sampleTables`: the table index drawn for customer `i` of
restaurant `j`. -/
def stepTableDraw (s : HdpLda) (j i : Nat) (g : Rng) : Nat :=
  let v := ((s.rest j).customers.getD i ⟨0, 0⟩).word
  let s1 := unseat s j i
  tableDraw (refreshPhi s1 v) j v (phiLoop s1 v).2.1 g

/-- Lines 130 and 137: the weights of the table draw, `n_jt * psi_jt(v)` for the tables
of the restaurant and `alpha0 * G0(v)` for a new table. -/
def tableWeights (s2 : HdpLda) (j v : Nat) (G0_sum : ℚ) : List ℚ :=
  (s2.rest j).tables.map
      (fun t => ((s2.tableHeap t).n : ℚ) * (s2.topicHeap (s2.tableHeap t).topic).phi_v.getD v 0)
    ++ [s2.alpha0 * ((G0_sum + s2.gamma * (1 / (s2.V : ℚ))) / ((s2.m : ℚ) + s2.gamma))]

/-- Lines 114-115 and 120: the weights of the dish draw, `m_k * phi_k(v)` for the topics of
the franchise (with `phi_k(v)` as line 114 stores it) and `gamma * (1 / V)` for a new
topic. -/
def dishWeights (s : HdpLda) (v : Nat) : List ℚ :=
  s.topics.map (fun k =>
      ((s.topicHeap k).m : ℚ)
        * ((s.topicHeap k).phi_v.set v
            ((((s.topicHeap k).n_v.getD v 0 : ℚ) + s.beta)
              / (((s.topicHeap k).n : ℚ) + (s.V : ℚ) * s.beta))).getD v 0)
    ++ [s.gamma * (1 / (s.V : ℚ))]

/-- Lines 283-285: the weights of the topic draw, `exp(logPk[k] - maxLogP)`. -/
def topicWeights (L : Libm ℚ) (s1 : HdpLda) (t : Nat) : List ℚ :=
  (logWeights L s1 t).map (fun x => L.exp (x - minElement (logWeights L s1 t)))

/-! ## Invariants: definitions -/

/-- Sum of `F` over the tables of `A` that serve topic `k`. -/
def tsum (th : Nat → Table) (A : Multiset Nat) (k : Nat) (F : Table → Int) : Int :=
  (A.map (fun t => if (th t).topic = k then F (th t) else 0)).sum

/-- Customers of restaurant `j`, as a multiset. -/
def HdpLda.seated (s : HdpLda) (j : Nat) : Multiset Customer := ↑(s.rest j).customers

/-- Restaurant-level invariant, relative to the customers `M j` currently counted in
restaurant `j`. -/
structure RInv (s : HdpLda) (M : Nat → Multiset Customer) : Prop where
  lenR : s.restaurants.length = s.D
  nodupT : s.allTables.Nodup
  ltT : ∀ t ∈ s.allTables, t < s.nextTable
  seatIn : ∀ j, j < s.D → ∀ c ∈ M j, c.table ∈ (s.rest j).tables ∧ c.word < s.V
  nT : ∀ j, j < s.D → ∀ t ∈ (s.rest j).tables,
    (s.tableHeap t).n = ((M j).countP (fun c => c.table = t) : Nat)
  lenT : ∀ t ∈ s.allTables, (s.tableHeap t).n_v.length = s.V
  nvT : ∀ j, j < s.D → ∀ t ∈ (s.rest j).tables, ∀ v,
    (s.tableHeap t).n_v.getD v 0 = ((M j).countP (fun c => c.table = t ∧ c.word = v) : Nat)
  sumT : ∀ t ∈ s.allTables, (s.tableHeap t).n = (s.tableHeap t).n_v.sum

/-- Franchise-level invariant, relative to the tables `A` currently counted by their
topics. -/
structure TInv (s : HdpLda) (A : Multiset Nat) : Prop where
  nodupK : s.topics.Nodup
  ltK : ∀ k ∈ s.topics, k < s.nextTopic
  topicIn : ∀ t ∈ A, (s.tableHeap t).topic ∈ s.topics
  mK : ∀ k ∈ s.topics, (s.topicHeap k).m = tsum s.tableHeap A k (fun _ => 1)
  nK : ∀ k ∈ s.topics, (s.topicHeap k).n = tsum s.tableHeap A k (fun tb => tb.n)
  lenK : ∀ k ∈ s.topics, (s.topicHeap k).n_v.length = s.V
  nvK : ∀ k ∈ s.topics, ∀ v,
    (s.topicHeap k).n_v.getD v 0 = tsum s.tableHeap A k (fun tb => tb.n_v.getD v 0)
  mTot : s.m = (Multiset.card A : Nat)

/-- Common form of lines 79-82 (`d = -1`) and 180-183 (`d = 1`). -/
def bumpCounts (s : HdpLda) (t v : Nat) (d : Int) : HdpLda :=
  let tbl := s.tableHeap t
  let tp := s.topicHeap tbl.topic
  { s with tableHeap := Function.update s.tableHeap t
             { tbl with n := tbl.n + d, n_v := incAt tbl.n_v v d },
           topicHeap := Function.update s.topicHeap tbl.topic
             { tp with n := tp.n + d, n_v := incAt tp.n_v v d } }

/-- Customers and customer count of every restaurant. -/
def custKey (s : HdpLda) : List (List Customer × Int) :=
  s.restaurants.map (fun r => (r.customers, r.n))

/-- Main invariant between sampler calls (the counts agree with the seating). -/
def Inv (s : HdpLda) : Prop := RInv s s.seated ∧ TInv s ↑s.allTables

/-- Customer count and word sequence of every restaurant. -/
def Shape (s : HdpLda) : List (Int × List Nat) :=
  s.restaurants.map (fun r => (r.n, r.customers.map Customer.word))

/-- Every topic of the franchise is served by at least one table. -/
def PosK (s : HdpLda) : Prop := ∀ k ∈ s.topics, 1 ≤ (s.topicHeap k).m

/-- Every table of the franchise seats at least one customer. -/
def PosT (s : HdpLda) : Prop := ∀ t ∈ s.allTables, 1 ≤ (s.tableHeap t).n

/-- What one sampler step (or call) guarantees about the state it returns. -/
def Step (s s1 : HdpLda) : Prop :=
  Inv s1 ∧ s1.D = s.D ∧ s1.V = s.V ∧ Shape s1 = Shape s
    ∧ (PosK s → PosK s1) ∧ (PosT s → PosT s1)

/-- A step of the topic sampler: `Step`, and the restaurants are untouched. -/
def StepK (s s1 : HdpLda) : Prop := Step s s1 ∧ s1.restaurants = s.restaurants

/-- What seating the tokens of one document changes in the registry. -/
structure TokensPost (s s1 : HdpLda) (j t : Nat) (toks : List Nat) : Prop where
  inv : Inv s1
  cust : (s1.rest j).customers = (s.rest j).customers ++ toks.map (fun v => ⟨v, t⟩)
  nR : (s1.rest j).n = (s.rest j).n
  tabs : (s1.rest j).tables = (s.rest j).tables
  other : ∀ j1, j1 ≠ j → s1.rest j1 = s.rest j1
  topics : s1.topics = s.topics
  dEq : s1.D = s.D
  vEq : s1.V = s.V
  nextT : s1.nextTable = s.nextTable

/-- What the constructor's loop body does for document `j`. -/
structure DocPost (s s1 : HdpLda) (j : Nat) (doc : List Nat) : Prop where
  inv : Inv s1
  cust : (s1.rest j).customers = doc.map (fun v => ⟨v, s.nextTable⟩)
  nR : (s1.rest j).n = doc.length
  tabs : (s1.rest j).tables = [s.nextTable]
  other : ∀ j1, j1 ≠ j → s1.rest j1 = s.rest j1
  topics : s1.topics = s.topics
  dEq : s1.D = s.D
  vEq : s1.V = s.V
  nextT : s1.nextTable = s.nextTable + 1

/-- One restaurant right after construction: a single table seating the whole document. -/
def FreshRestaurant (r : Restaurant) (doc : List Nat) : Prop :=
  ∃ t, r.customers = doc.map (fun v => ⟨v, t⟩) ∧ r.n = doc.length ∧ r.tables = [t]

/-- What the constructor guarantees about the state it returns. -/
structure InitPost (corpus : Corpus) (s : HdpLda) : Prop where
  inv : Inv s
  fresh : ∀ j, j < corpus.D → FreshRestaurant (s.rest j) (corpus.documents.getD j [])
  topics : s.topics = [0]
  dEq : s.D = corpus.D
  vEq : s.V = corpus.V

/-- States reachable from a successful construction on `corpus` by calls of
`sampleTables`, `sampleTopics`, `sampling`, and by the assignments that end `sampleGamma`
and `sampleAlpha0`, for every stream of uniform variates and every drawn value. -/
inductive Reachable (corpus : Corpus) : HdpLda → Prop
  | init (gamma alpha0 beta : ℚ) (K : Int) (gamma_a gamma_b alpha0_a alpha0_b : ℚ)
      (s : HdpLda)
      (h : HdpLda.init corpus gamma alpha0 beta K gamma_a gamma_b alpha0_a alpha0_b = some s) :
      Reachable corpus s
  | tables (s : HdpLda) (g : Rng) (h : Reachable corpus s) :
      Reachable corpus (sampleTables s g).1
  | topics (L : Libm ℚ) (s : HdpLda) (g : Rng) (h : Reachable corpus s) :
      Reachable corpus (sampleTopics L s g).1
  | sweep (L : Libm ℚ) (s : HdpLda) (g : Rng) (h : Reachable corpus s) :
      Reachable corpus (sampling L s g).1
  | gamma (s : HdpLda) (x : ℚ) (h : Reachable corpus s) : Reachable corpus (assignGamma s x)
  | alpha0 (s : HdpLda) (x : ℚ) (h : Reachable corpus s) : Reachable corpus (assignAlpha0 s x)

/-- States in which a step of a sampler can start: the states between sampler calls
(`Reachable`) and the states reached from them by steps of the customer loop of
`sampleTables` and of the table loop of `sampleTopics`, for every stream of uniform
variates. -/
inductive Visited (corpus : Corpus) : HdpLda → Prop
  | reach (s : HdpLda) (h : Reachable corpus s) : Visited corpus s
  | tableStep (s : HdpLda) (j i : Nat) (g : Rng) (h : Visited corpus s) (hj : j < s.D)
      (hi : i < (s.rest j).customers.length) : Visited corpus (sampleTablesStep s j i g).1
  | topicStep (L : Libm ℚ) (s : HdpLda) (t : Nat) (g : Rng) (h : Visited corpus s)
      (ht : t ∈ s.allTables) : Visited corpus (sampleTopicsStep L s t g).1

/-- Everything the development establishes about a reachable state. -/
structure Good (corpus : Corpus) (s : HdpLda) : Prop where
  inv : Inv s
  dEq : s.D = corpus.D
  vEq : s.V = corpus.V
  shape : Shape s = corpus.documents.map (fun d => ((d.length : Int), d))
  posK : 1 ≤ corpus.D → PosK s
  posT : (∀ doc ∈ corpus.documents, doc ≠ []) → PosT s

/-- Every restaurant has at least one table. -/
def TabNe (s : HdpLda) : Prop := ∀ j, j < s.D → (s.rest j).tables ≠ []

/-- Restaurant `j` has a single customer, of word `v`, and a single table, where that
customer sits. -/
def Single (s : HdpLda) (j v : Nat) : Prop :=
  ∃ t, (s.rest j).customers = [⟨v, t⟩] ∧ (s.rest j).tables = [t]

/-- The corpus of scenario S1: `V = 3`, documents `[[0,1],[2,2,0]]`. -/
def exampleCorpus : Corpus := { documents := [[0, 1], [2, 2, 0]], V := 3 }

/-- The state constructed on `exampleCorpus` with `gamma = alpha0 = 1`, `beta = 1/10`. -/
def exampleState : HdpLda :=
  (HdpLda.init exampleCorpus 1 1 (1 / 10) 5 1 1 1 1).getD
    (emptyState exampleCorpus 1 1 (1 / 10) 5 1 1 1 1)

/-- A stream of uniform variates used in the examples. -/
def exampleRng : Rng := fun i => if i % 3 = 0 then 1 / 2 else if i % 3 = 1 then 9 / 10 else 0

/-- A stream of uniform variates that are all `0`. -/
def zeroRng : Rng := fun _ => 0

/-- A stream of uniform variates: `1/2`, then `0` for ever. -/
def orphanRng : Rng := fun i => if i = 0 then 1 / 2 else 0

/-- A stand-in for libm used in the examples (any functions do). -/
def exampleLibm : Libm ℚ := { log := fun x => x - 1, exp := fun x => 1 + x * x, lgamma := fun x => x }

/-- The state after one call of `sampleTables` and one of `sampleTopics` on `exampleState`. -/
def exampleSwept : HdpLda :=
  (sampleTopics exampleLibm (sampleTables exampleState exampleRng).1
    (sampleTables exampleState exampleRng).2).1

/-- A corpus with one document that has no token. -/
def emptyDocCorpus : Corpus := { documents := [[]], V := 1 }

/-- The state constructed on `emptyDocCorpus`. -/
def emptyDocState : HdpLda :=
  (HdpLda.init emptyDocCorpus 1 1 1 1 1 1 1 1).getD (emptyState emptyDocCorpus 1 1 1 1 1 1 1 1)

/-- A corpus with a single document of a single token. -/
def singleTokenCorpus : Corpus := { documents := [[0]], V := 1 }

/-- The state constructed on `singleTokenCorpus`. -/
def singleTokenState : HdpLda :=
  (HdpLda.init singleTokenCorpus 1 1 1 1 1 1 1 1).getD
    (emptyState singleTokenCorpus 1 1 1 1 1 1 1 1)

/-- A configuration with no document, an empty vocabulary and null hyper-parameters. -/
def emptyCorpus : Corpus := { documents := [], V := 0 }

/-! ## The real reading of libm, and the rule of the spec for `logRF` -/

/-- The reading of libm over the real numbers: `log` is the natural logarithm and, on
positive arguments, `lgamma` is the logarithm of the Gamma function. -/
def Libm.IsReal (L : Libm ℝ) : Prop :=
  (∀ y, L.log y = Real.log y) ∧ (∀ y, 0 < y → L.lgamma y = Real.log (Real.Gamma y))

/-- The ordered rule of the spec for `logRF` (section 4.4, "numerical strategy"), written
from the spec's words for comparison with `logRisingFactorial`: the direct product then
`log` if `n ≤ 13` and `x < 10^22`; else `lgamma(x+n) − lgamma(x)` if `x < 10^15`; else the
sum of `log(x+i)` for `i < n`. -/
def logRisingFactorialSpec {R : Type} [LinearOrderedField R] (L : Libm R) (x : R) (n : Int) : R :=
  if n ≤ 13 ∧ x < (10 : R) ^ 22 then
    L.log (((List.range n.toNat).map (fun (i : Nat) => x + (i : R))).prod)
  else if x < (10 : R) ^ 15 then L.lgamma (x + (n : R)) - L.lgamma x
  else ((List.range n.toNat).map (fun (i : Nat) => L.log (x + (i : R)))).sum

/-! ## Lemmas -/

/-! ### Sums over the tables that serve a topic -/

theorem tsum_cons (th : Nat → Table) (t : Nat) (A : Multiset Nat) (k : Nat) (F : Table → Int) :
    tsum th (t ::ₘ A) k F = (if (th t).topic = k then F (th t) else 0) + tsum th A k F := by
  simp [tsum]

theorem tsum_congr {th th1 : Nat → Table} {A : Multiset Nat} (k : Nat) (F : Table → Int)
    (h : ∀ t ∈ A, th1 t = th t) : tsum th1 A k F = tsum th A k F := by
  unfold tsum
  congr 1
  apply Multiset.map_congr rfl
  intro t ht
  rw [h t ht]

theorem tsum_update_not_mem (th : Nat → Table) {A : Multiset Nat} {t : Nat} (x : Table)
    (k : Nat) (F : Table → Int) (h : t ∉ A) :
    tsum (Function.update th t x) A k F = tsum th A k F := by
  apply tsum_congr
  intro t1 ht1
  have : t1 ≠ t := fun e => h (e ▸ ht1)
  simp [Function.update_noteq this]

theorem exists_cons_of_mem_nodup {A : Multiset Nat} {t : Nat} (hnd : A.Nodup) (ht : t ∈ A) :
    t ∉ A.erase t ∧ A = t ::ₘ A.erase t := by
  refine ⟨?_, (Multiset.cons_erase ht).symm⟩
  intro h
  exact ((Multiset.Nodup.mem_erase_iff hnd).mp h).1 rfl

theorem tsum_erase (th : Nat → Table) {A : Multiset Nat} {t : Nat} (k : Nat) (F : Table → Int)
    (ht : t ∈ A) :
    tsum th (A.erase t) k F = tsum th A k F - (if (th t).topic = k then F (th t) else 0) := by
  conv_rhs => rw [← Multiset.cons_erase ht, tsum_cons]
  ring

theorem tsum_update (th : Nat → Table) {A : Multiset Nat} {t : Nat} (x : Table) (k : Nat)
    (F : Table → Int) (hnd : A.Nodup) (ht : t ∈ A) :
    tsum (Function.update th t x) A k F
      = tsum th A k F - (if (th t).topic = k then F (th t) else 0)
        + (if x.topic = k then F x else 0) := by
  obtain ⟨h1, h2⟩ := exists_cons_of_mem_nodup hnd ht
  rw [h2, tsum_cons, tsum_cons, tsum_update_not_mem th x k F h1, Function.update_same]
  ring

theorem tsum_nonneg (th : Nat → Table) (A : Multiset Nat) (k : Nat) (F : Table → Int)
    (h : ∀ t ∈ A, 0 ≤ F (th t)) : 0 ≤ tsum th A k F := by
  unfold tsum
  apply Multiset.sum_nonneg
  intro x hx
  rw [Multiset.mem_map] at hx
  obtain ⟨t, ht, rfl⟩ := hx
  split
  · exact h t ht
  · exact le_refl 0

theorem tsum_one_eq_zero (th : Nat → Table) (A : Multiset Nat) (k : Nat)
    (h : tsum th A k (fun _ => 1) = 0) : ∀ t ∈ A, (th t).topic ≠ k := by
  induction A using Multiset.induction_on with
  | empty => intro t ht; simp at ht
  | cons a A ih =>
    rw [tsum_cons] at h
    have h0 := tsum_nonneg th A k (fun _ => 1) (fun _ _ => by norm_num)
    intro t ht
    rw [Multiset.mem_cons] at ht
    by_cases ha : (th a).topic = k
    · rw [if_pos ha] at h; omega
    · rw [if_neg ha] at h
      rcases ht with rfl | ht
      · exact ha
      · exact ih (by omega) t ht

/-! ### Restaurants and their table lists -/

theorem getD_set_rest (l : List Restaurant) (j j1 : Nat) (r d : Restaurant) :
    (l.set j r).getD j1 d = if j1 = j ∧ j < l.length then r else l.getD j1 d := by
  simp only [List.getD_eq_getElem?_getD, List.getElem?_set]
  by_cases h : j = j1
  · subst h
    by_cases h2 : j < l.length
    · simp [h2]
    · simp [h2, List.getElem?_eq_none (not_lt.mp h2)]
  · have h1 : ¬ j1 = j := fun e => h e.symm
    simp [h, h1]

theorem mem_tables_of_getD (l : List Restaurant) (d : Restaurant) (j t : Nat)
    (hj : j < l.length) (ht : t ∈ (l.getD j d).tables) : t ∈ l.flatMap Restaurant.tables := by
  rw [List.mem_flatMap]
  refine ⟨l.getD j d, ?_, ht⟩
  rw [List.getD_eq_getElem l d hj]
  exact List.getElem_mem hj

theorem exists_getD_of_mem_tables (l : List Restaurant) (d : Restaurant) (t : Nat)
    (ht : t ∈ l.flatMap Restaurant.tables) : ∃ j, j < l.length ∧ t ∈ (l.getD j d).tables := by
  rw [List.mem_flatMap] at ht
  obtain ⟨r, hr, htr⟩ := ht
  obtain ⟨j, hj, rfl⟩ := List.getElem_of_mem hr
  exact ⟨j, hj, by rw [List.getD_eq_getElem l d hj]; exact htr⟩

theorem coe_flatMap_set (l : List Restaurant) (d r : Restaurant) (j : Nat) (hj : j < l.length) :
    ((↑((l.set j r).flatMap Restaurant.tables) : Multiset Nat)) + ↑(l.getD j d).tables
      = ↑(l.flatMap Restaurant.tables) + ↑r.tables := by
  induction l generalizing j with
  | nil => simp at hj
  | cons a l ih =>
    cases j with
    | zero =>
      simp only [List.set_cons_zero, List.flatMap_cons, List.getD_cons_zero,
        ← Multiset.coe_add]
      abel
    | succ j =>
      have hj1 : j < l.length := by simpa using hj
      have := ih j hj1
      simp only [List.set_cons_succ, List.flatMap_cons, List.getD_cons_succ,
        ← Multiset.coe_add] at this ⊢
      rw [add_assoc, this]
      abel

theorem tables_owner_unique (l : List Restaurant) (d : Restaurant) (j j1 t : Nat)
    (hnd : (l.flatMap Restaurant.tables).Nodup) (hj : j < l.length) (hj1 : j1 < l.length)
    (ht : t ∈ (l.getD j d).tables) (ht1 : t ∈ (l.getD j1 d).tables) : j = j1 := by
  induction l generalizing j j1 with
  | nil => simp at hj
  | cons a l ih =>
    rw [List.flatMap_cons, List.nodup_append] at hnd
    obtain ⟨_, hl, hdis⟩ := hnd
    cases j with
    | zero =>
      cases j1 with
      | zero => rfl
      | succ j1 =>
        exfalso
        simp only [List.getD_cons_zero, List.getD_cons_succ] at ht ht1
        exact hdis ht (mem_tables_of_getD l d j1 t (by simpa using hj1) ht1)
    | succ j =>
      cases j1 with
      | zero =>
        exfalso
        simp only [List.getD_cons_zero, List.getD_cons_succ] at ht ht1
        exact hdis ht1 (mem_tables_of_getD l d j t (by simpa using hj) ht)
      | succ j1 =>
        simp only [List.getD_cons_succ] at ht ht1
        rw [ih j j1 hl (by simpa using hj) (by simpa using hj1) ht ht1]

theorem tables_nodup_of_getD (l : List Restaurant) (d : Restaurant) (j : Nat)
    (hnd : (l.flatMap Restaurant.tables).Nodup) (hj : j < l.length) :
    (l.getD j d).tables.Nodup := by
  rw [List.nodup_flatMap] at hnd
  rw [List.getD_eq_getElem l d hj]
  exact hnd.1 _ (List.getElem_mem hj)

/-! ### Count vectors -/

theorem length_incAt (l : List Int) (v : Nat) (d : Int) : (incAt l v d).length = l.length := by
  simp [incAt]

theorem getD_incAt (l : List Int) (v w : Nat) (d : Int) :
    (incAt l v d).getD w 0 = if w = v ∧ v < l.length then l.getD w 0 + d else l.getD w 0 := by
  unfold incAt
  simp only [List.getD_eq_getElem?_getD, List.getElem?_set]
  by_cases h : v = w
  · subst h
    by_cases h2 : v < l.length
    · simp [h2]
    · simp [h2, List.getElem?_eq_none (not_lt.mp h2)]
  · have h' : ¬ w = v := fun e => h e.symm
    simp [h, h']

theorem sum_incAt (l : List Int) (v : Nat) (d : Int) (h : v < l.length) :
    (incAt l v d).sum = l.sum + d := by
  unfold incAt
  induction l generalizing v with
  | nil => simp at h
  | cons a l ih =>
    cases v with
    | zero => simp; ring
    | succ v =>
      have hv : v < l.length := by simpa using h
      have := ih v hv
      simp only [List.set_cons_succ, List.sum_cons, List.getD_cons_succ] at this ⊢
      rw [this]; ring

/-! ### The primitive operations preserve the invariants -/

theorem RInv.mem_all {s : HdpLda} {M : Nat → Multiset Customer} (h : RInv s M) {j t : Nat}
    (hj : j < s.D) (ht : t ∈ (s.rest j).tables) : t ∈ s.allTables :=
  mem_tables_of_getD s.restaurants _ j t (h.lenR ▸ hj) ht

theorem RInv.owner {s : HdpLda} {M : Nat → Multiset Customer} (h : RInv s M) {j j1 t : Nat}
    (hj : j < s.D) (hj1 : j1 < s.D) (ht : t ∈ (s.rest j).tables)
    (ht1 : t ∈ (s.rest j1).tables) : j = j1 :=
  tables_owner_unique s.restaurants _ j j1 t h.nodupT (h.lenR ▸ hj) (h.lenR ▸ hj1) ht ht1

theorem incrementCounts_eq (s : HdpLda) (t v : Nat) :
    incrementCounts s t v = bumpCounts s t v 1 := rfl

theorem decrementCounts_eq (s : HdpLda) (t v : Nat) :
    decrementCounts s t v = bumpCounts s t v (-1) := rfl

theorem bumpCounts_RInv (s : HdpLda) (M : Nat → Multiset Customer) (j t v : Nat) (d : Int)
    (Mj : Multiset Customer)
    (hR : RInv s M) (hj : j < s.D) (ht : t ∈ (s.rest j).tables) (hv : v < s.V)
    (hin : ∀ c ∈ Mj, c.table ∈ (s.rest j).tables ∧ c.word < s.V)
    (hcount : ∀ (p : Customer → Prop) [DecidablePred p],
      ((Mj.countP p : Nat) : Int) = ((M j).countP p : Nat) + if p ⟨v, t⟩ then d else 0) :
    RInv (bumpCounts s t v d) (Function.update M j Mj) := by
  have htA := hR.mem_all hj ht
  refine ⟨hR.lenR, hR.nodupT, hR.ltT, ?_, ?_, ?_, ?_, ?_⟩
  · intro j1 hj1 c hc
    show c.table ∈ (s.rest j1).tables ∧ c.word < s.V
    by_cases e : j1 = j
    · subst e
      rw [Function.update_same] at hc
      exact hin c hc
    · rw [Function.update_noteq e] at hc
      exact hR.seatIn j1 hj1 c hc
  · intro j1 hj1 t1 ht1
    have ht1' : t1 ∈ (s.rest j1).tables := ht1
    have h0 := hR.nT j1 hj1 t1 ht1'
    show (Function.update s.tableHeap t _ t1).n = _
    by_cases e : j1 = j
    · subst e
      rw [Function.update_same, hcount]
      by_cases e2 : t1 = t
      · subst e2; simp [h0]
      · have : ¬ t = t1 := fun h => e2 h.symm
        simp [Function.update_noteq e2, h0, this]
    · have e2 : t1 ≠ t := fun h => e (hR.owner hj1 hj ht1' (h ▸ ht))
      rw [Function.update_noteq e, Function.update_noteq e2, h0]
  · intro t1 ht1
    have h0 := hR.lenT t1 ht1
    show (Function.update s.tableHeap t _ t1).n_v.length = s.V
    by_cases e2 : t1 = t
    · subst e2; simp [length_incAt, h0]
    · rw [Function.update_noteq e2, h0]
  · intro j1 hj1 t1 ht1 w
    have ht1' : t1 ∈ (s.rest j1).tables := ht1
    have h0 := hR.nvT j1 hj1 t1 ht1' w
    have hl := hR.lenT t htA
    show (Function.update s.tableHeap t _ t1).n_v.getD w 0 = _
    by_cases e : j1 = j
    · subst e
      rw [Function.update_same, hcount]
      by_cases e2 : t1 = t
      · subst e2
        simp only [Function.update_same, getD_incAt, hl, hv, and_true, true_and, h0]
        by_cases e3 : w = v
        · simp [e3]
        · have : ¬ v = w := fun h => e3 h.symm
          simp [e3, this]
      · have : ¬ t = t1 := fun h => e2 h.symm
        rw [Function.update_noteq e2, h0]
        simp [this]
    · have e2 : t1 ≠ t := fun h => e (hR.owner hj1 hj ht1' (h ▸ ht))
      rw [Function.update_noteq e, Function.update_noteq e2, h0]
  · intro t1 ht1
    have h0 := hR.sumT t1 ht1
    show (Function.update s.tableHeap t _ t1).n = (Function.update s.tableHeap t _ t1).n_v.sum
    by_cases e2 : t1 = t
    · subst e2
      simp only [Function.update_same]
      rw [sum_incAt _ _ _ (by rw [hR.lenT t1 ht1]; exact hv), h0]
    · rw [Function.update_noteq e2, h0]

theorem bumpCounts_TInv (s : HdpLda) (A : Multiset Nat) (t v : Nat) (d : Int)
    (hT : TInv s A) (hnd : A.Nodup) (ht : t ∈ A) (hv : v < s.V)
    (hl : (s.tableHeap t).n_v.length = s.V) :
    TInv (bumpCounts s t v d) A := by
  have hk := hT.topicIn t ht
  have htop : ∀ t1, ((bumpCounts s t v d).tableHeap t1).topic = (s.tableHeap t1).topic := by
    intro t1
    show (Function.update s.tableHeap t _ t1).topic = _
    by_cases e : t1 = t
    · subst e; simp
    · rw [Function.update_noteq e]
  refine ⟨hT.nodupK, hT.ltK, ?_, ?_, ?_, ?_, ?_, hT.mTot⟩
  · intro t1 ht1
    rw [htop]
    exact hT.topicIn t1 ht1
  · intro k hk1
    have h0 := hT.mK k hk1
    show (Function.update s.topicHeap _ _ k).m = tsum (Function.update s.tableHeap t _) A k _
    rw [tsum_update _ _ _ _ hnd ht]
    by_cases e : k = (s.tableHeap t).topic
    · subst e; simp [h0]
    · rw [Function.update_noteq e, h0]; simp
  · intro k hk1
    have h0 := hT.nK k hk1
    show (Function.update s.topicHeap _ _ k).n = tsum (Function.update s.tableHeap t _) A k _
    rw [tsum_update _ _ _ _ hnd ht]
    by_cases e : k = (s.tableHeap t).topic
    · subst e; simp [h0]; ring
    · have : ¬ (s.tableHeap t).topic = k := fun h => e h.symm
      rw [Function.update_noteq e, h0]; simp [this]
  · intro k hk1
    have h0 := hT.lenK k hk1
    show (Function.update s.topicHeap _ _ k).n_v.length = s.V
    by_cases e : k = (s.tableHeap t).topic
    · subst e; simp [length_incAt, h0]
    · rw [Function.update_noteq e, h0]
  · intro k hk1 w
    have h0 := hT.nvK k hk1 w
    have hlk := hT.lenK k hk1
    show (Function.update s.topicHeap _ _ k).n_v.getD w 0
      = tsum (Function.update s.tableHeap t _) A k _
    rw [tsum_update _ _ _ _ hnd ht]
    by_cases e : k = (s.tableHeap t).topic
    · subst e
      simp only [Function.update_same, getD_incAt, hl, hlk, hv, and_true, if_true, h0]
      split <;> ring
    · have : ¬ (s.tableHeap t).topic = k := fun h => e h.symm
      rw [Function.update_noteq e, h0]; simp [this]

theorem getD_tables (l : List Restaurant) (j : Nat) :
    (l.getD j { customers := [], tables := [], n := 0 }).tables
      = (l.map Restaurant.tables).getD j [] := by
  rw [List.getD_eq_getElem?_getD, List.getD_eq_getElem?_getD, List.getElem?_map]
  cases l[j]? <;> rfl

theorem RInv_congr {s r : HdpLda} {M : Nat → Multiset Customer}
    (hrest : r.restaurants.map Restaurant.tables = s.restaurants.map Restaurant.tables)
    (hD : r.D = s.D) (hV : r.V = s.V) (hnext : r.nextTable = s.nextTable)
    (hth : ∀ t, (r.tableHeap t).n = (s.tableHeap t).n
      ∧ (r.tableHeap t).n_v = (s.tableHeap t).n_v)
    (h : RInv s M) : RInv r M := by
  have hlen : r.restaurants.length = s.restaurants.length := by
    have := congrArg List.length hrest
    simpa using this
  have hall : r.allTables = s.allTables := by
    unfold HdpLda.allTables
    rw [List.flatMap_def, List.flatMap_def, hrest]
  have hr : ∀ j, (r.rest j).tables = (s.rest j).tables := by
    intro j
    unfold HdpLda.rest
    rw [getD_tables, getD_tables, hrest]
  refine ⟨by rw [hlen, hD]; exact h.lenR, by rw [hall]; exact h.nodupT, ?_, ?_, ?_, ?_, ?_, ?_⟩
  · intro t ht; rw [hnext]; exact h.ltT t (hall ▸ ht)
  · intro j hj c hc; rw [hr, hV]; exact h.seatIn j (hD ▸ hj) c hc
  · intro j hj t ht; rw [(hth t).1]; exact h.nT j (hD ▸ hj) t (hr j ▸ ht)
  · intro t ht; rw [(hth t).2, hV]; exact h.lenT t (hall ▸ ht)
  · intro j hj t ht v; rw [(hth t).2]; exact h.nvT j (hD ▸ hj) t (hr j ▸ ht) v
  · intro t ht; rw [(hth t).1, (hth t).2]; exact h.sumT t (hall ▸ ht)

theorem TInv_congr {s r : HdpLda} {A : Multiset Nat}
    (htop : r.topics = s.topics) (hV : r.V = s.V) (hnext : r.nextTopic = s.nextTopic)
    (hm : r.m = s.m) (hth : r.tableHeap = s.tableHeap)
    (hkh : ∀ k, (r.topicHeap k).n = (s.topicHeap k).n
      ∧ (r.topicHeap k).n_v = (s.topicHeap k).n_v ∧ (r.topicHeap k).m = (s.topicHeap k).m)
    (h : TInv s A) : TInv r A := by
  refine ⟨by rw [htop]; exact h.nodupK, ?_, ?_, ?_, ?_, ?_, ?_, by rw [hm]; exact h.mTot⟩
  · intro k hk; rw [hnext]; exact h.ltK k (htop ▸ hk)
  · intro t ht; rw [hth, htop]; exact h.topicIn t ht
  · intro k hk; rw [hth, (hkh k).2.2]; exact h.mK k (htop ▸ hk)
  · intro k hk; rw [hth, (hkh k).1]; exact h.nK k (htop ▸ hk)
  · intro k hk; rw [(hkh k).2.1, hV]; exact h.lenK k (htop ▸ hk)
  · intro k hk v; rw [hth, (hkh k).2.1]; exact h.nvK k (htop ▸ hk) v

theorem rest_set (s : HdpLda) (j j1 : Nat) (r : Restaurant) (hj : j < s.restaurants.length) :
    (s.restaurants.set j r).getD j1 { customers := [], tables := [], n := 0 }
      = if j1 = j then r else s.rest j1 := by
  rw [getD_set_rest]
  simp [hj, HdpLda.rest]

theorem coe_filter_ne (l : List Nat) (t : Nat) (hnd : l.Nodup) (ht : t ∈ l) :
    (↑l : Multiset Nat) = t ::ₘ ↑(l.filter (· ≠ t)) := by
  have h : l.filter (fun x => decide (x ≠ t)) = l.filter (fun x => x != t) :=
    List.filter_congr (fun x _ => by by_cases e : x = t <;> simp [e])
  rw [h, ← List.Nodup.erase_eq_filter hnd, ← Multiset.coe_erase, Multiset.cons_erase]
  exact ht

theorem coe_flatMap_remove (l : List Restaurant) (j t : Nat) (r : Restaurant)
    (hj : j < l.length) (hnd : (l.flatMap Restaurant.tables).Nodup)
    (hr : r.tables = ((l.getD j { customers := [], tables := [], n := 0 }).tables.filter (· ≠ t)))
    (ht : t ∈ (l.getD j { customers := [], tables := [], n := 0 }).tables) :
    (↑((l.set j r).flatMap Restaurant.tables) : Multiset Nat)
      = (↑(l.flatMap Restaurant.tables) : Multiset Nat).erase t := by
  have h1 := coe_flatMap_set l { customers := [], tables := [], n := 0 } r j hj
  have h2 := coe_filter_ne _ t (tables_nodup_of_getD l _ j hnd hj) ht
  rw [h2, hr] at h1
  have h3 : t ::ₘ (↑((l.set j r).flatMap Restaurant.tables) : Multiset Nat)
      = ↑(l.flatMap Restaurant.tables) := by
    apply add_right_cancel (b := (↑(List.filter (fun x => decide (x ≠ t))
      (l.getD j { customers := [], tables := [], n := 0 }).tables) : Multiset Nat))
    rw [← h1]
    simp only [Multiset.cons_add, Multiset.add_cons]
  rw [← h3, Multiset.erase_cons_head]

theorem coe_flatMap_push (l : List Restaurant) (j t : Nat) (r : Restaurant)
    (hj : j < l.length)
    (hr : r.tables = (l.getD j { customers := [], tables := [], n := 0 }).tables ++ [t]) :
    (↑((l.set j r).flatMap Restaurant.tables) : Multiset Nat)
      = t ::ₘ (↑(l.flatMap Restaurant.tables) : Multiset Nat) := by
  have h1 := coe_flatMap_set l { customers := [], tables := [], n := 0 } r j hj
  apply add_right_cancel
    (b := (↑(l.getD j { customers := [], tables := [], n := 0 }).tables : Multiset Nat))
  rw [h1, hr, ← Multiset.coe_add, Multiset.cons_add]
  rw [← Multiset.singleton_add, ← Multiset.coe_singleton]
  abel

theorem removeTable_RInv (s s1 : HdpLda) (M : Nat → Multiset Customer) (j t : Nat)
    (hR : RInv s M) (hj : j < s.D) (ht : t ∈ (s.rest j).tables)
    (hn : (s.tableHeap t).n = 0)
    (hrest : s1.restaurants = s.restaurants.set j
      { s.rest j with tables := (s.rest j).tables.filter (· ≠ t) })
    (hD : s1.D = s.D) (hV : s1.V = s.V) (hnext : s1.nextTable = s.nextTable)
    (hth : s1.tableHeap = s.tableHeap) :
    RInv s1 M ∧ (↑s1.allTables : Multiset Nat) = (↑s.allTables : Multiset Nat).erase t := by
  have hjl : j < s.restaurants.length := hR.lenR ▸ hj
  have hall : (↑s1.allTables : Multiset Nat) = (↑s.allTables : Multiset Nat).erase t := by
    unfold HdpLda.allTables
    rw [hrest]
    exact coe_flatMap_remove s.restaurants j t _ hjl hR.nodupT rfl ht
  have hmem : ∀ t1, t1 ∈ s1.allTables → t1 ∈ s.allTables := by
    intro t1 h1
    have : t1 ∈ (↑s1.allTables : Multiset Nat) := h1
    rw [hall] at this
    exact Multiset.mem_of_mem_erase this
  have hr : ∀ j1, ∀ t1 ∈ (s1.rest j1).tables,
      t1 ∈ (s.rest j1).tables ∧ (j1 = j → t1 ≠ t) := by
    intro j1 t1 h1
    unfold HdpLda.rest at h1
    rw [hrest, rest_set s j j1 _ hjl] at h1
    by_cases e : j1 = j
    · subst e
      simp only [if_true, List.mem_filter, decide_eq_true_eq] at h1
      exact ⟨h1.1, fun _ => h1.2⟩
    · rw [if_neg e] at h1
      exact ⟨h1, fun h => absurd h e⟩
  have hzero : ∀ c ∈ M j, c.table ≠ t := by
    have h0 := hR.nT j hj t ht
    rw [hn] at h0
    have h1 : Multiset.countP (fun c : Customer => c.table = t) (M j) = 0 := by
      exact_mod_cast h0.symm
    rw [Multiset.countP_eq_zero] at h1
    exact h1
  refine ⟨⟨?_, ?_, ?_, ?_, ?_, ?_, ?_, ?_⟩, hall⟩
  · rw [hrest, List.length_set, hD]; exact hR.lenR
  · rw [← Multiset.coe_nodup, hall]
    exact Multiset.Nodup.erase t (Multiset.coe_nodup.mpr hR.nodupT)
  · intro t1 h1; rw [hnext]; exact hR.ltT t1 (hmem t1 h1)
  · intro j1 hj1 c hc
    rw [hD] at hj1
    have h0 := hR.seatIn j1 hj1 c hc
    rw [hV]
    refine ⟨?_, h0.2⟩
    unfold HdpLda.rest
    rw [hrest, rest_set s j j1 _ hjl]
    by_cases e : j1 = j
    · subst e
      simp only [if_true, List.mem_filter, decide_eq_true_eq]
      exact ⟨h0.1, hzero c hc⟩
    · rw [if_neg e]; exact h0.1
  · intro j1 hj1 t1 h1
    rw [hth]
    exact hR.nT j1 (hD ▸ hj1) t1 (hr j1 t1 h1).1
  · intro t1 h1
    rw [hth, hV]
    exact hR.lenT t1 (hmem t1 h1)
  · intro j1 hj1 t1 h1 v
    rw [hth]
    exact hR.nvT j1 (hD ▸ hj1) t1 (hr j1 t1 h1).1 v
  · intro t1 h1
    rw [hth]
    exact hR.sumT t1 (hmem t1 h1)

theorem removeTable_TInv (s s1 : HdpLda) (A : Multiset Nat) (t : Nat)
    (hT : TInv s A) (ht : t ∈ A)
    (hn : (s.tableHeap t).n = 0) (hnv : ∀ v, (s.tableHeap t).n_v.getD v 0 = 0)
    (hth : s1.tableHeap = s.tableHeap) (hV : s1.V = s.V) (hnext : s1.nextTopic = s.nextTopic)
    (hm : s1.m = s.m - 1)
    (hkh : s1.topicHeap = Function.update s.topicHeap (s.tableHeap t).topic
      { s.topicHeap (s.tableHeap t).topic with
        m := (s.topicHeap (s.tableHeap t).topic).m - 1 })
    (htop : s1.topics = if (s.topicHeap (s.tableHeap t).topic).m - 1 = 0
      then s.topics.filter (· ≠ (s.tableHeap t).topic) else s.topics) :
    TInv s1 (A.erase t) := by
  have hsub : ∀ k ∈ s1.topics, k ∈ s.topics := by
    intro k hk
    rw [htop] at hk
    split at hk
    · exact (List.mem_filter.mp hk).1
    · exact hk
  have hmk : (s.topicHeap (s.tableHeap t).topic).m - 1
      = tsum s.tableHeap (A.erase t) (s.tableHeap t).topic (fun _ => 1) := by
    rw [tsum_erase _ _ _ ht, hT.mK _ (hT.topicIn t ht)]
    simp
  refine ⟨?_, ?_, ?_, ?_, ?_, ?_, ?_, ?_⟩
  · rw [htop]
    split
    · exact hT.nodupK.filter _
    · exact hT.nodupK
  · intro k hk; rw [hnext]; exact hT.ltK k (hsub k hk)
  · intro t1 ht1
    have h1 := hT.topicIn t1 (Multiset.mem_of_mem_erase ht1)
    rw [hth, htop]
    split
    · next h0 =>
      rw [h0] at hmk
      have := tsum_one_eq_zero _ _ _ hmk.symm t1 ht1
      simp only [List.mem_filter, decide_eq_true_eq]
      exact ⟨h1, this⟩
    · exact h1
  · intro k hk
    have h0 := hT.mK k (hsub k hk)
    rw [hth, hkh, tsum_erase _ _ _ ht]
    by_cases e : k = (s.tableHeap t).topic
    · subst e; simp [h0]
    · have : ¬ (s.tableHeap t).topic = k := fun h => e h.symm
      rw [Function.update_noteq e, h0]; simp [this]
  · intro k hk
    have h0 := hT.nK k (hsub k hk)
    rw [hth, hkh, tsum_erase _ _ _ ht, hn]
    by_cases e : k = (s.tableHeap t).topic
    · subst e; simp [h0]
    · rw [Function.update_noteq e, h0]; simp
  · intro k hk
    have h0 := hT.lenK k (hsub k hk)
    rw [hkh, hV]
    by_cases e : k = (s.tableHeap t).topic
    · subst e; simp [h0]
    · rw [Function.update_noteq e, h0]
  · intro k hk v
    have h0 := hT.nvK k (hsub k hk) v
    rw [hth, hkh, tsum_erase _ _ _ ht, hnv, ite_self, sub_zero, ← h0]
    by_cases e : k = (s.tableHeap t).topic
    · subst e; rw [Function.update_same]
    · rw [Function.update_noteq e]
  · rw [hm, hT.mTot, Multiset.card_erase_of_mem ht]
    have : 0 < Multiset.card A := Multiset.card_pos_iff_exists_mem.mpr ⟨t, ht⟩
    rw [Nat.pred_eq_sub_one]
    omega

theorem removeEmptyTable_inv (s : HdpLda) (M : Nat → Multiset Customer) (j t : Nat)
    (hR : RInv s M) (hT : TInv s ↑s.allTables) (hj : j < s.D) (ht : t ∈ (s.rest j).tables) :
    RInv (removeEmptyTable s j t) M
      ∧ TInv (removeEmptyTable s j t) ↑(removeEmptyTable s j t).allTables := by
  by_cases hn : (s.tableHeap t).n = 0
  · have htA : t ∈ (↑s.allTables : Multiset Nat) := hR.mem_all hj ht
    have hzero : ∀ c ∈ M j, c.table ≠ t := by
      have h0 := hR.nT j hj t ht
      rw [hn] at h0
      have h1 : Multiset.countP (fun c : Customer => c.table = t) (M j) = 0 := by
        exact_mod_cast h0.symm
      rw [Multiset.countP_eq_zero] at h1
      exact h1
    have hnv : ∀ v, (s.tableHeap t).n_v.getD v 0 = 0 := by
      intro v
      rw [hR.nvT j hj t ht v]
      have : Multiset.countP (fun c : Customer => c.table = t ∧ c.word = v) (M j) = 0 := by
        rw [Multiset.countP_eq_zero]
        intro c hc h
        exact hzero c hc h.1
      exact_mod_cast this
    have hrest : (removeEmptyTable s j t).restaurants = s.restaurants.set j
        { s.rest j with tables := (s.rest j).tables.filter (· ≠ t) } := by
      unfold removeEmptyTable; rw [if_pos hn]; dsimp only; split <;> rfl
    have hkh : (removeEmptyTable s j t).topicHeap
        = Function.update s.topicHeap (s.tableHeap t).topic
          { s.topicHeap (s.tableHeap t).topic with
            m := (s.topicHeap (s.tableHeap t).topic).m - 1 } := by
      unfold removeEmptyTable; rw [if_pos hn]; dsimp only; split <;> rfl
    have hth : (removeEmptyTable s j t).tableHeap = s.tableHeap := by
      unfold removeEmptyTable; rw [if_pos hn]; dsimp only; split <;> rfl
    have hm : (removeEmptyTable s j t).m = s.m - 1 := by
      unfold removeEmptyTable; rw [if_pos hn]; dsimp only; split <;> rfl
    have hD : (removeEmptyTable s j t).D = s.D := by
      unfold removeEmptyTable; rw [if_pos hn]; dsimp only; split <;> rfl
    have hV : (removeEmptyTable s j t).V = s.V := by
      unfold removeEmptyTable; rw [if_pos hn]; dsimp only; split <;> rfl
    have hnT : (removeEmptyTable s j t).nextTable = s.nextTable := by
      unfold removeEmptyTable; rw [if_pos hn]; dsimp only; split <;> rfl
    have hnK : (removeEmptyTable s j t).nextTopic = s.nextTopic := by
      unfold removeEmptyTable; rw [if_pos hn]; dsimp only; split <;> rfl
    have htop : (removeEmptyTable s j t).topics
        = if (s.topicHeap (s.tableHeap t).topic).m - 1 = 0
          then s.topics.filter (· ≠ (s.tableHeap t).topic) else s.topics := by
      unfold removeEmptyTable; rw [if_pos hn]; dsimp only
      rw [Function.update_same]
      by_cases hm : (s.topicHeap (s.tableHeap t).topic).m - 1 = 0
      · rw [if_pos hm, if_pos hm]
      · rw [if_neg hm, if_neg hm]
    obtain ⟨h1, h2⟩ := removeTable_RInv s _ M j t hR hj ht hn hrest hD hV hnT hth
    refine ⟨h1, ?_⟩
    rw [h2]
    exact removeTable_TInv s _ _ t hT htA hn hnv hth hV hnK hm hkh htop
  · have hs : removeEmptyTable s j t = s := by simp [removeEmptyTable, hn]
    rw [hs]
    exact ⟨hR, hT⟩

theorem getD_replicate_zero (V v : Nat) : (List.replicate V (0 : Int)).getD v 0 = 0 := by
  rw [List.getD_eq_getElem?_getD, List.getElem?_replicate]
  split <;> rfl

theorem tsum_eq_zero (th : Nat → Table) (A : Multiset Nat) (k : Nat) (F : Table → Int)
    (h : ∀ t ∈ A, (th t).topic ≠ k) : tsum th A k F = 0 := by
  unfold tsum
  apply Multiset.sum_eq_zero
  intro x hx
  rw [Multiset.mem_map] at hx
  obtain ⟨t, ht, rfl⟩ := hx
  rw [if_neg (h t ht)]

theorem addTopic_mem (s : HdpLda) : (addTopic s).2 ∈ (addTopic s).1.topics := by
  simp [addTopic]

theorem addTopic_RInv (s : HdpLda) (M : Nat → Multiset Customer) (hR : RInv s M) :
    RInv (addTopic s).1 M :=
  RInv_congr (s := s) (r := (addTopic s).1) rfl rfl rfl rfl (fun _ => ⟨rfl, rfl⟩) hR

theorem addTopic_TInv (s : HdpLda) (A : Multiset Nat) (hT : TInv s A) :
    TInv (addTopic s).1 A := by
  have hnew : s.nextTopic ∉ s.topics := fun h => lt_irrefl _ (hT.ltK _ h)
  have hold : ∀ k ∈ s.topics, (addTopic s).1.topicHeap k = s.topicHeap k := by
    intro k hk
    have : k ≠ s.nextTopic := fun e => hnew (e ▸ hk)
    show Function.update s.topicHeap s.nextTopic _ k = _
    rw [Function.update_noteq this]
  have hnewh : (addTopic s).1.topicHeap s.nextTopic = Topic.new s.V s.beta := by
    show Function.update s.topicHeap s.nextTopic _ _ = _
    rw [Function.update_same]
  have hne : ∀ t ∈ A, (s.tableHeap t).topic ≠ s.nextTopic :=
    fun t ht e => hnew (e ▸ hT.topicIn t ht)
  have hmem : ∀ k, k ∈ (addTopic s).1.topics → k ∈ s.topics ∨ k = s.nextTopic := by
    intro k hk
    have : k ∈ s.topics ++ [s.nextTopic] := hk
    simpa using this
  refine ⟨?_, ?_, ?_, ?_, ?_, ?_, ?_, hT.mTot⟩
  · show (s.topics ++ [s.nextTopic]).Nodup
    rw [List.nodup_append]
    refine ⟨hT.nodupK, List.nodup_singleton _, ?_⟩
    intro a ha hb
    rw [List.mem_singleton] at hb
    exact hnew (hb ▸ ha)
  · intro k hk
    show k < s.nextTopic + 1
    rcases hmem k hk with h | h
    · exact Nat.lt_succ_of_lt (hT.ltK k h)
    · omega
  · intro t ht
    show (s.tableHeap t).topic ∈ s.topics ++ [s.nextTopic]
    exact List.mem_append_left _ (hT.topicIn t ht)
  · intro k hk
    show _ = tsum s.tableHeap A k _
    rcases hmem k hk with h | h
    · rw [hold k h]; exact hT.mK k h
    · rw [h, hnewh, tsum_eq_zero _ _ _ _ hne]; rfl
  · intro k hk
    show _ = tsum s.tableHeap A k _
    rcases hmem k hk with h | h
    · rw [hold k h]; exact hT.nK k h
    · rw [h, hnewh, tsum_eq_zero _ _ _ _ hne]; rfl
  · intro k hk
    show _ = s.V
    rcases hmem k hk with h | h
    · rw [hold k h]; exact hT.lenK k h
    · rw [h, hnewh]; simp [Topic.new]
  · intro k hk v
    show _ = tsum s.tableHeap A k _
    rcases hmem k hk with h | h
    · rw [hold k h]; exact hT.nvK k h v
    · rw [h, hnewh, tsum_eq_zero _ _ _ _ hne]
      exact getD_replicate_zero _ _

theorem addTable_mem (s : HdpLda) (j k : Nat) (hj : j < s.restaurants.length) :
    (addTable s j k).2 ∈ ((addTable s j k).1.rest j).tables := by
  unfold HdpLda.rest
  show s.nextTable ∈ ((s.restaurants.set j _).getD j _).tables
  rw [rest_set s j j _ hj]
  simp

theorem addTable_tables (s : HdpLda) (j k j1 : Nat) (hj : j < s.restaurants.length) :
    ((addTable s j k).1.rest j1).tables
      = if j1 = j then (s.rest j).tables ++ [s.nextTable] else (s.rest j1).tables := by
  unfold HdpLda.rest
  show ((s.restaurants.set j _).getD j1 _).tables = _
  rw [rest_set s j j1 _ hj]
  by_cases e : j1 = j
  · rw [if_pos e, if_pos e]; rfl
  · rw [if_neg e, if_neg e]; rfl

theorem addTable_inv (s : HdpLda) (M : Nat → Multiset Customer) (j k : Nat)
    (hR : RInv s M) (hT : TInv s ↑s.allTables) (hj : j < s.D) (hk : k ∈ s.topics) :
    RInv (addTable s j k).1 M ∧ TInv (addTable s j k).1 ↑(addTable s j k).1.allTables := by
  have hjl : j < s.restaurants.length := hR.lenR ▸ hj
  have hnew : s.nextTable ∉ s.allTables := fun h => lt_irrefl _ (hR.ltT _ h)
  have hall : (↑(addTable s j k).1.allTables : Multiset Nat)
      = s.nextTable ::ₘ (↑s.allTables : Multiset Nat) :=
    coe_flatMap_push s.restaurants j s.nextTable _ hjl rfl
  have hmemall : ∀ t, t ∈ (addTable s j k).1.allTables → t = s.nextTable ∨ t ∈ s.allTables := by
    intro t ht
    have : t ∈ (↑(addTable s j k).1.allTables : Multiset Nat) := ht
    rw [hall, Multiset.mem_cons] at this
    exact this
  have hold : ∀ t ∈ s.allTables, (addTable s j k).1.tableHeap t = s.tableHeap t := by
    intro t ht
    have : t ≠ s.nextTable := fun e => hnew (e ▸ ht)
    show Function.update s.tableHeap s.nextTable _ t = _
    rw [Function.update_noteq this]
  have hnewh : (addTable s j k).1.tableHeap s.nextTable = Table.new s.V k := by
    show Function.update s.tableHeap s.nextTable _ _ = _
    rw [Function.update_same]
  have hmemr : ∀ j1, j1 < s.D → ∀ t, t ∈ ((addTable s j k).1.rest j1).tables →
      t ∈ (s.rest j1).tables ∨ (j1 = j ∧ t = s.nextTable) := by
    intro j1 _ t ht
    rw [addTable_tables s j k j1 hjl] at ht
    by_cases e : j1 = j
    · rw [if_pos e, List.mem_append, List.mem_singleton] at ht
      rcases ht with h | h
      · exact Or.inl (e ▸ h)
      · exact Or.inr ⟨e, h⟩
    · rw [if_neg e] at ht; exact Or.inl ht
  have hzero : ∀ j1, j1 < s.D → ∀ c ∈ M j1, c.table ≠ s.nextTable := by
    intro j1 hj1 c hc e
    exact hnew (e ▸ hR.mem_all hj1 (hR.seatIn j1 hj1 c hc).1)
  constructor
  · refine ⟨?_, ?_, ?_, ?_, ?_, ?_, ?_, ?_⟩
    · show (s.restaurants.set j _).length = s.D
      rw [List.length_set]; exact hR.lenR
    · rw [← Multiset.coe_nodup, hall, Multiset.nodup_cons]
      exact ⟨hnew, Multiset.coe_nodup.mpr hR.nodupT⟩
    · intro t ht
      show t < s.nextTable + 1
      rcases hmemall t ht with h | h
      · omega
      · exact Nat.lt_succ_of_lt (hR.ltT t h)
    · intro j1 hj1 c hc
      have h0 := hR.seatIn j1 hj1 c hc
      refine ⟨?_, h0.2⟩
      rw [addTable_tables s j k j1 hjl]
      by_cases e : j1 = j
      · rw [if_pos e]; exact List.mem_append_left _ (e ▸ h0.1)
      · rw [if_neg e]; exact h0.1
    · intro j1 hj1 t ht
      rcases hmemr j1 hj1 t ht with h | ⟨_, h⟩
      · rw [hold t (hR.mem_all hj1 h)]; exact hR.nT j1 hj1 t h
      · rw [h, hnewh]
        have : Multiset.countP (fun c : Customer => c.table = s.nextTable) (M j1) = 0 := by
          rw [Multiset.countP_eq_zero]; exact hzero j1 hj1
        rw [this]; rfl
    · intro t ht
      show _ = s.V
      rcases hmemall t ht with h | h
      · rw [h, hnewh]; simp [Table.new]
      · rw [hold t h]; exact hR.lenT t h
    · intro j1 hj1 t ht v
      rcases hmemr j1 hj1 t ht with h | ⟨_, h⟩
      · rw [hold t (hR.mem_all hj1 h)]; exact hR.nvT j1 hj1 t h v
      · rw [h, hnewh]
        have : Multiset.countP (fun c : Customer => c.table = s.nextTable ∧ c.word = v)
            (M j1) = 0 := by
          rw [Multiset.countP_eq_zero]; exact fun c hc e => hzero j1 hj1 c hc e.1
        rw [this]
        exact getD_replicate_zero _ _
    · intro t ht
      rcases hmemall t ht with h | h
      · rw [h, hnewh]; simp [Table.new]
      · rw [hold t h]; exact hR.sumT t h
  · rw [hall]
    have hts : ∀ k1 F, tsum (addTable s j k).1.tableHeap (s.nextTable ::ₘ ↑s.allTables) k1 F
        = (if k = k1 then F (Table.new s.V k) else 0) + tsum s.tableHeap ↑s.allTables k1 F := by
      intro k1 F
      rw [tsum_cons, hnewh]
      congr 1
      exact tsum_congr k1 F (fun t ht => hold t ht)
    refine ⟨hT.nodupK, hT.ltK, ?_, ?_, ?_, ?_, ?_, ?_⟩
    · intro t ht
      show _ ∈ s.topics
      rw [Multiset.mem_cons] at ht
      rcases ht with h | h
      · rw [h, hnewh]; exact hk
      · rw [hold t h]; exact hT.topicIn t h
    · intro k1 hk1
      have h0 := hT.mK k1 hk1
      rw [hts]
      show (Function.update s.topicHeap k _ k1).m = _
      by_cases e : k1 = k
      · subst e; simp [h0]; ring
      · have : ¬ k = k1 := fun h => e h.symm
        rw [Function.update_noteq e, h0]; simp [this]
    · intro k1 hk1
      have h0 := hT.nK k1 hk1
      rw [hts]
      show (Function.update s.topicHeap k _ k1).n = _
      by_cases e : k1 = k
      · subst e; simp [h0, Table.new]
      · have : ¬ k = k1 := fun h => e h.symm
        rw [Function.update_noteq e, h0]; simp [this]
    · intro k1 hk1
      have h0 := hT.lenK k1 hk1
      show (Function.update s.topicHeap k _ k1).n_v.length = s.V
      by_cases e : k1 = k
      · subst e; simp [h0]
      · rw [Function.update_noteq e, h0]
    · intro k1 hk1 v
      have h0 := hT.nvK k1 hk1 v
      rw [hts]
      show (Function.update s.topicHeap k _ k1).n_v.getD v 0 = _
      have hz : (Table.new s.V k).n_v.getD v 0 = 0 := getD_replicate_zero _ _
      rw [hz, ite_self, zero_add, ← h0]
      by_cases e : k1 = k
      · subst e; rw [Function.update_same]
      · rw [Function.update_noteq e]
    · show s.m + 1 = _
      rw [hT.mTot]; simp

theorem map_set_of_eq {α β : Type} (f : α → β) (l : List α) (j : Nat) (x d : α)
    (h : f x = f (l.getD j d)) : (l.set j x).map f = l.map f := by
  induction l generalizing j with
  | nil => rfl
  | cons a l ih =>
    cases j with
    | zero =>
      simp only [List.set_cons_zero, List.map_cons, List.getD_cons_zero] at h ⊢
      rw [h]
    | succ j =>
      simp only [List.set_cons_succ, List.map_cons, List.getD_cons_succ] at h ⊢
      rw [ih j h]

theorem rest_of_custKey {s s1 : HdpLda} (h : custKey s1 = custKey s) (j : Nat) :
    (s1.rest j).customers = (s.rest j).customers ∧ (s1.rest j).n = (s.rest j).n := by
  have key : ∀ (l : List Restaurant),
      ((l.getD j { customers := [], tables := [], n := 0 }).customers,
        (l.getD j { customers := [], tables := [], n := 0 }).n)
        = (l.map (fun r => (r.customers, r.n))).getD j ([], 0) := by
    intro l
    rw [List.getD_eq_getElem?_getD, List.getD_eq_getElem?_getD, List.getElem?_map]
    cases l[j]? <;> rfl
  have h1 := key s1.restaurants
  have h2 := key s.restaurants
  unfold custKey at h
  rw [h, ← h2] at h1
  exact ⟨congrArg Prod.fst h1, congrArg Prod.snd h1⟩

theorem custKey_removeEmptyTable (s : HdpLda) (j t : Nat) :
    custKey (removeEmptyTable s j t) = custKey s := by
  unfold removeEmptyTable
  split
  · dsimp only
    split
    · exact map_set_of_eq _ _ _ _ _ rfl
    · exact map_set_of_eq _ _ _ _ _ rfl
  · rfl

theorem custKey_addTable (s : HdpLda) (j k : Nat) : custKey (addTable s j k).1 = custKey s :=
  map_set_of_eq _ _ _ _ _ rfl

theorem custKey_unseat (s : HdpLda) (j i : Nat) : custKey (unseat s j i) = custKey s := by
  unfold unseat
  rw [custKey_removeEmptyTable]
  rfl

theorem tables_map_assignTable (s : HdpLda) (j i t : Nat) :
    (assignTable s j i t).restaurants.map Restaurant.tables
      = s.restaurants.map Restaurant.tables :=
  map_set_of_eq _ _ _ _ _ rfl

theorem coe_set_eq_cons_eraseIdx {α : Type} (l : List α) (i : Nat) (x : α) (hi : i < l.length) :
    (↑(l.set i x) : Multiset α) = x ::ₘ ↑(l.eraseIdx i) := by
  induction l generalizing i with
  | nil => simp at hi
  | cons a l ih =>
    cases i with
    | zero => simp
    | succ i =>
      have := ih i (by simpa using hi)
      simp only [List.set_cons_succ, List.eraseIdx_cons_succ, ← Multiset.cons_coe, this]
      exact Multiset.cons_swap _ _ _

theorem coe_eq_cons_eraseIdx {α : Type} (l : List α) (i : Nat) (d : α) (hi : i < l.length) :
    (↑l : Multiset α) = l.getD i d ::ₘ ↑(l.eraseIdx i) := by
  induction l generalizing i with
  | nil => simp at hi
  | cons a l ih =>
    cases i with
    | zero => simp
    | succ i =>
      have := ih i (by simpa using hi)
      simp only [List.getD_cons_succ, List.eraseIdx_cons_succ, ← Multiset.cons_coe, this]
      exact Multiset.cons_swap _ _ _

theorem phiLoop_counts (s : HdpLda) (v : Nat) (k : Nat) :
    ((phiLoop s v).1 k).n = (s.topicHeap k).n
      ∧ ((phiLoop s v).1 k).n_v = (s.topicHeap k).n_v
      ∧ ((phiLoop s v).1 k).m = (s.topicHeap k).m := by
  unfold phiLoop
  generalize hacc : ((s.topicHeap, (0 : ℚ), ([] : List ℚ)) : (Nat → Topic) × ℚ × List ℚ) = acc
  have hP : (acc.1 k).n = (s.topicHeap k).n ∧ (acc.1 k).n_v = (s.topicHeap k).n_v
      ∧ (acc.1 k).m = (s.topicHeap k).m := by rw [← hacc]; exact ⟨rfl, rfl, rfl⟩
  clear hacc
  induction s.topics generalizing acc with
  | nil => exact hP
  | cons a l ih =>
    rw [List.foldl_cons]
    apply ih
    dsimp only
    by_cases e : k = a
    · subst e; rw [Function.update_same]; exact hP
    · rw [Function.update_noteq e]; exact hP

theorem Shape_of_custKey {s s1 : HdpLda} (h : custKey s1 = custKey s) : Shape s1 = Shape s := by
  have key : ∀ s : HdpLda, Shape s = (custKey s).map (fun p => (p.2, p.1.map Customer.word)) := by
    intro s
    unfold Shape custKey
    rw [List.map_map]
    rfl
  rw [key, key, h]

theorem rest_of_Shape {s s1 : HdpLda} (h : Shape s1 = Shape s) (j : Nat) :
    (s1.rest j).n = (s.rest j).n
      ∧ (s1.rest j).customers.map Customer.word = (s.rest j).customers.map Customer.word := by
  have key : ∀ (l : List Restaurant),
      ((l.getD j { customers := [], tables := [], n := 0 }).n,
        (l.getD j { customers := [], tables := [], n := 0 }).customers.map Customer.word)
        = (l.map (fun r => (r.n, r.customers.map Customer.word))).getD j (0, []) := by
    intro l
    rw [List.getD_eq_getElem?_getD, List.getD_eq_getElem?_getD, List.getElem?_map]
    cases l[j]? <;> rfl
  have h1 := key s1.restaurants
  have h2 := key s.restaurants
  unfold Shape at h
  rw [h, ← h2] at h1
  exact ⟨congrArg Prod.fst h1, congrArg Prod.snd h1⟩

theorem length_of_Shape {s s1 : HdpLda} (h : Shape s1 = Shape s) (j : Nat) :
    (s1.rest j).customers.length = (s.rest j).customers.length := by
  have := congrArg List.length (rest_of_Shape h j).2
  simpa using this

theorem Shape_assignTable (s : HdpLda) (j i t : Nat) : Shape (assignTable s j i t) = Shape s := by
  unfold Shape assignTable HdpLda.setRest
  apply map_set_of_eq _ _ _ _ { customers := [], tables := [], n := 0 }
  dsimp only
  congr 1
  exact map_set_of_eq _ _ _ _ ⟨0, 0⟩ rfl

theorem customers_assignTable (s : HdpLda) (j i t j1 : Nat) (hj : j < s.restaurants.length) :
    ((assignTable s j i t).rest j1).customers
      = if j1 = j then (s.rest j).customers.set i
          ⟨((s.rest j).customers.getD i ⟨0, 0⟩).word, t⟩
        else (s.rest j1).customers := by
  unfold assignTable HdpLda.setRest
  dsimp only
  unfold HdpLda.rest
  dsimp only
  rw [rest_set s j j1 _ hj]
  by_cases e : j1 = j
  · rw [if_pos e, if_pos e]
  · rw [if_neg e, if_neg e]; rfl

theorem removeEmptyTable_D (s : HdpLda) (j t : Nat) : (removeEmptyTable s j t).D = s.D := by
  unfold removeEmptyTable
  split
  · dsimp only; split <;> rfl
  · rfl

theorem removeEmptyTable_V (s : HdpLda) (j t : Nat) : (removeEmptyTable s j t).V = s.V := by
  unfold removeEmptyTable
  split
  · dsimp only; split <;> rfl
  · rfl

theorem unseat_D (s : HdpLda) (j i : Nat) : (unseat s j i).D = s.D := by
  unfold unseat; rw [removeEmptyTable_D]; rfl

theorem unseat_V (s : HdpLda) (j i : Nat) : (unseat s j i).V = s.V := by
  unfold unseat; rw [removeEmptyTable_V]; rfl

theorem unseat_inv (s : HdpLda) (j i : Nat) (hI : Inv s) (hj : j < s.D)
    (hi : i < (s.rest j).customers.length) :
    RInv (unseat s j i) (Function.update s.seated j ↑((s.rest j).customers.eraseIdx i))
      ∧ TInv (unseat s j i) ↑(unseat s j i).allTables := by
  have hM : s.seated j = (s.rest j).customers.getD i ⟨0, 0⟩ ::ₘ
      ↑((s.rest j).customers.eraseIdx i) := coe_eq_cons_eraseIdx _ i _ hi
  have hc : (s.rest j).customers.getD i ⟨0, 0⟩ ∈ s.seated j := by
    rw [hM]; exact Multiset.mem_cons_self _ _
  obtain ⟨htab, hword⟩ := hI.1.seatIn j hj _ hc
  have hR1 := bumpCounts_RInv s s.seated j _ _ (-1) ↑((s.rest j).customers.eraseIdx i)
    hI.1 hj htab hword
    (fun c h => hI.1.seatIn j hj c (by rw [hM]; exact Multiset.mem_cons_of_mem h))
    (by
      intro p _
      rw [hM, Multiset.countP_cons]
      split <;> simp)
  have hT1 := bumpCounts_TInv s ↑s.allTables _ _ (-1) hI.2
    (Multiset.coe_nodup.mpr hI.1.nodupT) (hI.1.mem_all hj htab) hword
    (hI.1.lenT _ (hI.1.mem_all hj htab))
  exact removeEmptyTable_inv _ _ j _ hR1 hT1 hj htab

theorem seat_Inv (s s2 : HdpLda) (j i t : Nat) (hj : j < s.D)
    (hi : i < (s.rest j).customers.length)
    (hR : RInv s2 (Function.update s.seated j ↑((s.rest j).customers.eraseIdx i)))
    (hT : TInv s2 ↑s2.allTables) (hD : s2.D = s.D) (hV : s2.V = s.V)
    (hc : custKey s2 = custKey s) (ht : t ∈ (s2.rest j).tables)
    (hv : ((s.rest j).customers.getD i ⟨0, 0⟩).word < s.V) :
    Inv (seat s2 j i ((s.rest j).customers.getD i ⟨0, 0⟩).word t)
      ∧ (seat s2 j i ((s.rest j).customers.getD i ⟨0, 0⟩).word t).D = s.D
      ∧ (seat s2 j i ((s.rest j).customers.getD i ⟨0, 0⟩).word t).V = s.V
      ∧ Shape (seat s2 j i ((s.rest j).customers.getD i ⟨0, 0⟩).word t) = Shape s := by
  have hj2 : j < s2.D := hD ▸ hj
  have hjl : j < s2.restaurants.length := hR.lenR ▸ hj2
  have hR1 := bumpCounts_RInv s2 _ j t ((s.rest j).customers.getD i ⟨0, 0⟩).word 1
    (⟨((s.rest j).customers.getD i ⟨0, 0⟩).word, t⟩ ::ₘ ↑((s.rest j).customers.eraseIdx i))
    hR hj2 ht (hV ▸ hv)
    (by
      intro c h
      rw [Multiset.mem_cons] at h
      rcases h with rfl | h
      · exact ⟨ht, hV ▸ hv⟩
      · exact hR.seatIn j hj2 c (by rw [Function.update_same]; exact h))
    (by
      intro p _
      rw [Function.update_same, Multiset.countP_cons]
      split <;> simp)
  rw [Function.update_idem] at hR1
  have hT1 := bumpCounts_TInv s2 ↑s2.allTables t ((s.rest j).customers.getD i ⟨0, 0⟩).word 1 hT
    (Multiset.coe_nodup.mpr hR.nodupT) (hR.mem_all hj2 ht) (hV ▸ hv)
    (hR.lenT _ (hR.mem_all hj2 ht))
  rw [← incrementCounts_eq] at hR1 hT1
  have hseated : (seat s2 j i ((s.rest j).customers.getD i ⟨0, 0⟩).word t).seated
      = Function.update s.seated j
        (⟨((s.rest j).customers.getD i ⟨0, 0⟩).word, t⟩ ::ₘ
          ↑((s.rest j).customers.eraseIdx i)) := by
    funext j1
    unfold HdpLda.seated seat
    rw [customers_assignTable (incrementCounts s2 t _) j i t j1 hjl]
    have e1 : ∀ j2, (HdpLda.rest
        (incrementCounts s2 t ((s.rest j).customers.getD i ⟨0, 0⟩).word) j2).customers
        = (s.rest j2).customers := fun j2 => (rest_of_custKey hc j2).1
    by_cases e : j1 = j
    · subst e
      rw [if_pos rfl, Function.update_same, e1]
      exact coe_set_eq_cons_eraseIdx _ i _ hi
    · rw [if_neg e, Function.update_noteq e, e1]
  refine ⟨⟨?_, ?_⟩, hD, hV, ?_⟩
  · rw [hseated]
    exact RInv_congr (s := incrementCounts s2 t ((s.rest j).customers.getD i ⟨0, 0⟩).word)
      (tables_map_assignTable _ j i t) rfl rfl rfl (fun _ => ⟨rfl, rfl⟩) hR1
  · have hall : (seat s2 j i ((s.rest j).customers.getD i ⟨0, 0⟩).word t).allTables
        = (incrementCounts s2 t ((s.rest j).customers.getD i ⟨0, 0⟩).word).allTables := by
      unfold HdpLda.allTables seat
      rw [List.flatMap_def, List.flatMap_def, tables_map_assignTable]
    rw [hall]
    exact TInv_congr (s := incrementCounts s2 t ((s.rest j).customers.getD i ⟨0, 0⟩).word)
      rfl rfl rfl rfl rfl (fun _ => ⟨rfl, rfl, rfl⟩) hT1
  · unfold seat
    rw [Shape_assignTable]
    exact Shape_of_custKey hc

theorem removeEmptyTable_of_ne (s : HdpLda) (j t : Nat) (hn : (s.tableHeap t).n ≠ 0) :
    removeEmptyTable s j t = s := by
  unfold removeEmptyTable; rw [if_neg hn]

theorem removeEmptyTable_tableHeap (s : HdpLda) (j t : Nat) :
    (removeEmptyTable s j t).tableHeap = s.tableHeap := by
  unfold removeEmptyTable
  split
  · dsimp only; split <;> rfl
  · rfl

theorem removeEmptyTable_restaurants (s : HdpLda) (j t : Nat) (hn : (s.tableHeap t).n = 0) :
    (removeEmptyTable s j t).restaurants = s.restaurants.set j
      { s.rest j with tables := (s.rest j).tables.filter (· ≠ t) } := by
  unfold removeEmptyTable; rw [if_pos hn]; dsimp only; split <;> rfl

theorem removeEmptyTable_topicHeap (s : HdpLda) (j t : Nat) (hn : (s.tableHeap t).n = 0) :
    (removeEmptyTable s j t).topicHeap
      = Function.update s.topicHeap (s.tableHeap t).topic
        { s.topicHeap (s.tableHeap t).topic with
          m := (s.topicHeap (s.tableHeap t).topic).m - 1 } := by
  unfold removeEmptyTable; rw [if_pos hn]; dsimp only; split <;> rfl

theorem removeEmptyTable_topics (s : HdpLda) (j t : Nat) (hn : (s.tableHeap t).n = 0) :
    (removeEmptyTable s j t).topics
      = if (s.topicHeap (s.tableHeap t).topic).m - 1 = 0
        then s.topics.filter (· ≠ (s.tableHeap t).topic) else s.topics := by
  unfold removeEmptyTable; rw [if_pos hn]; dsimp only
  rw [Function.update_same]
  by_cases hm : (s.topicHeap (s.tableHeap t).topic).m - 1 = 0
  · rw [if_pos hm, if_pos hm]
  · rw [if_neg hm, if_neg hm]

theorem removeEmptyTable_allTables (s : HdpLda) (M : Nat → Multiset Customer) (j t : Nat)
    (hR : RInv s M) (hj : j < s.D) (ht : t ∈ (s.rest j).tables)
    (hn : (s.tableHeap t).n = 0) :
    (↑(removeEmptyTable s j t).allTables : Multiset Nat) = (↑s.allTables : Multiset Nat).erase t :=
  (removeTable_RInv s _ M j t hR hj ht hn (removeEmptyTable_restaurants s j t hn)
    (removeEmptyTable_D s j t) (removeEmptyTable_V s j t)
    (by unfold removeEmptyTable; rw [if_pos hn]; dsimp only; split <;> rfl)
    (removeEmptyTable_tableHeap s j t)).2

theorem removeEmptyTable_PosT (s : HdpLda) (M : Nat → Multiset Customer) (j t : Nat)
    (hR : RInv s M) (hj : j < s.D) (ht : t ∈ (s.rest j).tables)
    (hpos : ∀ t1 ∈ s.allTables, t1 ≠ t → 1 ≤ (s.tableHeap t1).n)
    (h0 : 0 ≤ (s.tableHeap t).n) : PosT (removeEmptyTable s j t) := by
  by_cases hn : (s.tableHeap t).n = 0
  · intro t1 ht1
    have h1 : t1 ∈ (↑(removeEmptyTable s j t).allTables : Multiset Nat) := ht1
    rw [removeEmptyTable_allTables s M j t hR hj ht hn,
      Multiset.Nodup.mem_erase_iff (Multiset.coe_nodup.mpr hR.nodupT)] at h1
    rw [removeEmptyTable_tableHeap]
    exact hpos t1 h1.2 h1.1
  · rw [removeEmptyTable_of_ne s j t hn]
    intro t1 ht1
    by_cases e : t1 = t
    · subst e; omega
    · exact hpos t1 ht1 e

theorem removeEmptyTable_PosK (s : HdpLda) (j t : Nat) (hpos : PosK s) :
    PosK (removeEmptyTable s j t) := by
  by_cases hn : (s.tableHeap t).n = 0
  · intro k hk
    rw [removeEmptyTable_topics s j t hn] at hk
    rw [removeEmptyTable_topicHeap s j t hn]
    by_cases e : k = (s.tableHeap t).topic
    · subst e
      rw [Function.update_same]
      show 1 ≤ (s.topicHeap (s.tableHeap t).topic).m - 1
      by_cases hm : (s.topicHeap (s.tableHeap t).topic).m - 1 = 0
      · rw [if_pos hm] at hk
        simp at hk
      · rw [if_neg hm] at hk
        have := hpos _ hk
        omega
    · rw [Function.update_noteq e]
      apply hpos
      split at hk
      · exact (List.mem_filter.mp hk).1
      · exact hk
  · rw [removeEmptyTable_of_ne s j t hn]; exact hpos

theorem unseat_Pos (s : HdpLda) (j i : Nat) (hI : Inv s) (hj : j < s.D)
    (hi : i < (s.rest j).customers.length) :
    (PosK s → PosK (unseat s j i)) ∧ (PosT s → PosT (unseat s j i)) := by
  have hM : s.seated j = (s.rest j).customers.getD i ⟨0, 0⟩ ::ₘ
      ↑((s.rest j).customers.eraseIdx i) := coe_eq_cons_eraseIdx _ i _ hi
  have hc : (s.rest j).customers.getD i ⟨0, 0⟩ ∈ s.seated j := by
    rw [hM]; exact Multiset.mem_cons_self _ _
  obtain ⟨htab, hword⟩ := hI.1.seatIn j hj _ hc
  have hR1 := bumpCounts_RInv s s.seated j _ _ (-1) ↑((s.rest j).customers.eraseIdx i)
    hI.1 hj htab hword
    (fun c h => hI.1.seatIn j hj c (by rw [hM]; exact Multiset.mem_cons_of_mem h))
    (by
      intro p _
      rw [hM, Multiset.countP_cons]
      split <;> simp)
  constructor
  · intro hK
    apply removeEmptyTable_PosK
    intro k hk
    show 1 ≤ (Function.update s.topicHeap _ _ k).m
    by_cases e : k = (s.tableHeap ((s.rest j).customers.getD i ⟨0, 0⟩).table).topic
    · subst e; rw [Function.update_same]; exact hK _ hk
    · rw [Function.update_noteq e]; exact hK _ hk
  · intro hP
    apply removeEmptyTable_PosT _ _ j _ hR1 hj htab
    · intro t1 ht1 e
      show 1 ≤ (Function.update s.tableHeap _ _ t1).n
      rw [Function.update_noteq e]
      exact hP t1 ht1
    · show 0 ≤ (Function.update s.tableHeap _ _ _).n
      rw [Function.update_same]
      have := hP _ (hI.1.mem_all hj htab)
      show 0 ≤ (s.tableHeap _).n + -1
      omega

theorem seat_Pos (s : HdpLda) (j i v t : Nat) :
    (PosK s → PosK (seat s j i v t))
      ∧ ((∀ t1 ∈ s.allTables, t1 ≠ t → 1 ≤ (s.tableHeap t1).n) → 0 ≤ (s.tableHeap t).n →
          PosT (seat s j i v t)) := by
  constructor
  · intro hK k hk
    show 1 ≤ (Function.update s.topicHeap _ _ k).m
    by_cases e : k = (s.tableHeap t).topic
    · subst e; rw [Function.update_same]; exact hK _ hk
    · rw [Function.update_noteq e]; exact hK _ hk
  · intro hP h0 t1 ht1
    have hall : (seat s j i v t).allTables = s.allTables := by
      unfold HdpLda.allTables seat
      rw [List.flatMap_def, List.flatMap_def, tables_map_assignTable]
      rfl
    rw [hall] at ht1
    show 1 ≤ (Function.update s.tableHeap t _ t1).n
    by_cases e : t1 = t
    · subst e; rw [Function.update_same]
      show 1 ≤ (s.tableHeap t1).n + 1
      omega
    · rw [Function.update_noteq e]; exact hP t1 ht1 e

theorem addTable_Pos (s : HdpLda) (M : Nat → Multiset Customer) (j k : Nat)
    (hR : RInv s M) (hj : j < s.D) :
    ((∀ k1 ∈ s.topics, k1 ≠ k → 1 ≤ (s.topicHeap k1).m) → 0 ≤ (s.topicHeap k).m →
        PosK (addTable s j k).1)
      ∧ (PosT s → (∀ t1 ∈ (addTable s j k).1.allTables, t1 ≠ (addTable s j k).2 →
          1 ≤ ((addTable s j k).1.tableHeap t1).n)
          ∧ 0 ≤ ((addTable s j k).1.tableHeap (addTable s j k).2).n) := by
  constructor
  · intro hK h0 k1 hk1
    show 1 ≤ (Function.update s.topicHeap k _ k1).m
    by_cases e : k1 = k
    · subst e; rw [Function.update_same]
      show 1 ≤ (s.topicHeap k1).m + 1
      omega
    · rw [Function.update_noteq e]; exact hK k1 hk1 e
  · intro hP
    constructor
    · intro t1 ht1 e
      have hall : (↑(addTable s j k).1.allTables : Multiset Nat)
          = s.nextTable ::ₘ (↑s.allTables : Multiset Nat) :=
        coe_flatMap_push s.restaurants j s.nextTable _ (hR.lenR ▸ hj) rfl
      have h1 : t1 ∈ (↑(addTable s j k).1.allTables : Multiset Nat) := ht1
      rw [hall, Multiset.mem_cons] at h1
      rcases h1 with h1 | h1
      · exact absurd h1 e
      · show 1 ≤ (Function.update s.tableHeap s.nextTable _ t1).n
        have e1 : t1 ≠ s.nextTable := e
        rw [Function.update_noteq e1]
        exact hP t1 h1
    · show 0 ≤ (Function.update s.tableHeap s.nextTable _ s.nextTable).n
      rw [Function.update_same]
      exact le_refl _

theorem addTopic_Pos (s : HdpLda) (hK : PosK s) :
    (∀ k1 ∈ (addTopic s).1.topics, k1 ≠ (addTopic s).2 → 1 ≤ ((addTopic s).1.topicHeap k1).m)
      ∧ 0 ≤ ((addTopic s).1.topicHeap (addTopic s).2).m := by
  constructor
  · intro k1 hk1 e
    have h1 : k1 ∈ s.topics ++ [s.nextTopic] := hk1
    rw [List.mem_append, List.mem_singleton] at h1
    rcases h1 with h1 | h1
    · show 1 ≤ (Function.update s.topicHeap s.nextTopic _ k1).m
      have e1 : k1 ≠ s.nextTopic := e
      rw [Function.update_noteq e1]
      exact hK k1 h1
    · exact absurd h1 e
  · show 0 ≤ (Function.update s.topicHeap s.nextTopic _ s.nextTopic).m
    rw [Function.update_same]
    exact le_refl _

theorem Step.refl {s : HdpLda} (h : Inv s) : Step s s :=
  ⟨h, rfl, rfl, rfl, id, id⟩

theorem Step.trans {s s1 s2 : HdpLda} (h1 : Step s s1) (h2 : Step s1 s2) : Step s s2 :=
  ⟨h2.1, h2.2.1.trans h1.2.1, h2.2.2.1.trans h1.2.2.1, h2.2.2.2.1.trans h1.2.2.2.1,
    fun h => h2.2.2.2.2.1 (h1.2.2.2.2.1 h), fun h => h2.2.2.2.2.2 (h1.2.2.2.2.2 h)⟩

/-! ### Table sampler: one step, one restaurant, one call -/

theorem getD_mem_of_lt (l : List Nat) (i : Nat) (h : i < l.length) : l.getD i 0 ∈ l := by
  rw [List.getD_eq_getElem l 0 h]
  exact List.getElem_mem h

theorem pickTopic_spec (s2 : HdpLda) (c : Prop) [Decidable c] (k : Nat)
    (hk : c → k ∈ s2.topics) :
    (∀ M, RInv s2 M → RInv (if c then (s2, k) else addTopic s2).1 M)
      ∧ (∀ A, TInv s2 A → TInv (if c then (s2, k) else addTopic s2).1 A)
      ∧ (if c then (s2, k) else addTopic s2).2 ∈ (if c then (s2, k) else addTopic s2).1.topics
      ∧ (if c then (s2, k) else addTopic s2).1.D = s2.D
      ∧ (if c then (s2, k) else addTopic s2).1.V = s2.V
      ∧ (if c then (s2, k) else addTopic s2).1.restaurants = s2.restaurants
      ∧ (if c then (s2, k) else addTopic s2).1.tableHeap = s2.tableHeap
      ∧ (PosK s2 → (∀ A, TInv s2 A →
          (∀ k1 ∈ (if c then (s2, k) else addTopic s2).1.topics,
            k1 ≠ (if c then (s2, k) else addTopic s2).2 →
            1 ≤ ((if c then (s2, k) else addTopic s2).1.topicHeap k1).m)
          ∧ 0 ≤ ((if c then (s2, k) else addTopic s2).1.topicHeap
              (if c then (s2, k) else addTopic s2).2).m)) := by
  by_cases h : c
  · have e : (if c then (s2, k) else addTopic s2) = (s2, k) := if_pos h
    rw [e]
    refine ⟨fun _ h => h, fun _ h => h, hk h, rfl, rfl, rfl, rfl, ?_⟩
    intro hK A hT
    exact ⟨fun k1 hk1 _ => hK k1 hk1, le_trans (by norm_num) (hK k (hk h))⟩
  · have e : (if c then (s2, k) else addTopic s2) = addTopic s2 := if_neg h
    rw [e]
    refine ⟨fun M hR => addTopic_RInv s2 M hR, fun A hT => addTopic_TInv s2 A hT,
      addTopic_mem s2, rfl, rfl, rfl, rfl, ?_⟩
    intro hK A _
    exact addTopic_Pos s2 hK

theorem TInv.m_nonneg {s : HdpLda} {A : Multiset Nat} (h : TInv s A) {k : Nat}
    (hk : k ∈ s.topics) : 0 ≤ (s.topicHeap k).m := by
  rw [h.mK k hk]
  exact tsum_nonneg _ _ _ _ (fun _ _ => by norm_num)

theorem RInv.table_n_nonneg {s : HdpLda} {M : Nat → Multiset Customer} (h : RInv s M) {j t : Nat}
    (hj : j < s.D) (ht : t ∈ (s.rest j).tables) : 0 ≤ (s.tableHeap t).n := by
  rw [h.nT j hj t ht]
  exact Int.natCast_nonneg _

theorem seatDraw_spec (s s2 : HdpLda) (j i : Nat) (G0_sum : ℚ) (G0_vk0 : List ℚ) (g : Rng)
    (hj : j < s.D) (hi : i < (s.rest j).customers.length)
    (hword : ((s.rest j).customers.getD i ⟨0, 0⟩).word < s.V)
    (hR2 : RInv s2 (Function.update s.seated j ↑((s.rest j).customers.eraseIdx i)))
    (hT2 : TInv s2 ↑s2.allTables) (hD2 : s2.D = s.D) (hV2 : s2.V = s.V)
    (hc2 : custKey s2 = custKey s) (hK2 : PosK s → PosK s2) (hP2 : PosT s → PosT s2) :
    Step s (seatDraw s2 j i ((s.rest j).customers.getD i ⟨0, 0⟩).word G0_sum G0_vk0 g).1 := by
  have hj2 : j < s2.D := hD2 ▸ hj
  unfold seatDraw
  dsimp only
  split
  · next hlt =>
    have ht := getD_mem_of_lt _ _ hlt
    obtain ⟨h1, h2, h3, h4⟩ := seat_Inv s s2 j i _ hj hi hR2 hT2 hD2 hV2 hc2 ht hword
    refine ⟨h1, h2, h3, h4, fun h => (seat_Pos s2 j i _ _).1 (hK2 h), fun h => ?_⟩
    exact (seat_Pos s2 j i _ _).2 (fun t1 ht1 _ => hP2 h t1 ht1) (hR2.table_n_nonneg hj2 ht)
  · obtain ⟨a1, a2, a3, a4, a5, a6, a7, a8⟩ := pickTopic_spec s2
      (drawIndex (G0_vk0 ++ [G0_sum + s2.gamma * (1 / (s2.V : ℚ))])
        ((uniform (uniform g).2).1
          * (G0_vk0 ++ [G0_sum + s2.gamma * (1 / (s2.V : ℚ))]).getD s2.topics.length 0)
        s2.topics.length < s2.topics.length)
      (s2.topics.getD (drawIndex (G0_vk0 ++ [G0_sum + s2.gamma * (1 / (s2.V : ℚ))])
        ((uniform (uniform g).2).1
          * (G0_vk0 ++ [G0_sum + s2.gamma * (1 / (s2.V : ℚ))]).getD s2.topics.length 0)
        s2.topics.length) 0) (fun h => getD_mem_of_lt _ _ h)
    generalize (if drawIndex (G0_vk0 ++ [G0_sum + s2.gamma * (1 / (s2.V : ℚ))])
        ((uniform (uniform g).2).1
          * (G0_vk0 ++ [G0_sum + s2.gamma * (1 / (s2.V : ℚ))]).getD s2.topics.length 0)
        s2.topics.length < s2.topics.length
      then (s2, s2.topics.getD (drawIndex (G0_vk0 ++ [G0_sum + s2.gamma * (1 / (s2.V : ℚ))])
        ((uniform (uniform g).2).1
          * (G0_vk0 ++ [G0_sum + s2.gamma * (1 / (s2.V : ℚ))]).getD s2.topics.length 0)
        s2.topics.length) 0) else addTopic s2) = p at a1 a2 a3 a4 a5 a6 a7 a8 ⊢
    have hRp := a1 _ hR2
    have hallp : p.1.allTables = s2.allTables := by unfold HdpLda.allTables; rw [a6]
    have hTp : TInv p.1 ↑p.1.allTables := by rw [hallp]; exact a2 _ hT2
    have hjp : j < p.1.D := a4 ▸ hj2
    obtain ⟨hRq, hTq⟩ := addTable_inv p.1 _ j p.2 hRp hTp hjp a3
    have htq := addTable_mem p.1 j p.2 (hRp.lenR ▸ hjp)
    have hcq : custKey (addTable p.1 j p.2).1 = custKey s := by
      rw [custKey_addTable]
      unfold custKey
      rw [a6]
      exact hc2
    obtain ⟨h1, h2, h3, h4⟩ := seat_Inv s (addTable p.1 j p.2).1 j i _ hj hi hRq hTq
      (a4.trans hD2) (a5.trans hV2) hcq htq hword
    obtain ⟨b1, b2⟩ := addTable_Pos p.1 _ j p.2 hRp hjp
    refine ⟨h1, h2, h3, h4, fun h => ?_, fun h => ?_⟩
    · apply (seat_Pos _ j i _ _).1
      obtain ⟨c1, c2⟩ := a8 (hK2 h) _ hT2
      exact b1 c1 c2
    · have hPp : PosT p.1 := by
        intro t1 ht1
        rw [a7]
        exact hP2 h t1 (hallp ▸ ht1)
      obtain ⟨c1, c2⟩ := b2 hPp
      exact (seat_Pos _ j i _ _).2 c1 c2

theorem sampleTablesStep_spec (s : HdpLda) (j i : Nat) (g : Rng) (hI : Inv s) (hj : j < s.D)
    (hi : i < (s.rest j).customers.length) : Step s (sampleTablesStep s j i g).1 := by
  have hM : s.seated j = (s.rest j).customers.getD i ⟨0, 0⟩ ::ₘ
      ↑((s.rest j).customers.eraseIdx i) := coe_eq_cons_eraseIdx _ i _ hi
  have hc : (s.rest j).customers.getD i ⟨0, 0⟩ ∈ s.seated j := by
    rw [hM]; exact Multiset.mem_cons_self _ _
  obtain ⟨_, hword⟩ := hI.1.seatIn j hj _ hc
  obtain ⟨hR1, hT1⟩ := unseat_inv s j i hI hj hi
  obtain ⟨hK1, hP1⟩ := unseat_Pos s j i hI hj hi
  unfold sampleTablesStep
  dsimp only
  apply seatDraw_spec s _ j i _ _ g hj hi hword
  · exact RInv_congr (s := unseat s j i) rfl rfl rfl rfl (fun _ => ⟨rfl, rfl⟩) hR1
  · exact TInv_congr (s := unseat s j i) rfl rfl rfl rfl rfl (phiLoop_counts _ _) hT1
  · exact unseat_D s j i
  · exact unseat_V s j i
  · exact custKey_unseat s j i
  · intro h k hk
    show 1 ≤ ((phiLoop (unseat s j i) _).1 k).m
    rw [(phiLoop_counts _ _ k).2.2]
    exact hK1 h k hk
  · exact hP1

theorem foldl_invariant {α β : Type} (P : β → Prop) (f : β → α → β) (l : List α) (b : β)
    (hb : P b) (hf : ∀ b a, a ∈ l → P b → P (f b a)) : P (l.foldl f b) := by
  induction l generalizing b with
  | nil => exact hb
  | cons a l ih =>
    rw [List.foldl_cons]
    apply ih
    · exact hf b a (List.mem_cons_self _ _) hb
    · intro b1 a1 h1 h2
      exact hf b1 a1 (List.mem_cons_of_mem _ h1) h2

theorem sampleTablesRestaurant_spec (s : HdpLda) (j : Nat) (g : Rng) (hI : Inv s)
    (hj : j < s.D) : Step s (sampleTablesRestaurant s j g).1 := by
  unfold sampleTablesRestaurant
  apply foldl_invariant (fun p : HdpLda × Rng => Step s p.1)
  · exact Step.refl hI
  · intro p i hi hp
    rw [List.mem_range] at hi
    apply Step.trans hp
    apply sampleTablesStep_spec p.1 j i p.2 hp.1 (hp.2.1 ▸ hj)
    rw [length_of_Shape hp.2.2.2.1 j]
    exact hi

theorem sampleTables_spec (s : HdpLda) (g : Rng) (hI : Inv s) : Step s (sampleTables s g).1 := by
  unfold sampleTables
  apply foldl_invariant (fun p : HdpLda × Rng => Step s p.1)
  · exact Step.refl hI
  · intro p j hj hp
    rw [List.mem_range] at hj
    apply Step.trans hp
    exact sampleTablesRestaurant_spec p.1 j p.2 hp.1 (hp.2.1 ▸ hj)

/-! ### Topic sampler: one step, one restaurant, one call -/

theorem nonzeroCounts_succ (V : Nat) (nv : List Int) :
    nonzeroCounts (V + 1) nv = nonzeroCounts V nv
      ++ (if nv.getD V 0 ≠ 0 then [(V, nv.getD V 0)] else []) := by
  unfold nonzeroCounts
  rw [List.range_succ, List.filterMap_append]
  congr 1
  by_cases h : nv.getD V 0 ≠ 0
  · simp [-List.getD_eq_getElem?_getD, List.filterMap_cons, h]
  · simp [-List.getD_eq_getElem?_getD, List.filterMap_cons, h]

theorem addCounts_spec (nv : List Int) (sign : Int) (w : Nat) (V : Nat) (l : List Int) :
    (addCounts l (nonzeroCounts V nv) sign).length = l.length
      ∧ (addCounts l (nonzeroCounts V nv) sign).getD w 0
        = l.getD w 0 + (if w < V ∧ w < l.length then sign * nv.getD w 0 else 0) := by
  induction V with
  | zero => simp [addCounts, nonzeroCounts]
  | succ V ih =>
    obtain ⟨ih1, ih2⟩ := ih
    rw [nonzeroCounts_succ]
    unfold addCounts at ih1 ih2 ⊢
    rw [List.foldl_append]
    by_cases h : nv.getD V 0 ≠ 0
    · rw [if_pos h, List.foldl_cons, List.foldl_nil]
      dsimp only
      rw [length_incAt, getD_incAt, ih1, ih2]
      refine ⟨rfl, ?_⟩
      by_cases e : w = V
      · subst e
        by_cases e2 : w < l.length
        · simp [e2]
        · simp [e2]
      · have h1 : (w < V + 1) = (w < V) := by
          apply propext; constructor <;> intro h <;> omega
        simp only [e, false_and, if_false, h1]
    · rw [if_neg h, List.foldl_nil, ih1, ih2]
      refine ⟨rfl, ?_⟩
      by_cases e : w = V
      · subst e
        have h0 : nv.getD w 0 = 0 := by
          by_contra h2; exact h h2
        simp [-List.getD_eq_getElem?_getD, h0]
      · have h1 : (w < V + 1) = (w < V) := by
          apply propext; constructor <;> intro h <;> omega
        simp only [h1]

theorem getD_addCounts (V : Nat) (l nv : List Int) (sign : Int) (w : Nat)
    (hl : l.length = V) (hnv : nv.length = V) :
    (addCounts l (nonzeroCounts V nv) sign).getD w 0 = l.getD w 0 + sign * nv.getD w 0 := by
  rw [(addCounts_spec nv sign w V l).2]
  by_cases h : w < V
  · simp [h, hl]
  · have : nv.getD w 0 = 0 := by
      rw [List.getD_eq_getElem?_getD, List.getElem?_eq_none (by omega)]
      rfl
    simp [-List.getD_eq_getElem?_getD, h, this]

theorem length_addCounts (V : Nat) (l nv : List Int) (sign : Int) :
    (addCounts l (nonzeroCounts V nv) sign).length = l.length :=
  (addCounts_spec nv sign 0 V l).1

theorem detach_topics (s : HdpLda) (t : Nat) :
    (detach s t).topics = if (s.topicHeap (s.tableHeap t).topic).m - 1 = 0
      then s.topics.filter (· ≠ (s.tableHeap t).topic) else s.topics := by
  unfold detach
  dsimp only
  split <;> rfl

theorem detach_topicHeap (s : HdpLda) (t : Nat) (k : Nat) (hk : k ∈ (detach s t).topics) :
    (detach s t).topicHeap k
      = if k = (s.tableHeap t).topic then
          { s.topicHeap k with
            m := (s.topicHeap k).m - 1, n := (s.topicHeap k).n - (s.tableHeap t).n,
            n_v := addCounts (s.topicHeap k).n_v
              (nonzeroCounts s.V (s.tableHeap t).n_v) (-1) }
        else s.topicHeap k := by
  rw [detach_topics] at hk
  unfold detach
  dsimp only
  by_cases hm : (s.topicHeap (s.tableHeap t).topic).m - 1 = 0
  · rw [if_pos hm] at hk ⊢
    have e : k ≠ (s.tableHeap t).topic := by
      have := (List.mem_filter.mp hk).2
      simpa using this
    dsimp only
    rw [Function.update_noteq e, if_neg e]
  · rw [if_neg hm]
    dsimp only
    by_cases e : k = (s.tableHeap t).topic
    · subst e; rw [Function.update_same, if_pos rfl]
    · rw [Function.update_noteq e, if_neg e]

theorem detach_TInv (s : HdpLda) (A : Multiset Nat) (t : Nat) (hT : TInv s A) (ht : t ∈ A)
    (hl : (s.tableHeap t).n_v.length = s.V) : TInv (detach s t) (A.erase t) := by
  have hsub : ∀ k ∈ (detach s t).topics, k ∈ s.topics := by
    intro k hk
    rw [detach_topics] at hk
    split at hk
    · exact (List.mem_filter.mp hk).1
    · exact hk
  have hth : (detach s t).tableHeap = s.tableHeap := by
    unfold detach; dsimp only; split <;> rfl
  have hmk : (s.topicHeap (s.tableHeap t).topic).m - 1
      = tsum s.tableHeap (A.erase t) (s.tableHeap t).topic (fun _ => 1) := by
    rw [tsum_erase _ _ _ ht, hT.mK _ (hT.topicIn t ht)]
    simp
  refine ⟨?_, ?_, ?_, ?_, ?_, ?_, ?_, ?_⟩
  · rw [detach_topics]
    split
    · exact hT.nodupK.filter _
    · exact hT.nodupK
  · intro k hk
    have : (detach s t).nextTopic = s.nextTopic := by
      unfold detach; dsimp only; split <;> rfl
    rw [this]; exact hT.ltK k (hsub k hk)
  · intro t1 ht1
    have h1 := hT.topicIn t1 (Multiset.mem_of_mem_erase ht1)
    rw [hth, detach_topics]
    split
    · next h0 =>
      rw [h0] at hmk
      have := tsum_one_eq_zero _ _ _ hmk.symm t1 ht1
      simp only [List.mem_filter, decide_eq_true_eq]
      exact ⟨h1, this⟩
    · exact h1
  · intro k hk
    have h0 := hT.mK k (hsub k hk)
    rw [hth, detach_topicHeap s t k hk, tsum_erase _ _ _ ht]
    by_cases e : k = (s.tableHeap t).topic
    · subst e; simp [h0]
    · have : ¬ (s.tableHeap t).topic = k := fun h => e h.symm
      rw [if_neg e, h0]; simp [this]
  · intro k hk
    have h0 := hT.nK k (hsub k hk)
    rw [hth, detach_topicHeap s t k hk, tsum_erase _ _ _ ht]
    by_cases e : k = (s.tableHeap t).topic
    · subst e; simp [h0]
    · have : ¬ (s.tableHeap t).topic = k := fun h => e h.symm
      rw [if_neg e, h0]; simp [this]
  · intro k hk
    have h0 := hT.lenK k (hsub k hk)
    have hV : (detach s t).V = s.V := by
      unfold detach; dsimp only; split <;> rfl
    rw [detach_topicHeap s t k hk, hV]
    by_cases e : k = (s.tableHeap t).topic
    · rw [if_pos e]
      dsimp only
      rw [length_addCounts, h0]
    · rw [if_neg e, h0]
  · intro k hk v
    have h0 := hT.nvK k (hsub k hk) v
    have hlk := hT.lenK k (hsub k hk)
    rw [hth, detach_topicHeap s t k hk, tsum_erase _ _ _ ht]
    by_cases e : k = (s.tableHeap t).topic
    · subst e
      rw [if_pos rfl, if_pos rfl]
      dsimp only
      rw [getD_addCounts s.V _ _ _ _ hlk hl, h0]
      ring
    · have : ¬ (s.tableHeap t).topic = k := fun h => e h.symm
      rw [if_neg e, if_neg this, h0, sub_zero]
  · have hm : (detach s t).m = s.m - 1 := by
      unfold detach; dsimp only; split <;> rfl
    rw [hm, hT.mTot, Multiset.card_erase_of_mem ht]
    have : 0 < Multiset.card A := Multiset.card_pos_iff_exists_mem.mpr ⟨t, ht⟩
    rw [Nat.pred_eq_sub_one]
    omega

theorem attach_TInv (s : HdpLda) (A : Multiset Nat) (t k : Nat) (hT : TInv s A) (ht : t ∉ A)
    (hk : k ∈ s.topics) (hl : (s.tableHeap t).n_v.length = s.V) :
    TInv (attach s t k) (t ::ₘ A) := by
  have hts : ∀ k1 F, tsum (attach s t k).tableHeap (t ::ₘ A) k1 F
      = (if k = k1 then F { s.tableHeap t with topic := k } else 0)
        + tsum s.tableHeap A k1 F := by
    intro k1 F
    rw [tsum_cons]
    show (if (Function.update s.tableHeap t _ t).topic = k1
      then F (Function.update s.tableHeap t _ t) else 0)
      + tsum (Function.update s.tableHeap t _) A k1 F = _
    rw [tsum_update_not_mem _ _ _ _ ht, Function.update_same]
  refine ⟨hT.nodupK, hT.ltK, ?_, ?_, ?_, ?_, ?_, ?_⟩
  · intro t1 ht1
    show (Function.update s.tableHeap t _ t1).topic ∈ s.topics
    by_cases e : t1 = t
    · subst e; rw [Function.update_same]; exact hk
    · rw [Function.update_noteq e]
      rw [Multiset.mem_cons] at ht1
      rcases ht1 with h | h
      · exact absurd h e
      · exact hT.topicIn t1 h
  · intro k1 hk1
    have h0 := hT.mK k1 hk1
    rw [hts]
    show (Function.update s.topicHeap k _ k1).m = _
    by_cases e : k1 = k
    · subst e; simp [h0]; ring
    · have : ¬ k = k1 := fun h => e h.symm
      rw [Function.update_noteq e, h0]; simp [this]
  · intro k1 hk1
    have h0 := hT.nK k1 hk1
    rw [hts]
    show (Function.update s.topicHeap k _ k1).n = _
    by_cases e : k1 = k
    · subst e; simp [h0]; ring
    · have : ¬ k = k1 := fun h => e h.symm
      rw [Function.update_noteq e, h0]; simp [this]
  · intro k1 hk1
    have h0 := hT.lenK k1 hk1
    show (Function.update s.topicHeap k _ k1).n_v.length = s.V
    by_cases e : k1 = k
    · subst e
      rw [Function.update_same]
      dsimp only
      rw [length_addCounts, h0]
    · rw [Function.update_noteq e, h0]
  · intro k1 hk1 v
    have h0 := hT.nvK k1 hk1 v
    have hlk := hT.lenK k1 hk1
    rw [hts]
    show (Function.update s.topicHeap k _ k1).n_v.getD v 0 = _
    by_cases e : k1 = k
    · subst e
      rw [Function.update_same, if_pos rfl]
      dsimp only
      rw [getD_addCounts s.V _ _ _ _ hlk hl, h0]
      ring
    · have : ¬ k = k1 := fun h => e h.symm
      rw [Function.update_noteq e, if_neg this, h0, zero_add]
  · show s.m + 1 = _
    rw [hT.mTot]; simp

theorem detach_frame (s : HdpLda) (t : Nat) :
    (detach s t).restaurants = s.restaurants ∧ (detach s t).D = s.D ∧ (detach s t).V = s.V
      ∧ (detach s t).tableHeap = s.tableHeap ∧ (detach s t).nextTable = s.nextTable := by
  unfold detach
  dsimp only
  split <;> exact ⟨rfl, rfl, rfl, rfl, rfl⟩

theorem detach_PosK (s : HdpLda) (t : Nat) (hK : PosK s) : PosK (detach s t) := by
  intro k hk
  rw [detach_topicHeap s t k hk]
  rw [detach_topics] at hk
  by_cases e : k = (s.tableHeap t).topic
  · subst e
    rw [if_pos rfl]
    show 1 ≤ (s.topicHeap (s.tableHeap t).topic).m - 1
    by_cases hm : (s.topicHeap (s.tableHeap t).topic).m - 1 = 0
    · rw [if_pos hm] at hk
      simp at hk
    · rw [if_neg hm] at hk
      have := hK _ hk
      omega
  · rw [if_neg e]
    apply hK
    split at hk
    · exact (List.mem_filter.mp hk).1
    · exact hk

theorem attach_tableHeap (s : HdpLda) (t k t1 : Nat) :
    ((attach s t k).tableHeap t1).n = (s.tableHeap t1).n
      ∧ ((attach s t k).tableHeap t1).n_v = (s.tableHeap t1).n_v := by
  show (Function.update s.tableHeap t _ t1).n = _ ∧ (Function.update s.tableHeap t _ t1).n_v = _
  by_cases e : t1 = t
  · subst e; rw [Function.update_same]; exact ⟨rfl, rfl⟩
  · rw [Function.update_noteq e]; exact ⟨rfl, rfl⟩

theorem seated_of_restaurants {s s1 : HdpLda} (h : s1.restaurants = s.restaurants) :
    s1.seated = s.seated := by
  funext j
  unfold HdpLda.seated HdpLda.rest
  rw [h]

theorem pickTopic_nextTable (s2 : HdpLda) (c : Prop) [Decidable c] (k : Nat) :
    (if c then (s2, k) else addTopic s2).1.nextTable = s2.nextTable := by
  split <;> rfl

theorem StepK.chain {s s1 s2 : HdpLda} (h1 : StepK s s1) (h2 : StepK s1 s2) : StepK s s2 :=
  ⟨h1.1.trans h2.1, h2.2.trans h1.2⟩

theorem attachDraw_spec (L : Libm ℚ) (s s1 : HdpLda) (t : Nat) (g : Rng)
    (hI : Inv s) (ht : t ∈ s.allTables)
    (hT1 : TInv s1 ((↑s.allTables : Multiset Nat).erase t))
    (hrest : s1.restaurants = s.restaurants) (hD : s1.D = s.D) (hV : s1.V = s.V)
    (hth : s1.tableHeap = s.tableHeap) (hnext : s1.nextTable = s.nextTable)
    (hK1 : PosK s → PosK s1) :
    StepK s (attachDraw L s1 t g).1 := by
  unfold attachDraw
  dsimp only
  obtain ⟨a1, a2, a3, a4, a5, a6, a7, a8⟩ := pickTopic_spec s1
    (drawIndex (expCDF L (logWeights L s1 t) (minElement (logWeights L s1 t)))
      ((uniform g).1 * (expCDF L (logWeights L s1 t) (minElement (logWeights L s1 t))).getD
        s1.topics.length 0) s1.topics.length < s1.topics.length)
    (s1.topics.getD (drawIndex (expCDF L (logWeights L s1 t) (minElement (logWeights L s1 t)))
      ((uniform g).1 * (expCDF L (logWeights L s1 t) (minElement (logWeights L s1 t))).getD
        s1.topics.length 0) s1.topics.length) 0) (fun h => getD_mem_of_lt _ _ h)
  have a9 := pickTopic_nextTable s1
    (drawIndex (expCDF L (logWeights L s1 t) (minElement (logWeights L s1 t)))
      ((uniform g).1 * (expCDF L (logWeights L s1 t) (minElement (logWeights L s1 t))).getD
        s1.topics.length 0) s1.topics.length < s1.topics.length)
    (s1.topics.getD (drawIndex (expCDF L (logWeights L s1 t) (minElement (logWeights L s1 t)))
      ((uniform g).1 * (expCDF L (logWeights L s1 t) (minElement (logWeights L s1 t))).getD
        s1.topics.length 0) s1.topics.length) 0)
  generalize (if drawIndex (expCDF L (logWeights L s1 t) (minElement (logWeights L s1 t)))
      ((uniform g).1 * (expCDF L (logWeights L s1 t) (minElement (logWeights L s1 t))).getD
        s1.topics.length 0) s1.topics.length < s1.topics.length
    then (s1, s1.topics.getD (drawIndex (expCDF L (logWeights L s1 t)
      (minElement (logWeights L s1 t)))
      ((uniform g).1 * (expCDF L (logWeights L s1 t) (minElement (logWeights L s1 t))).getD
        s1.topics.length 0) s1.topics.length) 0) else addTopic s1) = p
    at a1 a2 a3 a4 a5 a6 a7 a8 a9 ⊢
  have hnd : (↑s.allTables : Multiset Nat).Nodup := Multiset.coe_nodup.mpr hI.1.nodupT
  have htA : t ∈ (↑s.allTables : Multiset Nat) := ht
  obtain ⟨hnot, hcons⟩ := exists_cons_of_mem_nodup hnd htA
  have hl : (p.1.tableHeap t).n_v.length = p.1.V := by
    rw [a7, a5, hth, hV]; exact hI.1.lenT t ht
  have hTa := attach_TInv p.1 _ t p.2 (a2 _ hT1) hnot a3 hl
  rw [← hcons] at hTa
  have hrest2 : (attach p.1 t p.2).restaurants = s.restaurants :=
    (show (attach p.1 t p.2).restaurants = p.1.restaurants from rfl).trans (a6.trans hrest)
  have hall : (attach p.1 t p.2).allTables = s.allTables := by
    unfold HdpLda.allTables; rw [hrest2]
  refine ⟨⟨⟨?_, ?_⟩, a4.trans hD, a5.trans hV, ?_, ?_, ?_⟩, hrest2⟩
  · rw [seated_of_restaurants hrest2]
    refine RInv_congr (s := s) (r := attach p.1 t p.2) (by rw [hrest2])
      (a4.trans hD) (a5.trans hV) (a9.trans hnext) ?_ hI.1
    · intro t1
      have := attach_tableHeap p.1 t p.2 t1
      rw [a7, hth] at this
      exact this
  · rw [hall]; exact hTa
  · unfold Shape; rw [hrest2]
  · intro h k1 hk1
    obtain ⟨c1, c2⟩ := a8 (hK1 h) _ hT1
    show 1 ≤ (Function.update p.1.topicHeap p.2 _ k1).m
    by_cases e : k1 = p.2
    · rw [e, Function.update_same]
      show 1 ≤ (p.1.topicHeap p.2).m + 1
      omega
    · rw [Function.update_noteq e]
      exact c1 k1 hk1 e
  · intro h t1 ht1
    rw [hall] at ht1
    rw [(attach_tableHeap p.1 t p.2 t1).1, a7, hth]
    exact h t1 ht1

theorem sampleTopicsStep_spec (L : Libm ℚ) (s : HdpLda) (t : Nat) (g : Rng) (hI : Inv s)
    (ht : t ∈ s.allTables) : StepK s (sampleTopicsStep L s t g).1 := by
  obtain ⟨f1, f2, f3, f4, f5⟩ := detach_frame s t
  unfold sampleTopicsStep
  exact attachDraw_spec L s (detach s t) t g hI ht
    (detach_TInv s _ t hI.2 ht (hI.1.lenT t ht)) f1 f2 f3 f4 f5 (detach_PosK s t)

theorem sampleTopicsRestaurant_spec (L : Libm ℚ) (s : HdpLda) (j : Nat) (g : Rng) (hI : Inv s)
    (hj : j < s.D) : StepK s (sampleTopicsRestaurant L s j g).1 := by
  unfold sampleTopicsRestaurant
  apply foldl_invariant (fun p : HdpLda × Rng => StepK s p.1)
  · exact ⟨Step.refl hI, rfl⟩
  · intro p t ht hp
    apply StepK.chain hp
    apply sampleTopicsStep_spec L p.1 t p.2 hp.1.1
    unfold HdpLda.allTables
    rw [hp.2]
    exact hI.1.mem_all hj ht

theorem sampleTopics_spec (L : Libm ℚ) (s : HdpLda) (g : Rng) (hI : Inv s) :
    StepK s (sampleTopics L s g).1 := by
  unfold sampleTopics
  apply foldl_invariant (fun p : HdpLda × Rng => StepK s p.1)
  · exact ⟨Step.refl hI, rfl⟩
  · intro p j hj hp
    rw [List.mem_range] at hj
    apply StepK.chain hp
    exact sampleTopicsRestaurant_spec L p.1 j p.2 hp.1.1 (hp.1.2.1 ▸ hj)

/-! ### Constructor -/

theorem rest_setRest (s : HdpLda) (j j1 : Nat) (r : Restaurant) (hj : j < s.restaurants.length) :
    (s.setRest j r).rest j1 = if j1 = j then r else s.rest j1 := by
  unfold HdpLda.setRest HdpLda.rest
  exact rest_set s j j1 r hj

theorem initToken_Inv (s : HdpLda) (j t v : Nat) (hI : Inv s) (hj : j < s.D)
    (ht : t ∈ (s.rest j).tables) (hv : v < s.V) :
    Inv ((incrementCounts s t v).setRest j
      { (incrementCounts s t v).rest j with
        customers := ((incrementCounts s t v).rest j).customers ++ [⟨v, t⟩] }) := by
  have hjl : j < s.restaurants.length := hI.1.lenR ▸ hj
  have hR1 := bumpCounts_RInv s _ j t v 1 (⟨v, t⟩ ::ₘ s.seated j) hI.1 hj ht hv
    (by
      intro c h
      rw [Multiset.mem_cons] at h
      rcases h with rfl | h
      · exact ⟨ht, hv⟩
      · exact hI.1.seatIn j hj c h)
    (by
      intro p _
      rw [Multiset.countP_cons]
      split <;> simp)
  have hT1 := bumpCounts_TInv s ↑s.allTables t v 1 hI.2
    (Multiset.coe_nodup.mpr hI.1.nodupT) (hI.1.mem_all hj ht) hv
    (hI.1.lenT _ (hI.1.mem_all hj ht))
  rw [← incrementCounts_eq] at hR1 hT1
  have hmap : ((incrementCounts s t v).setRest j
      { (incrementCounts s t v).rest j with
        customers := ((incrementCounts s t v).rest j).customers ++ [⟨v, t⟩] }).restaurants.map
        Restaurant.tables = (incrementCounts s t v).restaurants.map Restaurant.tables :=
    map_set_of_eq _ _ _ _ _ rfl
  have hseated : ((incrementCounts s t v).setRest j
      { (incrementCounts s t v).rest j with
        customers := ((incrementCounts s t v).rest j).customers ++ [⟨v, t⟩] }).seated
      = Function.update s.seated j (⟨v, t⟩ ::ₘ s.seated j) := by
    funext j1
    unfold HdpLda.seated
    rw [rest_setRest (incrementCounts s t v) j j1 _ hjl]
    by_cases e : j1 = j
    · subst e
      rw [if_pos rfl, Function.update_same]
      show (↑((s.rest j1).customers ++ [(⟨v, t⟩ : Customer)]) : Multiset Customer) = _
      rw [← Multiset.coe_add, ← Multiset.cons_coe, Multiset.coe_nil, Multiset.cons_zero,
        add_comm, Multiset.singleton_add]
    · rw [if_neg e, Function.update_noteq e]
      rfl
  constructor
  · rw [hseated]
    exact RInv_congr (s := incrementCounts s t v) hmap rfl rfl rfl (fun _ => ⟨rfl, rfl⟩) hR1
  · have hall : ((incrementCounts s t v).setRest j
        { (incrementCounts s t v).rest j with
          customers := ((incrementCounts s t v).rest j).customers ++ [⟨v, t⟩] }).allTables
        = s.allTables := by
      unfold HdpLda.allTables
      rw [List.flatMap_def, List.flatMap_def, hmap]
      rfl
    rw [hall]
    exact TInv_congr (s := incrementCounts s t v) rfl rfl rfl rfl rfl
      (fun _ => ⟨rfl, rfl, rfl⟩) hT1

theorem initTokens_spec (toks : List Nat) (s : HdpLda) (j t : Nat) (hI : Inv s) (hj : j < s.D)
    (ht : t ∈ (s.rest j).tables) (hv : ∀ v ∈ toks, v < s.V) :
    ∃ s1, initTokens s j t toks = some s1 ∧ TokensPost s s1 j t toks := by
  induction toks generalizing s with
  | nil =>
    exact ⟨s, rfl, ⟨hI, by simp, rfl, rfl, fun _ _ => rfl, rfl, rfl, rfl, rfl⟩⟩
  | cons v toks ih =>
    have hv0 : v < s.V := hv v (List.mem_cons_self _ _)
    have hjl : j < s.restaurants.length := hI.1.lenR ▸ hj
    unfold initTokens
    rw [if_pos hv0]
    dsimp only
    have hI1 := initToken_Inv s j t v hI hj ht hv0
    have hrj : ∀ j1, ((incrementCounts s t v).setRest j
        { (incrementCounts s t v).rest j with
          customers := ((incrementCounts s t v).rest j).customers ++ [⟨v, t⟩] }).rest j1
        = if j1 = j then { s.rest j with customers := (s.rest j).customers ++ [⟨v, t⟩] }
          else s.rest j1 := by
      intro j1
      rw [rest_setRest (incrementCounts s t v) j j1 _ hjl]
      rfl
    obtain ⟨s1, h1, h2⟩ := ih _ hI1 hj (by rw [hrj, if_pos rfl]; exact ht)
      (fun w hw => hv w (List.mem_cons_of_mem _ hw))
    refine ⟨s1, h1, ⟨h2.inv, ?_, ?_, ?_, ?_, h2.topics, h2.dEq, h2.vEq, h2.nextT⟩⟩
    · rw [h2.cust, hrj, if_pos rfl]
      simp
    · rw [h2.nR, hrj, if_pos rfl]
    · rw [h2.tabs, hrj, if_pos rfl]
    · intro j1 e
      rw [h2.other j1 e, hrj, if_neg e]

theorem initDocument_spec (s : HdpLda) (j k : Nat) (doc : List Nat) (hI : Inv s)
    (hj : j < s.D) (hk : k ∈ s.topics) (hc : (s.rest j).customers = [])
    (ht : (s.rest j).tables = []) (hv : ∀ v ∈ doc, v < s.V) :
    ∃ s1, initDocument s j k doc = some s1 ∧ DocPost s s1 j doc := by
  have hjl : j < s.restaurants.length := hI.1.lenR ▸ hj
  obtain ⟨hR1, hT1⟩ := addTable_inv s _ j k hI.1 hI.2 hj hk
  have hck := custKey_addTable s j k
  have hjl1 : j < (addTable s j k).1.restaurants.length := by
    rw [hR1.lenR]; exact hj
  -- the state after `restaurant.n = document.tokens.size()`
  have hmapT : ((addTable s j k).1.setRest j
      { (addTable s j k).1.rest j with n := (doc.length : Int) }).restaurants.map
        Restaurant.tables = (addTable s j k).1.restaurants.map Restaurant.tables :=
    map_set_of_eq _ _ _ _ _ rfl
  have hmapC : ((addTable s j k).1.setRest j
      { (addTable s j k).1.rest j with n := (doc.length : Int) }).restaurants.map
        Restaurant.customers = (addTable s j k).1.restaurants.map Restaurant.customers :=
    map_set_of_eq _ _ _ _ _ rfl
  have hrj : ∀ j1, ((addTable s j k).1.setRest j
      { (addTable s j k).1.rest j with n := (doc.length : Int) }).rest j1
      = if j1 = j then { customers := [], tables := [s.nextTable], n := doc.length }
        else s.rest j1 := by
    intro j1
    rw [rest_setRest (addTable s j k).1 j j1 _ hjl1]
    by_cases e : j1 = j
    · rw [if_pos e, if_pos e]
      have h1 := addTable_tables s j k j hjl
      rw [if_pos rfl, ht] at h1
      have h2 := (rest_of_custKey hck j).1
      rw [hc] at h2
      show Restaurant.mk _ _ _ = _
      rw [h1, h2]
      rfl
    · rw [if_neg e, if_neg e]
      unfold HdpLda.rest
      show (s.restaurants.set j _).getD j1 _ = _
      rw [rest_set s j j1 _ hjl, if_neg e]
      rfl
  have hseat : ((addTable s j k).1.setRest j
      { (addTable s j k).1.rest j with n := (doc.length : Int) }).seated = s.seated := by
    funext j1
    unfold HdpLda.seated
    rw [hrj]
    by_cases e : j1 = j
    · rw [if_pos e, e, hc]
    · rw [if_neg e]
  have hI2 : Inv ((addTable s j k).1.setRest j
      { (addTable s j k).1.rest j with n := (doc.length : Int) }) := by
    constructor
    · rw [hseat]
      exact RInv_congr (s := (addTable s j k).1) hmapT rfl rfl rfl (fun _ => ⟨rfl, rfl⟩) hR1
    · have hall : ((addTable s j k).1.setRest j
          { (addTable s j k).1.rest j with n := (doc.length : Int) }).allTables
          = (addTable s j k).1.allTables := by
        unfold HdpLda.allTables
        rw [List.flatMap_def, List.flatMap_def, hmapT]
      rw [hall]
      exact TInv_congr (s := (addTable s j k).1) rfl rfl rfl rfl rfl
        (fun _ => ⟨rfl, rfl, rfl⟩) hT1
  obtain ⟨s1, h1, h2⟩ := initTokens_spec doc _ j s.nextTable hI2 hj
    (by rw [hrj, if_pos rfl]; exact List.mem_singleton_self _) hv
  refine ⟨s1, h1, ⟨h2.inv, ?_, ?_, ?_, ?_, h2.topics, h2.dEq, h2.vEq, h2.nextT⟩⟩
  · rw [h2.cust, hrj, if_pos rfl]; rfl
  · rw [h2.nR, hrj, if_pos rfl]
  · rw [h2.tabs, hrj, if_pos rfl]
  · intro j1 e
    rw [h2.other j1 e, hrj, if_neg e]

theorem initDocuments_spec (k : Nat) (docs : List (List Nat)) (s : HdpLda) (j : Nat)
    (hI : Inv s) (hk : k ∈ s.topics) (hD : j + docs.length = s.D)
    (hfresh : ∀ j1, j ≤ j1 → (s.rest j1).customers = [] ∧ (s.rest j1).tables = [])
    (hv : ∀ doc ∈ docs, ∀ v ∈ doc, v < s.V) :
    ∃ s1, initDocuments k s j docs = some s1 ∧ Inv s1
      ∧ (∀ i, i < docs.length → FreshRestaurant (s1.rest (j + i)) (docs.getD i []))
      ∧ (∀ j1, j1 < j → s1.rest j1 = s.rest j1)
      ∧ s1.topics = s.topics ∧ s1.D = s.D ∧ s1.V = s.V := by
  induction docs generalizing s j with
  | nil => exact ⟨s, rfl, hI, fun i hi => absurd hi (Nat.not_lt_zero i), fun _ _ => rfl,
      rfl, rfl, rfl⟩
  | cons doc docs ih =>
    have hj : j < s.D := by rw [← hD]; simp
    obtain ⟨s1, h1, h2⟩ := initDocument_spec s j k doc hI hj hk (hfresh j (le_refl j)).1
      (hfresh j (le_refl j)).2 (hv doc (List.mem_cons_self _ _))
    obtain ⟨s2, g1, g2, g3, g4, g5, g6, g7⟩ := ih s1 (j + 1) h2.inv (h2.topics ▸ hk)
      (by rw [h2.dEq, ← hD]; simp; omega)
      (by
        intro j1 hj1
        rw [h2.other j1 (by omega)]
        exact hfresh j1 (by omega))
      (by
        intro d hd v hv1
        rw [h2.vEq]
        exact hv d (List.mem_cons_of_mem _ hd) v hv1)
    refine ⟨s2, ?_, g2, ?_, ?_, g5.trans h2.topics, g6.trans h2.dEq, g7.trans h2.vEq⟩
    · unfold initDocuments
      rw [h1]
      exact g1
    · intro i hi
      cases i with
      | zero =>
        rw [Nat.add_zero, g4 j (Nat.lt_succ_self j), List.getD_cons_zero]
        exact ⟨s.nextTable, h2.cust, h2.nR, h2.tabs⟩
      | succ i =>
        have := g3 i (by simpa using hi)
        rw [List.getD_cons_succ]
        have e : j + (i + 1) = j + 1 + i := by omega
        rw [e]
        exact this
    · intro j1 hj1
      rw [g4 j1 (by omega), h2.other j1 (by omega)]

theorem flatMap_replicate_nil (n : Nat) (r : Restaurant) (h : r.tables = []) :
    (List.replicate n r).flatMap Restaurant.tables = [] := by
  induction n with
  | zero => rfl
  | succ n ih => rw [List.replicate_succ, List.flatMap_cons, h, ih]; rfl

theorem getD_replicate_self {α : Type} (n j : Nat) (r : α) :
    (List.replicate n r).getD j r = r := by
  rw [List.getD_eq_getElem?_getD, List.getElem?_replicate]
  split <;> rfl

theorem init_spec (corpus : Corpus) (gamma alpha0 beta : ℚ) (K : Int)
    (gamma_a gamma_b alpha0_a alpha0_b : ℚ)
    (hv : ∀ doc ∈ corpus.documents, ∀ v ∈ doc, v < corpus.V) :
    ∃ s, HdpLda.init corpus gamma alpha0 beta K gamma_a gamma_b alpha0_a alpha0_b = some s
      ∧ InitPost corpus s := by
  unfold HdpLda.init
  dsimp only
  generalize hs0 : emptyState corpus gamma alpha0 beta K gamma_a gamma_b alpha0_a alpha0_b = s0
  have hrest : ∀ j, s0.rest j = { customers := [], tables := [], n := 0 } := by
    intro j
    rw [← hs0]
    exact getD_replicate_self _ _ _
  have hall : s0.allTables = [] := by
    rw [← hs0]
    exact flatMap_replicate_nil _ _ rfl
  have hR0 : RInv s0 s0.seated := by
    refine ⟨?_, ?_, ?_, ?_, ?_, ?_, ?_, ?_⟩
    · rw [← hs0]; exact List.length_replicate _ _
    · rw [hall]; exact List.nodup_nil
    · intro t ht; rw [hall] at ht; simp at ht
    · intro j _ c hc
      unfold HdpLda.seated at hc
      rw [hrest] at hc
      simp at hc
    · intro j _ t ht; rw [hrest] at ht; simp at ht
    · intro t ht; rw [hall] at ht; simp at ht
    · intro j _ t ht; rw [hrest] at ht; simp at ht
    · intro t ht; rw [hall] at ht; simp at ht
  have hT0 : TInv s0 ↑s0.allTables := by
    rw [hall]
    have htop : s0.topics = [] := by rw [← hs0]; rfl
    refine ⟨?_, ?_, ?_, ?_, ?_, ?_, ?_, ?_⟩
    · rw [htop]; exact List.nodup_nil
    · intro k hk; rw [htop] at hk; simp at hk
    · intro t ht; simp at ht
    · intro k hk; rw [htop] at hk; simp at hk
    · intro k hk; rw [htop] at hk; simp at hk
    · intro k hk; rw [htop] at hk; simp at hk
    · intro k hk; rw [htop] at hk; simp at hk
    · rw [← hs0]; rfl
  have hI1 : Inv (addTopic s0).1 := ⟨addTopic_RInv s0 _ hR0, addTopic_TInv s0 _ hT0⟩
  have hD0 : s0.D = corpus.D := by rw [← hs0]; rfl
  have hV0 : s0.V = corpus.V := by rw [← hs0]; rfl
  have hk0 : (addTopic s0).2 = 0 := by rw [← hs0]; rfl
  have ht0 : (addTopic s0).1.topics = [0] := by rw [← hs0]; rfl
  obtain ⟨s1, g1, g2, g3, _, g5, g6, g7⟩ := initDocuments_spec (addTopic s0).2
    corpus.documents (addTopic s0).1 0 hI1 (addTopic_mem s0)
    (by show 0 + corpus.documents.length = s0.D; rw [hD0]; simp [Corpus.D])
    (fun j1 _ => by
      show (s0.rest j1).customers = [] ∧ (s0.rest j1).tables = []
      rw [hrest]; exact ⟨rfl, rfl⟩)
    (fun d hd v hv1 => by
      show v < s0.V
      rw [hV0]; exact hv d hd v hv1)
  refine ⟨s1, g1, ⟨g2, ?_, g5.trans ht0, g6.trans hD0, g7.trans hV0⟩⟩
  intro j hj
  have := g3 j hj
  rw [Nat.zero_add] at this
  exact this

/-! ### Reachable states -/

theorem initTokens_V (toks : List Nat) (s s1 : HdpLda) (j t : Nat)
    (h : initTokens s j t toks = some s1) : s1.V = s.V ∧ ∀ v ∈ toks, v < s.V := by
  induction toks generalizing s with
  | nil =>
    unfold initTokens at h
    cases h
    exact ⟨rfl, fun v hv => by simp at hv⟩
  | cons v toks ih =>
    unfold initTokens at h
    by_cases hv : v < s.V
    · rw [if_pos hv] at h
      obtain ⟨h1, h2⟩ := ih _ h
      refine ⟨h1, ?_⟩
      intro w hw
      rw [List.mem_cons] at hw
      rcases hw with rfl | hw
      · exact hv
      · exact h2 w hw
    · rw [if_neg hv] at h
      cases h

theorem initDocuments_V (k : Nat) (docs : List (List Nat)) (s s1 : HdpLda) (j : Nat)
    (h : initDocuments k s j docs = some s1) :
    s1.V = s.V ∧ ∀ doc ∈ docs, ∀ v ∈ doc, v < s.V := by
  induction docs generalizing s j with
  | nil =>
    unfold initDocuments at h
    cases h
    exact ⟨rfl, fun d hd => by simp at hd⟩
  | cons doc docs ih =>
    unfold initDocuments at h
    cases hd : initDocument s j k doc with
    | none => rw [hd] at h; cases h
    | some s2 =>
      rw [hd] at h
      obtain ⟨h1, h2⟩ := ih _ _ h
      obtain ⟨h3, h4⟩ := initTokens_V doc _ s2 j _ hd
      have h3' : s2.V = s.V := h3
      refine ⟨h1.trans h3', ?_⟩
      intro d hd1
      rw [List.mem_cons] at hd1
      rcases hd1 with rfl | hd1
      · exact h4
      · intro v hv
        rw [← h3']
        exact h2 d hd1 v hv

theorem init_some (corpus : Corpus) (gamma alpha0 beta : ℚ) (K : Int)
    (gamma_a gamma_b alpha0_a alpha0_b : ℚ) (s : HdpLda)
    (h : HdpLda.init corpus gamma alpha0 beta K gamma_a gamma_b alpha0_a alpha0_b = some s) :
    InitPost corpus s := by
  have hv : ∀ doc ∈ corpus.documents, ∀ v ∈ doc, v < corpus.V :=
    (initDocuments_V _ _ _ _ _ h).2
  obtain ⟨s1, h1, h2⟩ := init_spec corpus gamma alpha0 beta K gamma_a gamma_b alpha0_a alpha0_b hv
  rw [h] at h1
  cases h1
  exact h2

theorem map_eq_of_getD {α β γ : Type} (f : α → γ) (g : β → γ) (l : List α) (l1 : List β)
    (d : α) (d1 : β) (hlen : l.length = l1.length)
    (h : ∀ j, j < l.length → f (l.getD j d) = g (l1.getD j d1)) : l.map f = l1.map g := by
  induction l generalizing l1 with
  | nil =>
    cases l1 with
    | nil => rfl
    | cons b l1 => simp at hlen
  | cons a l ih =>
    cases l1 with
    | nil => simp at hlen
    | cons b l1 =>
      rw [List.map_cons, List.map_cons]
      congr 1
      · exact h 0 (by simp)
      · apply ih l1 (by simpa using hlen)
        intro j hj
        have := h (j + 1) (by simpa using hj)
        simpa using this

theorem tsum_one_pos (th : Nat → Table) (A : Multiset Nat) (k t : Nat) (ht : t ∈ A)
    (hk : (th t).topic = k) : 1 ≤ tsum th A k (fun _ => 1) := by
  rw [← Multiset.cons_erase ht, tsum_cons, if_pos hk]
  have := tsum_nonneg th (A.erase t) k (fun _ => 1) (fun _ _ => by norm_num)
  omega

theorem Good.of_step {corpus : Corpus} {s s1 : HdpLda} (h : Good corpus s) (hs : Step s s1) :
    Good corpus s1 :=
  ⟨hs.1, hs.2.1.trans h.dEq, hs.2.2.1.trans h.vEq, hs.2.2.2.1.trans h.shape,
    fun hD => hs.2.2.2.2.1 (h.posK hD), fun hd => hs.2.2.2.2.2 (h.posT hd)⟩

theorem Good.congr {corpus : Corpus} {s s1 : HdpLda} (h : Good corpus s)
    (hV : s1.V = s.V) (hD : s1.D = s.D) (hm : s1.m = s.m) (htop : s1.topics = s.topics)
    (hrest : s1.restaurants = s.restaurants) (hkh : s1.topicHeap = s.topicHeap)
    (hnk : s1.nextTopic = s.nextTopic) (hth : s1.tableHeap = s.tableHeap)
    (hnt : s1.nextTable = s.nextTable) : Good corpus s1 := by
  have hall : s1.allTables = s.allTables := by unfold HdpLda.allTables; rw [hrest]
  refine ⟨⟨?_, ?_⟩, hD.trans h.dEq, hV.trans h.vEq, ?_, ?_, ?_⟩
  · rw [seated_of_restaurants hrest]
    exact RInv_congr (s := s) (by rw [hrest]) hD hV hnt
      (fun t => by rw [hth]; exact ⟨rfl, rfl⟩) h.inv.1
  · rw [hall]
    exact TInv_congr (s := s) htop hV hnk hm hth
      (fun k => by rw [hkh]; exact ⟨rfl, rfl, rfl⟩) h.inv.2
  · unfold Shape; rw [hrest]; exact h.shape
  · intro h1 k hk
    rw [hkh]
    exact h.posK h1 k (htop ▸ hk)
  · intro h1 t ht
    rw [hth]
    exact h.posT h1 t (hall ▸ ht)

theorem Good.of_init {corpus : Corpus} {s : HdpLda} (h : InitPost corpus s) :
    Good corpus s := by
  have hlen : s.restaurants.length = corpus.documents.length := by
    rw [h.inv.1.lenR, h.dEq]; rfl
  refine ⟨h.inv, h.dEq, h.vEq, ?_, ?_, ?_⟩
  · unfold Shape
    apply map_eq_of_getD _ _ _ _ { customers := [], tables := [], n := 0 } [] hlen
    intro j hj
    obtain ⟨t, h1, h2, _⟩ := h.fresh j (by rw [hlen] at hj; exact hj)
    have h1' : (s.restaurants.getD j { customers := [], tables := [], n := 0 }).customers
        = (corpus.documents.getD j []).map (fun v => ⟨v, t⟩) := h1
    have h2' : (s.restaurants.getD j { customers := [], tables := [], n := 0 }).n
        = ((corpus.documents.getD j []).length : Int) := h2
    rw [h1', h2', List.map_map]
    congr 1
    exact List.map_id _
  · intro hD k hk
    rw [h.topics, List.mem_singleton] at hk
    obtain ⟨t, _, _, h3⟩ := h.fresh 0 hD
    have ht : t ∈ (s.rest 0).tables := by rw [h3]; exact List.mem_singleton_self _
    have htA : t ∈ s.allTables := h.inv.1.mem_all (by rw [h.dEq]; exact hD) ht
    have htk := h.inv.2.topicIn t htA
    rw [h.topics, List.mem_singleton] at htk
    rw [h.inv.2.mK k (by rw [h.topics, hk]; exact List.mem_singleton_self _)]
    exact tsum_one_pos _ _ _ t htA (by rw [htk, hk])
  · intro hne t ht
    obtain ⟨j, hj, htj⟩ := exists_getD_of_mem_tables s.restaurants
      { customers := [], tables := [], n := 0 } t ht
    have hjD : j < corpus.D := by rw [hlen] at hj; exact hj
    obtain ⟨t1, h1, _, h3⟩ := h.fresh j hjD
    have htj' : t ∈ (s.rest j).tables := htj
    rw [h3, List.mem_singleton] at htj'
    have hjs : j < s.D := by rw [h.dEq]; exact hjD
    rw [h.inv.1.nT j hjs t (by rw [h3, htj']; exact List.mem_singleton_self _)]
    unfold HdpLda.seated
    rw [h1, Multiset.coe_countP, List.countP_map]
    have hdoc : corpus.documents.getD j [] ≠ [] := by
      apply hne
      rw [List.getD_eq_getElem _ _ hjD]
      exact List.getElem_mem hjD
    have : List.countP ((fun b => decide (b.table = t)) ∘ fun v => (⟨v, t1⟩ : Customer))
        (corpus.documents.getD j []) = (corpus.documents.getD j []).length := by
      rw [List.countP_eq_length]
      intro v _
      simp [htj']
    rw [this]
    have : 0 < (corpus.documents.getD j []).length := List.length_pos.mpr hdoc
    omega

theorem reachable_good (corpus : Corpus) (s : HdpLda) (h : Reachable corpus s) :
    Good corpus s := by
  induction h with
  | init gamma alpha0 beta K gamma_a gamma_b alpha0_a alpha0_b s h =>
    exact Good.of_init (init_some corpus gamma alpha0 beta K gamma_a gamma_b alpha0_a alpha0_b s h)
  | tables s g _ ih => exact ih.of_step (sampleTables_spec s g ih.inv)
  | topics L s g _ ih => exact ih.of_step (sampleTopics_spec L s g ih.inv).1
  | sweep L s g _ ih =>
    have h1 := ih.of_step (sampleTables_spec s g ih.inv)
    have h2 := h1.of_step (sampleTopics_spec L _ (sampleTables s g).2 h1.inv).1
    exact h2.congr rfl rfl rfl rfl rfl rfl rfl rfl rfl
  | gamma s x _ ih => exact ih.congr rfl rfl rfl rfl rfl rfl rfl rfl rfl
  | alpha0 s x _ ih => exact ih.congr rfl rfl rfl rfl rfl rfl rfl rfl rfl

theorem exampleState_init :
    HdpLda.init exampleCorpus 1 1 (1 / 10) 5 1 1 1 1 = some exampleState := rfl

theorem exampleState_reachable : Reachable exampleCorpus exampleState :=
  Reachable.init _ _ _ _ _ _ _ _ _ exampleState_init

theorem exampleSwept_reachable : Reachable exampleCorpus exampleSwept :=
  Reachable.topics _ _ _ (Reachable.tables _ _ exampleState_reachable)

/-! ### Statements about reachable states -/

theorem tsum_coe (th : Nat → Table) (l : List Nat) (k : Nat) (F : Table → Int) :
    tsum th ↑l k F
      = ((l.filter (fun t => (th t).topic = k)).map (fun t => F (th t))).sum := by
  induction l with
  | nil => rfl
  | cons a l ih =>
    rw [← Multiset.cons_coe, tsum_cons, ih, List.filter_cons]
    by_cases h : (th a).topic = k
    · simp [h]
    · simp [h]

theorem sum_indicator (l : List Nat) (a : Nat) (hnd : l.Nodup) (ha : a ∈ l) :
    (l.map (fun k => if a = k then (1 : Int) else 0)).sum = 1 := by
  induction l with
  | nil => simp at ha
  | cons b l ih =>
    rw [List.nodup_cons] at hnd
    rw [List.map_cons, List.sum_cons]
    by_cases e : a = b
    · subst e
      have : (l.map (fun k => if a = k then (1 : Int) else 0)).sum = 0 := by
        apply List.sum_eq_zero
        intro x hx
        rw [List.mem_map] at hx
        obtain ⟨k, hk, rfl⟩ := hx
        have : ¬ a = k := fun e => hnd.1 (e ▸ hk)
        rw [if_neg this]
      rw [this]; simp
    · rw [if_neg e, zero_add]
      rw [List.mem_cons] at ha
      rcases ha with h | h
      · exact absurd h e
      · exact ih hnd.2 h

theorem sum_zipWith_add (l1 l2 : List Int) (h : l1.length = l2.length) :
    (List.zipWith (· + ·) l1 l2).sum = l1.sum + l2.sum := by
  induction l1 generalizing l2 with
  | nil => cases l2 <;> simp_all
  | cons x l1 ih1 =>
    cases l2 with
    | nil => simp at h
    | cons y l2 =>
      simp only [List.zipWith_cons_cons, List.sum_cons]
      rw [ih1 l2 (by simpa using h)]
      ring

theorem sum_tsum_one (th : Nat → Table) (A : Multiset Nat) (topics : List Nat)
    (hnd : topics.Nodup) (hin : ∀ t ∈ A, (th t).topic ∈ topics) :
    (topics.map (fun k => tsum th A k (fun _ => 1))).sum = (Multiset.card A : Nat) := by
  induction A using Multiset.induction_on with
  | empty => simp [tsum]
  | cons a A ih =>
    have h1 : (topics.map (fun k => tsum th (a ::ₘ A) k (fun _ => 1)))
        = List.zipWith (· + ·) (topics.map (fun k => if (th a).topic = k then (1 : Int) else 0))
          (topics.map (fun k => tsum th A k (fun _ => 1))) := by
      rw [List.zipWith_map_left, List.zipWith_map_right, List.zipWith_same]
      apply List.map_congr_left
      intro k _
      rw [tsum_cons]
    rw [h1, sum_zipWith_add _ _ (by simp), ih (fun t ht => hin t (Multiset.mem_cons_of_mem ht)),
      sum_indicator topics _ hnd (hin a (Multiset.mem_cons_self _ _))]
    simp; ring

theorem sum_countP_table (l : List Nat) (M : Multiset Customer) (hnd : l.Nodup)
    (hin : ∀ c ∈ M, c.table ∈ l) :
    (l.map (fun t => ((M.countP (fun c => c.table = t) : Nat) : Int))).sum
      = (Multiset.card M : Nat) := by
  induction M using Multiset.induction_on with
  | empty => simp
  | cons c M ih =>
    have h1 : (l.map (fun t => (((c ::ₘ M).countP (fun c => c.table = t) : Nat) : Int)))
        = List.zipWith (· + ·) (l.map (fun t => if c.table = t then (1 : Int) else 0))
          (l.map (fun t => ((M.countP (fun c => c.table = t) : Nat) : Int))) := by
      rw [List.zipWith_map_left, List.zipWith_map_right, List.zipWith_same]
      apply List.map_congr_left
      intro t _
      rw [Multiset.countP_cons]
      split
      · simp; ring
      · simp
    rw [h1, sum_zipWith_add _ _ (by simp), ih (fun c1 hc => hin c1 (Multiset.mem_cons_of_mem hc)),
      sum_indicator l _ hnd (hin c (Multiset.mem_cons_self _ _))]
    simp; ring

/-- C1. In every state reached from a construction on a corpus with `D ≥ 1` documents
(construction succeeds only when every word-id lies in `[0,V)`), after any calls of
`sampleTables` / `sampleTopics` and for every stream of uniform draws, every topic `k` of
the franchise has `k.n` equal to the sum of `t.n` over the tables (of all restaurants)
serving `k`, `k.n_v[v]` equal to the sum of `t.n_v[v]` over those tables for every word
`v`, and `k.m` equal to the number of those tables, which is at least 1. -/
theorem topic_counts_match_tables (corpus : Corpus) (s : HdpLda)
    (h : Reachable corpus s) (hD : 1 ≤ corpus.D) :
    ∀ k ∈ s.topics,
      (s.topicHeap k).n
          = ((s.allTables.filter (fun t => (s.tableHeap t).topic = k)).map
              (fun t => (s.tableHeap t).n)).sum
        ∧ (∀ v, (s.topicHeap k).n_v.getD v 0
          = ((s.allTables.filter (fun t => (s.tableHeap t).topic = k)).map
              (fun t => (s.tableHeap t).n_v.getD v 0)).sum)
        ∧ (s.topicHeap k).m
          = ((s.allTables.filter (fun t => (s.tableHeap t).topic = k)).length : Nat)
        ∧ 1 ≤ (s.topicHeap k).m := by
  intro k hk
  have hG := reachable_good corpus s h
  refine ⟨?_, ?_, ?_, hG.posK hD k hk⟩
  · rw [hG.inv.2.nK k hk, tsum_coe]
  · intro v
    rw [hG.inv.2.nvK k hk v, tsum_coe]
  · rw [hG.inv.2.mK k hk, tsum_coe]
    simp

/-- Witness of C1 on the state reached from scenario S1 by one `sampleTables` and one
`sampleTopics` call. -/
theorem topic_counts_match_tables_witness :
    Reachable exampleCorpus exampleSwept ∧ 1 ≤ exampleCorpus.D
      ∧ ∀ k ∈ exampleSwept.topics,
        (exampleSwept.topicHeap k).n
            = ((exampleSwept.allTables.filter
                (fun t => (exampleSwept.tableHeap t).topic = k)).map
                (fun t => (exampleSwept.tableHeap t).n)).sum
          ∧ (∀ v, (exampleSwept.topicHeap k).n_v.getD v 0
            = ((exampleSwept.allTables.filter
                (fun t => (exampleSwept.tableHeap t).topic = k)).map
                (fun t => (exampleSwept.tableHeap t).n_v.getD v 0)).sum)
          ∧ (exampleSwept.topicHeap k).m
            = ((exampleSwept.allTables.filter
                (fun t => (exampleSwept.tableHeap t).topic = k)).length : Nat)
          ∧ 1 ≤ (exampleSwept.topicHeap k).m :=
  ⟨exampleSwept_reachable, by decide,
    topic_counts_match_tables exampleCorpus exampleSwept exampleSwept_reachable (by decide)⟩

/-- C2. In every state reached from construction by calls of `sampleTables` /
`sampleTopics` (every corpus, every stream of uniform draws), the franchise table counter
`m` equals the sum of `k.m` over the topics of the franchise and equals the total number
of tables over all restaurants. -/
theorem table_counter_consistent (corpus : Corpus) (s : HdpLda) (h : Reachable corpus s) :
    s.m = (s.topics.map (fun k => (s.topicHeap k).m)).sum
      ∧ s.m = ((s.restaurants.map (fun r => r.tables.length)).sum : Nat) := by
  have hG := reachable_good corpus s h
  constructor
  · have : s.topics.map (fun k => (s.topicHeap k).m)
        = s.topics.map (fun k => tsum s.tableHeap ↑s.allTables k (fun _ => 1)) :=
      List.map_congr_left (fun k hk => hG.inv.2.mK k hk)
    rw [this, sum_tsum_one _ _ _ hG.inv.2.nodupK hG.inv.2.topicIn, hG.inv.2.mTot]
  · rw [hG.inv.2.mTot, Multiset.coe_card]
    unfold HdpLda.allTables
    rw [List.length_flatMap]
    rfl

/-- Witness of C2 on the state reached from scenario S1 by one sweep. -/
theorem table_counter_consistent_witness :
    Reachable exampleCorpus exampleSwept
      ∧ exampleSwept.m = (exampleSwept.topics.map (fun k => (exampleSwept.topicHeap k).m)).sum
      ∧ exampleSwept.m
        = ((exampleSwept.restaurants.map (fun r => r.tables.length)).sum : Nat) :=
  ⟨exampleSwept_reachable, table_counter_consistent exampleCorpus exampleSwept
    exampleSwept_reachable⟩

theorem Good.rest {corpus : Corpus} {s : HdpLda} (h : Good corpus s) (j : Nat) :
    (s.rest j).n = ((corpus.documents.getD j []).length : Int)
      ∧ (s.rest j).customers.map Customer.word = corpus.documents.getD j [] := by
  have key : ((s.restaurants.getD j { customers := [], tables := [], n := 0 }).n,
      (s.restaurants.getD j { customers := [], tables := [], n := 0 }).customers.map
        Customer.word)
      = (s.restaurants.map (fun r => (r.n, r.customers.map Customer.word))).getD j (0, []) := by
    rw [List.getD_eq_getElem?_getD, List.getD_eq_getElem?_getD, List.getElem?_map]
    cases s.restaurants[j]? <;> rfl
  have key2 : (corpus.documents.map (fun d => ((d.length : Int), d))).getD j (0, [])
      = (((corpus.documents.getD j []).length : Int), corpus.documents.getD j []) := by
    rw [List.getD_eq_getElem?_getD, List.getD_eq_getElem?_getD, List.getElem?_map]
    cases corpus.documents[j]? <;> rfl
  have hs := h.shape
  unfold Shape at hs
  rw [hs, key2] at key
  exact ⟨congrArg Prod.fst key, congrArg Prod.snd key⟩

theorem Good.customers_length {corpus : Corpus} {s : HdpLda} (h : Good corpus s) (j : Nat) :
    (s.rest j).customers.length = (corpus.documents.getD j []).length := by
  have := congrArg List.length (h.rest j).2
  simpa using this

theorem Good.tables_sum {corpus : Corpus} {s : HdpLda} (h : Good corpus s) (j : Nat)
    (hj : j < corpus.D) :
    ((s.rest j).tables.map (fun t => (s.tableHeap t).n)).sum = (s.rest j).n := by
  have hjs : j < s.D := by rw [h.dEq]; exact hj
  have h1 : (s.rest j).tables.map (fun t => (s.tableHeap t).n)
      = (s.rest j).tables.map
        (fun t => (((s.seated j).countP (fun c => c.table = t) : Nat) : Int)) :=
    List.map_congr_left (fun t ht => h.inv.1.nT j hjs t ht)
  have h2 := sum_countP_table (s.rest j).tables (s.seated j)
    (tables_nodup_of_getD s.restaurants _ j h.inv.1.nodupT (h.inv.1.lenR ▸ hjs))
    (fun c hc => (h.inv.1.seatIn j hjs c hc).1)
  rw [h1, h2, (h.rest j).1]
  unfold HdpLda.seated
  rw [Multiset.coe_card, h.customers_length]

/-- C3. Document length is conserved: in every state reached from construction by calls of
`sampleTables` / `sampleTopics` (every corpus, every stream of uniform draws), for every
restaurant `j` the sum of `t.n` over its tables equals the restaurant's `n`, which equals
the number of tokens of document `j`; hence the total over all restaurants equals the
initial `N`. -/
theorem document_length_conserved (corpus : Corpus) (s : HdpLda) (h : Reachable corpus s) :
    (∀ j, j < corpus.D →
        ((s.rest j).tables.map (fun t => (s.tableHeap t).n)).sum = (s.rest j).n
          ∧ (s.rest j).n = ((corpus.documents.getD j []).length : Nat))
      ∧ (s.restaurants.map (fun r => (r.tables.map (fun t => (s.tableHeap t).n)).sum)).sum
          = (corpus.N : Nat) := by
  have hG := reachable_good corpus s h
  refine ⟨fun j hj => ⟨hG.tables_sum j hj, (hG.rest j).1⟩, ?_⟩
  have hlen : s.restaurants.length = corpus.documents.length := by
    rw [hG.inv.1.lenR, hG.dEq]; rfl
  have := map_eq_of_getD (fun r : Restaurant => (r.tables.map (fun t => (s.tableHeap t).n)).sum)
    (fun d : List Nat => ((d.length : Nat) : Int)) s.restaurants corpus.documents
    { customers := [], tables := [], n := 0 } [] hlen
    (fun j hj => by
      have hjD : j < corpus.D := by rw [hlen] at hj; exact hj
      have h1 := hG.tables_sum j hjD
      have h2 := (hG.rest j).1
      unfold HdpLda.rest at h1 h2
      show (List.map (fun t => (s.tableHeap t).n)
        (s.restaurants.getD j { customers := [], tables := [], n := 0 }).tables).sum = _
      rw [h1, h2])
  rw [this]
  unfold Corpus.N
  rw [Nat.cast_list_sum, List.map_map]
  rfl

/-- Witness of C3 on the state reached from scenario S1 by one sweep. -/
theorem document_length_conserved_witness :
    Reachable exampleCorpus exampleSwept
      ∧ (∀ j, j < exampleCorpus.D →
          ((exampleSwept.rest j).tables.map (fun t => (exampleSwept.tableHeap t).n)).sum
              = (exampleSwept.rest j).n
            ∧ (exampleSwept.rest j).n = ((exampleCorpus.documents.getD j []).length : Nat))
      ∧ (exampleSwept.restaurants.map
          (fun r => (r.tables.map (fun t => (exampleSwept.tableHeap t).n)).sum)).sum
          = (exampleCorpus.N : Nat) :=
  ⟨exampleSwept_reachable,
    document_length_conserved exampleCorpus exampleSwept exampleSwept_reachable⟩

theorem emptyDocState_init :
    HdpLda.init emptyDocCorpus 1 1 1 1 1 1 1 1 = some emptyDocState := rfl

theorem emptyDocState_reachable : Reachable emptyDocCorpus emptyDocState :=
  Reachable.init _ _ _ _ _ _ _ _ _ emptyDocState_init

/-- C4, as stated, fails: on the corpus with one empty document (all word-ids trivially in
`[0,V)`) the constructor leaves restaurant 0 with a table that seats nobody. -/
theorem tables_positive_counterexample :
    ¬ ∀ (corpus : Corpus) (s : HdpLda),
      (∀ doc ∈ corpus.documents, ∀ v ∈ doc, v < corpus.V) → Reachable corpus s →
      ∀ t ∈ s.allTables,
        1 ≤ (s.tableHeap t).n ∧ (s.tableHeap t).n = (s.tableHeap t).n_v.sum := by
  intro H
  have h1 := (H emptyDocCorpus emptyDocState (by decide) emptyDocState_reachable 0
    (by decide)).1
  revert h1
  decide

/-- C4, amended. For every corpus in which every document has at least one token (word-ids
in `[0,V)`), after construction and after every call of `sampleTables` or `sampleTopics`,
every table `t` in some restaurant's table list has `t.n ≥ 1` and `t.n` equal to the sum
over all `V` words `v` of `t.n_v[v]`. -/
theorem tables_positive_of_nonempty_documents (corpus : Corpus) (s : HdpLda)
    (h : Reachable corpus s) (hne : ∀ doc ∈ corpus.documents, doc ≠ []) :
    ∀ t ∈ s.allTables,
      1 ≤ (s.tableHeap t).n ∧ (s.tableHeap t).n = (s.tableHeap t).n_v.sum
        ∧ (s.tableHeap t).n_v.length = s.V := by
  have hG := reachable_good corpus s h
  exact fun t ht => ⟨hG.posT hne t ht, hG.inv.1.sumT t ht, hG.inv.1.lenT t ht⟩

/-- Witness of amended C4 on the state reached from scenario S1 by one sweep. -/
theorem tables_positive_of_nonempty_documents_witness :
    Reachable exampleCorpus exampleSwept
      ∧ (∀ doc ∈ exampleCorpus.documents, doc ≠ [])
      ∧ ∀ t ∈ exampleSwept.allTables,
        1 ≤ (exampleSwept.tableHeap t).n
          ∧ (exampleSwept.tableHeap t).n = (exampleSwept.tableHeap t).n_v.sum
          ∧ (exampleSwept.tableHeap t).n_v.length = exampleSwept.V :=
  ⟨exampleSwept_reachable, by decide,
    tables_positive_of_nonempty_documents exampleCorpus exampleSwept
      exampleSwept_reachable (by decide)⟩

/-- C5. For every corpus that contains at least one token, the franchise's topic list is
non-empty in every state reached from construction by calls of `sampleTables` /
`sampleTopics`, for every stream of uniform draws. -/
theorem topics_nonempty (corpus : Corpus) (s : HdpLda) (h : Reachable corpus s)
    (htok : ∃ doc ∈ corpus.documents, doc ≠ []) : s.topics ≠ [] := by
  have hG := reachable_good corpus s h
  obtain ⟨doc, hdoc, hne⟩ := htok
  obtain ⟨j, hj, rfl⟩ := List.getElem_of_mem hdoc
  have hjs : j < s.D := by rw [hG.dEq]; exact hj
  have hlen := hG.customers_length j
  rw [List.getD_eq_getElem _ _ hj] at hlen
  have hpos : 0 < (s.rest j).customers.length := by
    rw [hlen]; exact List.length_pos.mpr hne
  obtain ⟨c, hc⟩ := List.exists_mem_of_length_pos hpos
  have hcs : c ∈ s.seated j := hc
  have ht := (hG.inv.1.seatIn j hjs c hcs).1
  have hk := hG.inv.2.topicIn c.table (hG.inv.1.mem_all hjs ht)
  exact List.ne_nil_of_mem hk

theorem singleTokenState_init :
    HdpLda.init singleTokenCorpus 1 1 1 1 1 1 1 1 = some singleTokenState := rfl

/-- Witness of C5 on the single-token corpus: when the only customer leaves the only table
the topic list is empty in the middle of the step, and it is non-empty again when
`sampleTables` returns. -/
theorem topics_nonempty_witness :
    Reachable singleTokenCorpus (sampleTables singleTokenState exampleRng).1
      ∧ (∃ doc ∈ singleTokenCorpus.documents, doc ≠ [])
      ∧ (unseat singleTokenState 0 0).topics = []
      ∧ (sampleTables singleTokenState exampleRng).1.topics ≠ [] :=
  ⟨Reachable.tables _ _ (Reachable.init _ _ _ _ _ _ _ _ _ singleTokenState_init),
    ⟨[0], by decide, by decide⟩, by decide,
    topics_nonempty singleTokenCorpus (sampleTables singleTokenState exampleRng).1
      (Reachable.tables _ _ (Reachable.init _ _ _ _ _ _ _ _ _ singleTokenState_init))
      ⟨[0], by decide, by decide⟩⟩

theorem sum_map_flatMap (l : List Restaurant) (g : Nat → Int) :
    ((l.flatMap Restaurant.tables).map g).sum = (l.map (fun r => (r.tables.map g).sum)).sum := by
  induction l with
  | nil => rfl
  | cons a l ih =>
    rw [List.flatMap_cons, List.map_append, List.sum_append, ih, List.map_cons, List.sum_cons]

theorem tsum_all (th : Nat → Table) (l : List Nat) (k : Nat) (F : Table → Int)
    (h : ∀ t ∈ l, (th t).topic = k) : tsum th ↑l k F = (l.map (fun t => F (th t))).sum := by
  rw [tsum_coe, List.filter_eq_self.mpr]
  intro t ht
  simp [h t ht]

theorem FreshRestaurant.counts {s : HdpLda} {j : Nat} {doc : List Nat} {M : Nat → Multiset Customer}
    (hR : RInv s M) (hM : M j = ↑(s.rest j).customers) (hj : j < s.D)
    (hf : FreshRestaurant (s.rest j) doc) :
    ∃ t, (s.rest j).tables = [t]
      ∧ (s.rest j).customers = doc.map (fun v => ⟨v, t⟩)
      ∧ (s.tableHeap t).n = (doc.length : Nat)
      ∧ ∀ v, (s.tableHeap t).n_v.getD v 0 = (doc.count v : Nat) := by
  obtain ⟨t, h1, _, h3⟩ := hf
  have ht : t ∈ (s.rest j).tables := by rw [h3]; exact List.mem_singleton_self _
  refine ⟨t, h3, h1, ?_, ?_⟩
  · rw [hR.nT j hj t ht, hM, h1, Multiset.coe_countP, List.countP_map]
    congr 1
    rw [List.countP_eq_length]
    intro v _
    simp
  · intro v
    rw [hR.nvT j hj t ht v, hM, h1, Multiset.coe_countP, List.countP_map]
    congr 1
    rw [List.count, List.countP_congr]
    intro w _
    simp

/-- C6. For every corpus with `D` documents whose word-ids lie in `[0,V)`, and whatever
initial topic count `K` and hyper-parameters are passed in, the constructor returns a
state with exactly one topic and exactly one table per restaurant; every customer of
document `j` sits at restaurant `j`'s single table and carries the `i`-th token of the
document; `m = D`; the topic has `m = D`, `n = N` and `n_v[v]` the number of occurrences of
`v` in the corpus; each table's `n` and `n_v` are its document's length and word counts. -/
theorem constructor_state (corpus : Corpus) (gamma alpha0 beta : ℚ) (K : Int)
    (gamma_a gamma_b alpha0_a alpha0_b : ℚ)
    (hv : ∀ doc ∈ corpus.documents, ∀ v ∈ doc, v < corpus.V) :
    ∃ s, HdpLda.init corpus gamma alpha0 beta K gamma_a gamma_b alpha0_a alpha0_b = some s
      ∧ s.topics.length = 1
      ∧ s.restaurants.length = corpus.D
      ∧ s.m = (corpus.D : Nat)
      ∧ (∀ j, j < corpus.D → ∃ t, (s.rest j).tables = [t]
          ∧ (s.rest j).customers = (corpus.documents.getD j []).map (fun v => ⟨v, t⟩)
          ∧ (s.tableHeap t).n = ((corpus.documents.getD j []).length : Nat)
          ∧ ∀ v, (s.tableHeap t).n_v.getD v 0 = ((corpus.documents.getD j []).count v : Nat))
      ∧ (∀ k ∈ s.topics, (s.topicHeap k).m = (corpus.D : Nat)
          ∧ (s.topicHeap k).n = (corpus.N : Nat)
          ∧ ∀ v, (s.topicHeap k).n_v.getD v 0
              = ((corpus.documents.map (List.count v)).sum : Nat)) := by
  obtain ⟨s, hs, hP⟩ := init_spec corpus gamma alpha0 beta K gamma_a gamma_b alpha0_a alpha0_b hv
  have hG := Good.of_init hP
  have hlen : s.restaurants.length = corpus.documents.length := by
    rw [hG.inv.1.lenR, hG.dEq]; rfl
  have hfresh : ∀ j, j < corpus.D → ∃ t, (s.rest j).tables = [t]
      ∧ (s.rest j).customers = (corpus.documents.getD j []).map (fun v => ⟨v, t⟩)
      ∧ (s.tableHeap t).n = ((corpus.documents.getD j []).length : Nat)
      ∧ ∀ v, (s.tableHeap t).n_v.getD v 0 = ((corpus.documents.getD j []).count v : Nat) :=
    fun j hj => FreshRestaurant.counts hG.inv.1 rfl (by rw [hG.dEq]; exact hj) (hP.fresh j hj)
  have hcard : s.allTables.length = corpus.D := by
    unfold HdpLda.allTables
    rw [List.length_flatMap]
    have := map_eq_of_getD (List.length ∘ Restaurant.tables) (fun _ : List Nat => 1)
      s.restaurants corpus.documents { customers := [], tables := [], n := 0 } [] hlen
      (fun j hj => by
        obtain ⟨t, h1, _⟩ := hfresh j (by rw [hlen] at hj; exact hj)
        show (s.rest j).tables.length = 1
        rw [h1]; rfl)
    rw [this]
    simp [Corpus.D]
  have hm : s.m = (corpus.D : Nat) := by
    rw [hG.inv.2.mTot, Multiset.coe_card, hcard]
  have hall : ∀ k ∈ s.topics, ∀ t ∈ s.allTables, (s.tableHeap t).topic = k := by
    intro k hk t ht
    have := hG.inv.2.topicIn t ht
    rw [hP.topics, List.mem_singleton] at hk this
    rw [hk, this]
  refine ⟨s, hs, by rw [hP.topics]; rfl, hG.inv.1.lenR.trans hG.dEq, hm, hfresh, ?_⟩
  intro k hk
  refine ⟨?_, ?_, ?_⟩
  · rw [hG.inv.2.mK k hk, tsum_all _ _ _ _ (hall k hk)]
    simp [hcard]
  · rw [hG.inv.2.nK k hk, tsum_all _ _ _ _ (hall k hk)]
    unfold HdpLda.allTables
    rw [sum_map_flatMap]
    have := map_eq_of_getD
      (fun r : Restaurant => (r.tables.map (fun t => (s.tableHeap t).n)).sum)
      (fun d : List Nat => ((d.length : Nat) : Int)) s.restaurants corpus.documents
      { customers := [], tables := [], n := 0 } [] hlen
      (fun j hj => by
        obtain ⟨t, h1, _, h3, _⟩ := hfresh j (by rw [hlen] at hj; exact hj)
        show ((s.rest j).tables.map (fun t => (s.tableHeap t).n)).sum = _
        rw [h1, List.map_singleton, List.sum_singleton, h3])
    rw [this]
    unfold Corpus.N
    rw [Nat.cast_list_sum, List.map_map]
    rfl
  · intro v
    rw [hG.inv.2.nvK k hk v, tsum_all _ _ _ _ (hall k hk)]
    unfold HdpLda.allTables
    rw [sum_map_flatMap]
    have := map_eq_of_getD
      (fun r : Restaurant => (r.tables.map (fun t => (s.tableHeap t).n_v.getD v 0)).sum)
      (fun d : List Nat => ((d.count v : Nat) : Int)) s.restaurants corpus.documents
      { customers := [], tables := [], n := 0 } [] hlen
      (fun j hj => by
        obtain ⟨t, h1, _, _, h4⟩ := hfresh j (by rw [hlen] at hj; exact hj)
        show ((s.rest j).tables.map (fun t => (s.tableHeap t).n_v.getD v 0)).sum = _
        rw [h1, List.map_singleton, List.sum_singleton, h4])
    rw [this, Nat.cast_list_sum, List.map_map]
    rfl

/-- Witness of C6: scenario S1 (`V = 3`, documents `[[0,1],[2,2,0]]`, `K = 5`), where the
single topic has `n = 5`, `n_v = [2,1,2]`, `m = 2`, and each restaurant has one table. -/
theorem constructor_state_witness :
    (∀ doc ∈ exampleCorpus.documents, ∀ v ∈ doc, v < exampleCorpus.V)
      ∧ (∃ s, HdpLda.init exampleCorpus 1 1 (1 / 10) 5 1 1 1 1 = some s
        ∧ s.topics.length = 1
        ∧ s.restaurants.length = exampleCorpus.D
        ∧ s.m = (exampleCorpus.D : Nat)
        ∧ (∀ j, j < exampleCorpus.D → ∃ t, (s.rest j).tables = [t]
            ∧ (s.rest j).customers
              = (exampleCorpus.documents.getD j []).map (fun v => ⟨v, t⟩)
            ∧ (s.tableHeap t).n = ((exampleCorpus.documents.getD j []).length : Nat)
            ∧ ∀ v, (s.tableHeap t).n_v.getD v 0
                = ((exampleCorpus.documents.getD j []).count v : Nat))
        ∧ (∀ k ∈ s.topics, (s.topicHeap k).m = (exampleCorpus.D : Nat)
            ∧ (s.topicHeap k).n = (exampleCorpus.N : Nat)
            ∧ ∀ v, (s.topicHeap k).n_v.getD v 0
                = ((exampleCorpus.documents.map (List.count v)).sum : Nat)))
      ∧ exampleState.topics = [0] ∧ exampleState.m = 2
      ∧ (exampleState.topicHeap 0).n = 5 ∧ (exampleState.topicHeap 0).n_v = [2, 1, 2]
      ∧ (exampleState.topicHeap 0).m = 2
      ∧ exampleState.restaurants.map (fun r => r.tables.length) = [1, 1] :=
  ⟨by decide, constructor_state exampleCorpus 1 1 (1 / 10) 5 1 1 1 1 (by decide),
    by decide, by decide, by decide, by decide, by decide, by decide⟩

theorem initTokens_params (toks : List Nat) (s s1 : HdpLda) (j t : Nat)
    (h : initTokens s j t toks = some s1) : s1.params = s.params := by
  induction toks generalizing s with
  | nil =>
    unfold initTokens at h
    cases h
    rfl
  | cons v toks ih =>
    unfold initTokens at h
    by_cases hv : v < s.V
    · rw [if_pos hv] at h
      have h1 := ih _ h
      exact h1
    · rw [if_neg hv] at h
      cases h

theorem initDocuments_params (k : Nat) (docs : List (List Nat)) (s s1 : HdpLda) (j : Nat)
    (h : initDocuments k s j docs = some s1) : s1.params = s.params := by
  induction docs generalizing s j with
  | nil =>
    unfold initDocuments at h
    cases h
    rfl
  | cons doc docs ih =>
    unfold initDocuments at h
    cases hd : initDocument s j k doc with
    | none => rw [hd] at h; cases h
    | some s2 =>
      rw [hd] at h
      have h1 := initTokens_params doc _ s2 j _ hd
      have h2 := ih _ _ h
      exact h2.trans h1

/-- C7, as stated, fails: with no document, an empty vocabulary and all hyper-parameters
and prior parameters equal to 0 the constructor still returns a state. -/
theorem constructor_validation_counterexample :
    ¬ ∀ (corpus : Corpus) (gamma alpha0 beta : ℚ) (K : Int)
        (gamma_a gamma_b alpha0_a alpha0_b : ℚ),
      (corpus.V < 1 ∨ corpus.D < 1 ∨ gamma ≤ 0 ∨ alpha0 ≤ 0 ∨ beta ≤ 0 ∨ gamma_a ≤ 0
          ∨ gamma_b ≤ 0 ∨ alpha0_a ≤ 0 ∨ alpha0_b ≤ 0
          ∨ ∃ doc ∈ corpus.documents, ∃ v ∈ doc, ¬ v < corpus.V) →
        HdpLda.init corpus gamma alpha0 beta K gamma_a gamma_b alpha0_a alpha0_b = none := by
  intro H
  have h1 := H emptyCorpus 0 0 0 0 0 0 0 0 (Or.inl (by decide))
  have h2 : (HdpLda.init emptyCorpus 0 0 0 0 0 0 0 0).isSome = true := rfl
  rw [h1] at h2
  cases h2

/-- C7, amended. The constructor validates nothing: whenever every token's word-id lies in
`[0,V)` it returns a state, whatever `V`, `D`, the hyper-parameters and the prior
parameters are (zero or negative included), and the state stores them as passed, with one
topic and `D` restaurants. -/
theorem constructor_accepts_configuration (corpus : Corpus) (gamma alpha0 beta : ℚ) (K : Int)
    (gamma_a gamma_b alpha0_a alpha0_b : ℚ)
    (hv : ∀ doc ∈ corpus.documents, ∀ v ∈ doc, v < corpus.V) :
    ∃ s, HdpLda.init corpus gamma alpha0 beta K gamma_a gamma_b alpha0_a alpha0_b = some s
      ∧ s.params = (gamma, alpha0, beta, K, gamma_a, gamma_b, alpha0_a, alpha0_b)
      ∧ s.V = corpus.V ∧ s.D = corpus.D ∧ s.restaurants.length = corpus.D
      ∧ s.topics.length = 1 := by
  obtain ⟨s, hs, hP⟩ := init_spec corpus gamma alpha0 beta K gamma_a gamma_b alpha0_a alpha0_b hv
  refine ⟨s, hs, ?_, hP.vEq, hP.dEq, hP.inv.1.lenR.trans hP.dEq, by rw [hP.topics]; rfl⟩
  exact initDocuments_params _ _ _ _ _ hs

/-- Witness of amended C7: scenario S1's corpus with `gamma = 0`, `alpha0 = -1`,
`beta = -1/2` and null prior parameters. -/
theorem constructor_accepts_configuration_witness :
    (∀ doc ∈ exampleCorpus.documents, ∀ v ∈ doc, v < exampleCorpus.V)
      ∧ ∃ s, HdpLda.init exampleCorpus 0 (-1) (-1 / 2) 0 0 0 0 0 = some s
        ∧ s.params = (0, -1, -1 / 2, 0, 0, 0, 0, 0)
        ∧ s.V = exampleCorpus.V ∧ s.D = exampleCorpus.D
        ∧ s.restaurants.length = exampleCorpus.D ∧ s.topics.length = 1 :=
  ⟨by decide, constructor_accepts_configuration exampleCorpus 0 (-1) (-1 / 2) 0 0 0 0 0
    (by decide)⟩

theorem removeEmptyTable_params (s : HdpLda) (j t : Nat) :
    (removeEmptyTable s j t).params = s.params := by
  unfold removeEmptyTable
  split
  · dsimp only; split <;> rfl
  · rfl

theorem seatDraw_params (s2 : HdpLda) (j i v : Nat) (G0_sum : ℚ) (G0_vk0 : List ℚ) (g : Rng) :
    (seatDraw s2 j i v G0_sum G0_vk0 g).1.params = s2.params := by
  unfold seatDraw
  dsimp only
  split
  · rfl
  · split <;> rfl

theorem sampleTablesStep_params (s : HdpLda) (j i : Nat) (g : Rng) :
    (sampleTablesStep s j i g).1.params = s.params := by
  unfold sampleTablesStep
  dsimp only
  rw [seatDraw_params]
  exact removeEmptyTable_params _ _ _

theorem sampleTables_params (s : HdpLda) (g : Rng) : (sampleTables s g).1.params = s.params := by
  unfold sampleTables
  apply foldl_invariant (fun p : HdpLda × Rng => p.1.params = s.params)
  · rfl
  · intro p j _ hp
    unfold sampleTablesRestaurant
    apply foldl_invariant (fun q : HdpLda × Rng => q.1.params = s.params)
    · exact hp
    · intro q i _ hq
      rw [sampleTablesStep_params]
      exact hq

theorem detach_params (s : HdpLda) (t : Nat) : (detach s t).params = s.params := by
  unfold detach
  dsimp only
  split <;> rfl

theorem sampleTopicsStep_params (L : Libm ℚ) (s : HdpLda) (t : Nat) (g : Rng) :
    (sampleTopicsStep L s t g).1.params = s.params := by
  unfold sampleTopicsStep attachDraw
  dsimp only
  split
  · exact detach_params s t
  · exact detach_params s t

theorem sampleTopics_params (L : Libm ℚ) (s : HdpLda) (g : Rng) :
    (sampleTopics L s g).1.params = s.params := by
  unfold sampleTopics
  apply foldl_invariant (fun p : HdpLda × Rng => p.1.params = s.params)
  · rfl
  · intro p j _ hp
    unfold sampleTopicsRestaurant
    apply foldl_invariant (fun q : HdpLda × Rng => q.1.params = s.params)
    · exact hp
    · intro q t _ hq
      rw [sampleTopicsStep_params]
      exact hq

theorem exampleSwept_params : exampleSwept.params = (1, 1, 1 / 10, 5, 1, 1, 1, 1) := by
  unfold exampleSwept
  rw [sampleTopics_params, sampleTables_params]
  rfl

theorem exampleSwept_beta : exampleSwept.beta = 1 / 10 :=
  congrArg (fun p => p.2.2.1) exampleSwept_params

theorem exampleSwept_gamma : exampleSwept.gamma = 1 :=
  congrArg (fun p => p.1) exampleSwept_params

theorem exampleSwept_alpha0 : exampleSwept.alpha0 = 1 :=
  congrArg (fun p => p.2.1) exampleSwept_params

theorem exampleSwept_V : exampleSwept.V = 3 :=
  (reachable_good exampleCorpus exampleSwept exampleSwept_reachable).vEq

theorem tsum_add (th : Nat → Table) (A : Multiset Nat) (k : Nat) (F G : Table → Int) :
    tsum th A k (fun tb => F tb + G tb) = tsum th A k F + tsum th A k G := by
  induction A using Multiset.induction_on with
  | empty => simp [tsum]
  | cons a A ih =>
    rw [tsum_cons, tsum_cons, tsum_cons, ih]
    split <;> ring

theorem tsum_range_sum (th : Nat → Table) (A : Multiset Nat) (k : Nat) (V : Nat) :
    ((List.range V).map (fun v => tsum th A k (fun tb => tb.n_v.getD v 0))).sum
      = tsum th A k (fun tb => ((List.range V).map (fun v => tb.n_v.getD v 0)).sum) := by
  induction V with
  | zero => simp [tsum]
  | succ V ih =>
    simp only [List.range_succ, List.map_append, List.sum_append, List.map_singleton,
      List.sum_singleton]
    rw [ih, ← tsum_add]

theorem sum_eq_sum_range_getD (l : List Int) :
    l.sum = ((List.range l.length).map (fun v => l.getD v 0)).sum := by
  induction l using List.reverseRecOn with
  | nil => rfl
  | append_singleton l a ih =>
    rw [List.length_append, List.length_singleton, List.range_succ, List.map_append,
      List.sum_append, List.sum_append, List.map_singleton, List.sum_singleton,
      List.sum_singleton]
    congr 1
    · rw [ih]
      congr 1
      apply List.map_congr_left
      intro v hv
      rw [List.mem_range] at hv
      rw [List.getD_append _ _ _ _ hv]
    · rw [List.getD_append_right _ _ _ _ (le_refl _)]
      simp

theorem TInv.n_eq_sum {s : HdpLda} {M : Nat → Multiset Customer} (hR : RInv s M)
    (hT : TInv s ↑s.allTables) {k : Nat} (hk : k ∈ s.topics) :
    (s.topicHeap k).n = ((List.range s.V).map (fun v => (s.topicHeap k).n_v.getD v 0)).sum := by
  have h1 : (List.range s.V).map (fun v => (s.topicHeap k).n_v.getD v 0)
      = (List.range s.V).map
        (fun v => tsum s.tableHeap ↑s.allTables k (fun tb => tb.n_v.getD v 0)) :=
    List.map_congr_left (fun v _ => hT.nvK k hk v)
  rw [h1, tsum_range_sum, hT.nK k hk]
  unfold tsum
  congr 1
  apply Multiset.map_congr rfl
  intro t ht
  have htA : t ∈ s.allTables := ht
  dsimp only
  rw [hR.sumT t htA, sum_eq_sum_range_getD, hR.lenT t htA]

theorem TInv.nv_nonneg {s : HdpLda} {M : Nat → Multiset Customer} (hR : RInv s M)
    (hT : TInv s ↑s.allTables) {k : Nat} (hk : k ∈ s.topics) (v : Nat) :
    0 ≤ (s.topicHeap k).n_v.getD v 0 := by
  rw [hT.nvK k hk v]
  apply tsum_nonneg
  intro t ht
  obtain ⟨j, hj, htj⟩ := exists_getD_of_mem_tables s.restaurants
    { customers := [], tables := [], n := 0 } t ht
  show 0 ≤ (s.tableHeap t).n_v.getD v 0
  rw [hR.nvT j (hR.lenR ▸ hj) t htj v]
  exact Int.natCast_nonneg _

theorem TInv.topic_n_nonneg {s : HdpLda} {M : Nat → Multiset Customer} (hR : RInv s M)
    (hT : TInv s ↑s.allTables) {k : Nat} (hk : k ∈ s.topics) : 0 ≤ (s.topicHeap k).n := by
  rw [hT.nK k hk]
  apply tsum_nonneg
  intro t ht
  obtain ⟨j, hj, htj⟩ := exists_getD_of_mem_tables s.restaurants
    { customers := [], tables := [], n := 0 } t ht
  exact hR.table_n_nonneg (hR.lenR ▸ hj) htj

theorem sum_map_add_div (V : Nat) (f : Nat → ℚ) (b c : ℚ) :
    ((List.range V).map (fun v => (f v + b) / c)).sum
      = (((List.range V).map f).sum + (V : ℚ) * b) / c := by
  induction V with
  | zero => simp
  | succ V ih =>
    simp only [List.range_succ, List.map_append, List.sum_append, List.map_singleton,
      List.sum_singleton]
    rw [ih]
    push_cast
    ring

theorem cast_sum_range (V : Nat) (f : Nat → Int) :
    ((List.range V).map (fun v => ((f v : Int) : ℚ))).sum
      = ((((List.range V).map f).sum : Int) : ℚ) := by
  induction V with
  | zero => simp
  | succ V ih =>
    simp only [List.range_succ, List.map_append, List.sum_append, List.map_singleton,
      List.sum_singleton]
    rw [ih]
    push_cast
    ring

theorem getD_map_topics {β : Type} (l : List Nat) (f : Nat → β) (i : Nat) (d : β)
    (hi : i < l.length) : (l.map f).getD i d = f (l.getD i 0) := by
  rw [List.getD_eq_getElem _ _ (by simpa using hi), List.getElem_map,
    List.getD_eq_getElem _ _ hi]

/-- C8. In every state reached from construction by calls of `sampleTables` /
`sampleTopics`, with `beta > 0` and `V ≥ 1`, `calcPhi` returns a `K × V` matrix (`K` the
current number of topics, rows in topic-list order) whose entry `(k,v)` is
`(n_{k,v} + beta) / (n_k + V * beta)`; every entry is strictly positive and, in exact
arithmetic, each row sums to 1. -/
theorem calcPhi_rows_are_distributions (corpus : Corpus) (s : HdpLda)
    (h : Reachable corpus s) (hb : 0 < s.beta) (hV : 1 ≤ s.V) :
    (calcPhi s).length = s.topics.length
      ∧ ∀ i, i < s.topics.length →
        ((calcPhi s).getD i []).length = s.V
          ∧ (∀ v, v < s.V → ((calcPhi s).getD i []).getD v 0
              = (((s.topicHeap (s.topics.getD i 0)).n_v.getD v 0 : ℚ) + s.beta)
                / (((s.topicHeap (s.topics.getD i 0)).n : ℚ) + (s.V : ℚ) * s.beta))
          ∧ (∀ x ∈ (calcPhi s).getD i [], 0 < x)
          ∧ ((calcPhi s).getD i []).sum = 1 := by
  have hG := reachable_good corpus s h
  refine ⟨by simp [calcPhi], ?_⟩
  intro i hi
  have hk : s.topics.getD i 0 ∈ s.topics := getD_mem_of_lt _ _ hi
  have hrow : (calcPhi s).getD i [] = (List.range s.V).map (fun v =>
      (((s.topicHeap (s.topics.getD i 0)).n_v.getD v 0 : ℚ) + s.beta)
        / (((s.topicHeap (s.topics.getD i 0)).n : ℚ) + (s.V : ℚ) * s.beta)) := by
    unfold calcPhi
    rw [getD_map_topics _ _ _ _ hi]
  have hn : (0 : ℚ) ≤ ((s.topicHeap (s.topics.getD i 0)).n : ℚ) := by
    exact_mod_cast TInv.topic_n_nonneg hG.inv.1 hG.inv.2 hk
  have hVq : (1 : ℚ) ≤ (s.V : ℚ) := by exact_mod_cast hV
  have hden : 0 < ((s.topicHeap (s.topics.getD i 0)).n : ℚ) + (s.V : ℚ) * s.beta := by
    have : 0 < (s.V : ℚ) * s.beta := mul_pos (by linarith) hb
    linarith
  rw [hrow]
  refine ⟨by simp, ?_, ?_, ?_⟩
  · intro v hv
    rw [List.getD_eq_getElem _ _ (by simpa using hv), List.getElem_map, List.getElem_range]
  · intro x hx
    rw [List.mem_map] at hx
    obtain ⟨v, _, rfl⟩ := hx
    apply div_pos _ hden
    have : (0 : ℚ) ≤ ((s.topicHeap (s.topics.getD i 0)).n_v.getD v 0 : ℚ) := by
      exact_mod_cast TInv.nv_nonneg hG.inv.1 hG.inv.2 hk v
    linarith
  · rw [sum_map_add_div, cast_sum_range, ← TInv.n_eq_sum hG.inv.1 hG.inv.2 hk]
    exact div_self (ne_of_gt hden)

/-- Witness of C8 on the state reached from scenario S1 by one sweep (`beta = 1/10`,
`V = 3`). -/
theorem calcPhi_rows_are_distributions_witness :
    Reachable exampleCorpus exampleSwept ∧ 0 < exampleSwept.beta ∧ 1 ≤ exampleSwept.V
      ∧ (calcPhi exampleSwept).length = exampleSwept.topics.length
      ∧ ∀ i, i < exampleSwept.topics.length →
        ((calcPhi exampleSwept).getD i []).length = exampleSwept.V
          ∧ (∀ v, v < exampleSwept.V → ((calcPhi exampleSwept).getD i []).getD v 0
              = (((exampleSwept.topicHeap (exampleSwept.topics.getD i 0)).n_v.getD v 0 : ℚ)
                  + exampleSwept.beta)
                / (((exampleSwept.topicHeap (exampleSwept.topics.getD i 0)).n : ℚ)
                  + (exampleSwept.V : ℚ) * exampleSwept.beta))
          ∧ (∀ x ∈ (calcPhi exampleSwept).getD i [], 0 < x)
          ∧ ((calcPhi exampleSwept).getD i []).sum = 1 :=
  ⟨exampleSwept_reachable, by rw [exampleSwept_beta]; norm_num, by rw [exampleSwept_V]; norm_num,
    calcPhi_rows_are_distributions exampleCorpus exampleSwept exampleSwept_reachable
      (by rw [exampleSwept_beta]; norm_num) (by rw [exampleSwept_V]; norm_num)⟩

theorem getD_set_rat (l : List ℚ) (j j1 : Nat) (x : ℚ) :
    (l.set j x).getD j1 0 = if j1 = j ∧ j < l.length then x else l.getD j1 0 := by
  simp only [List.getD_eq_getElem?_getD, List.getElem?_set]
  by_cases h : j = j1
  · subst h
    by_cases h2 : j < l.length
    · simp [h2]
    · simp [h2, List.getElem?_eq_none (not_lt.mp h2)]
  · have h1 : ¬ j1 = j := fun e => h e.symm
    simp [h, h1]

theorem getD_replicate_zero_rat (V v : Nat) : (List.replicate V (0 : ℚ)).getD v 0 = 0 := by
  rw [List.getD_eq_getElem?_getD, List.getElem?_replicate]
  split <;> rfl

theorem indexOf_eq_iff (l : List Nat) (a k : Nat) (hnd : l.Nodup) (hk : k < l.length) : l.indexOf a = k ↔ a = l.getD k 0 := by
  constructor
  · intro h
    subst h
    rw [List.getD_eq_getElem _ _ hk, List.getElem_indexOf]
  · intro h
    rw [h, List.getD_eq_getElem _ _ hk, List.indexOf_getElem hnd]

theorem thetaCounts_fold (s : HdpLda) (tables : List Nat) (acc : List ℚ) (k : Nat)
    (hk : k < s.topics.length) (hlen : acc.length = s.topics.length) (hnd : s.topics.Nodup)
    (hin : ∀ t ∈ tables, (s.tableHeap t).topic ∈ s.topics) :
    (tables.foldl (fun th t =>
        th.set (s.topics.indexOf (s.tableHeap t).topic)
          (th.getD (s.topics.indexOf (s.tableHeap t).topic) 0 + ((s.tableHeap t).n : ℚ)))
      acc).getD k 0
      = acc.getD k 0
        + ((((tables.filter (fun t => (s.tableHeap t).topic = s.topics.getD k 0)).map
            (fun t => (s.tableHeap t).n)).sum : Int) : ℚ) := by
  induction tables generalizing acc with
  | nil => simp
  | cons t ts ih =>
    rw [List.foldl_cons, ih _ (by rw [List.length_set]; exact hlen)
      (fun t1 h1 => hin t1 (List.mem_cons_of_mem _ h1)), getD_set_rat, List.filter_cons]
    have hti := hin t (List.mem_cons_self _ _)
    have hlt : s.topics.indexOf (s.tableHeap t).topic < acc.length := by
      rw [hlen]; exact List.indexOf_lt_length.mpr hti
    have hiff := indexOf_eq_iff s.topics (s.tableHeap t).topic k hnd hk
    by_cases e : (s.tableHeap t).topic = s.topics.getD k 0
    · have e1 : k = s.topics.indexOf (s.tableHeap t).topic := (hiff.mpr e).symm
      rw [if_pos ⟨e1, hlt⟩, ← e1]
      simp only [e, decide_True, if_true, List.map_cons, List.sum_cons]
      push_cast
      ring
    · have e1 : ¬ k = s.topics.indexOf (s.tableHeap t).topic :=
        fun h => e (hiff.mp h.symm)
      rw [if_neg (fun h => e1 h.1)]
      simp only [e, decide_False]
      rfl

/-- C9. In every state reached from construction by calls of `sampleTables` /
`sampleTopics`, `calcTheta` returns a `D × K` matrix whose entry `(j,k)`, for the `k`-th
topic of the topic list, is `(S_{j,k} + alpha0 * (m_k + gamma / K) / (m + gamma))
/ (n_j + alpha0)` with `S_{j,k}` the sum of `t.n` over exactly the tables of
restaurant `j` that serve that topic; every table's topic is found in the topic list, at
an index in `[0,K)`. -/
theorem calcTheta_entries (corpus : Corpus) (s : HdpLda) (h : Reachable corpus s) :
    (calcTheta s).length = s.D
      ∧ ∀ j, j < s.D →
        ((calcTheta s).getD j []).length = s.topics.length
          ∧ (∀ t ∈ (s.rest j).tables,
              s.topics.indexOf (s.tableHeap t).topic < s.topics.length)
          ∧ ∀ k, k < s.topics.length →
            ((calcTheta s).getD j []).getD k 0
              = ((((((s.rest j).tables.filter
                    (fun t => (s.tableHeap t).topic = s.topics.getD k 0)).map
                    (fun t => (s.tableHeap t).n)).sum : Int) : ℚ)
                  + s.alpha0 * (((s.topicHeap (s.topics.getD k 0)).m : ℚ)
                      + s.gamma / (s.topics.length : ℚ)) / ((s.m : ℚ) + s.gamma))
                / (((s.rest j).n : ℚ) + s.alpha0) := by
  have hG := reachable_good corpus s h
  refine ⟨by simp [calcTheta], ?_⟩
  intro j hj
  have hin : ∀ t ∈ (s.rest j).tables, (s.tableHeap t).topic ∈ s.topics :=
    fun t ht => hG.inv.2.topicIn t (hG.inv.1.mem_all hj ht)
  have hrow : (calcTheta s).getD j [] = (List.range s.topics.length).map (fun k =>
      ((thetaCounts s (s.rest j).tables).getD k 0
        + s.alpha0 * (((s.topicHeap (s.topics.getD k 0)).m : ℚ)
            + s.gamma / (s.topics.length : ℚ)) / ((s.m : ℚ) + s.gamma))
      / (((s.rest j).n : ℚ) + s.alpha0)) := by
    unfold calcTheta
    dsimp only
    rw [List.getD_eq_getElem _ _ (by simpa using hj), List.getElem_map, List.getElem_range]
  rw [hrow]
  refine ⟨by simp, fun t ht => List.indexOf_lt_length.mpr (hin t ht), ?_⟩
  intro k hk
  rw [List.getD_eq_getElem _ _ (by simpa using hk), List.getElem_map, List.getElem_range]
  unfold thetaCounts
  rw [thetaCounts_fold s _ _ k hk (by simp) hG.inv.2.nodupK hin, getD_replicate_zero_rat,
    zero_add]

/-- Witness of C9 on the state reached from scenario S1 by one sweep. -/
theorem calcTheta_entries_witness :
    Reachable exampleCorpus exampleSwept
      ∧ (calcTheta exampleSwept).length = exampleSwept.D
      ∧ ∀ j, j < exampleSwept.D →
        ((calcTheta exampleSwept).getD j []).length = exampleSwept.topics.length
          ∧ (∀ t ∈ (exampleSwept.rest j).tables,
              exampleSwept.topics.indexOf (exampleSwept.tableHeap t).topic
                < exampleSwept.topics.length)
          ∧ ∀ k, k < exampleSwept.topics.length →
            ((calcTheta exampleSwept).getD j []).getD k 0
              = ((((((exampleSwept.rest j).tables.filter
                    (fun t => (exampleSwept.tableHeap t).topic
                      = exampleSwept.topics.getD k 0)).map
                    (fun t => (exampleSwept.tableHeap t).n)).sum : Int) : ℚ)
                  + exampleSwept.alpha0
                    * (((exampleSwept.topicHeap (exampleSwept.topics.getD k 0)).m : ℚ)
                      + exampleSwept.gamma / (exampleSwept.topics.length : ℚ))
                    / ((exampleSwept.m : ℚ) + exampleSwept.gamma))
                / (((exampleSwept.rest j).n : ℚ) + exampleSwept.alpha0) :=
  ⟨exampleSwept_reachable, calcTheta_entries exampleCorpus exampleSwept exampleSwept_reachable⟩

theorem sum_map_div (l : List ℚ) (c : ℚ) : (l.map (· / c)).sum = l.sum / c := by
  induction l with
  | nil => simp
  | cons a l ih => rw [List.map_cons, List.sum_cons, List.sum_cons, ih, add_div]

theorem foldl_add_eq_sum (l : List ℚ) (a : ℚ) : l.foldl (· + ·) a = a + l.sum := by
  induction l generalizing a with
  | nil => simp
  | cons b l ih => rw [List.foldl_cons, ih, List.sum_cons]; ring

/-- C10. `calcSticksOfG0` returns `K + 1` entries (`K` the current number of topics):
entry `k < K` is `n_k / (sum of all n_k + gamma)` for the `k`-th topic, the last entry is
`gamma / (sum of all n_k + gamma)`, and in every state reached from construction with
`gamma > 0` the entries sum to 1 (exact arithmetic). -/
theorem calcSticksOfG0_entries (corpus : Corpus) (s : HdpLda) (h : Reachable corpus s) :
    (calcSticksOfG0 s).length = s.topics.length + 1
      ∧ (∀ k, k < s.topics.length →
          (calcSticksOfG0 s).getD k 0 = ((s.topicHeap (s.topics.getD k 0)).n : ℚ)
            / ((s.topics.map (fun k => ((s.topicHeap k).n : ℚ))).sum + s.gamma))
      ∧ (calcSticksOfG0 s).getD s.topics.length 0
          = s.gamma / ((s.topics.map (fun k => ((s.topicHeap k).n : ℚ))).sum + s.gamma)
      ∧ (0 < s.gamma → (calcSticksOfG0 s).sum = 1) := by
  have hG := reachable_good corpus s h
  have htot : (s.topics.map (fun k => ((s.topicHeap k).n : ℚ)) ++ [s.gamma]).foldl (· + ·) 0
      = (s.topics.map (fun k => ((s.topicHeap k).n : ℚ))).sum + s.gamma := by
    rw [foldl_add_eq_sum, List.sum_append, List.sum_singleton, zero_add]
  unfold calcSticksOfG0
  dsimp only
  rw [htot]
  refine ⟨by simp, ?_, ?_, ?_⟩
  · intro k hk
    rw [List.getD_eq_getElem _ _ (by simp; omega), List.getElem_map,
      List.getElem_append_left (by simpa using hk), List.getElem_map,
      List.getD_eq_getElem _ _ hk]
  · rw [List.getD_eq_getElem _ _ (by simp), List.getElem_map,
      List.getElem_append_right (by simp)]
    simp
  · intro hg
    rw [sum_map_div, List.sum_append, List.sum_singleton]
    apply div_self
    have : 0 ≤ (s.topics.map (fun k => ((s.topicHeap k).n : ℚ))).sum := by
      apply List.sum_nonneg
      intro x hx
      rw [List.mem_map] at hx
      obtain ⟨k, hk, rfl⟩ := hx
      exact_mod_cast TInv.topic_n_nonneg hG.inv.1 hG.inv.2 hk
    linarith

/-- Witness of C10 on the state reached from scenario S1 by one sweep (`gamma = 1`). -/
theorem calcSticksOfG0_entries_witness :
    Reachable exampleCorpus exampleSwept ∧ 0 < exampleSwept.gamma
      ∧ (calcSticksOfG0 exampleSwept).length = exampleSwept.topics.length + 1
      ∧ (calcSticksOfG0 exampleSwept).sum = 1 :=
  ⟨exampleSwept_reachable, by rw [exampleSwept_gamma]; norm_num,
    (calcSticksOfG0_entries exampleCorpus exampleSwept exampleSwept_reachable).1,
    (calcSticksOfG0_entries exampleCorpus exampleSwept exampleSwept_reachable).2.2.2
      (by rw [exampleSwept_gamma]; norm_num)⟩

/-! ### The rising factorial -/

theorem foldl_add_eq_map_sum {α R : Type} [LinearOrderedField R] (f : α → R) (l : List α) (a : R) :
    l.foldl (fun total i => total + f i) a = a + (l.map f).sum := by
  induction l generalizing a with
  | nil => simp
  | cons b l ih => rw [List.foldl_cons, ih, List.map_cons, List.sum_cons, add_assoc]

theorem foldl_mul_eq_map_prod {α R : Type} [LinearOrderedField R] (f : α → R) (l : List α) (a : R) :
    l.foldl (fun total i => total * f i) a = a * (l.map f).prod := by
  induction l generalizing a with
  | nil => simp
  | cons b l ih => rw [List.foldl_cons, ih, List.map_cons, List.prod_cons, mul_assoc]

/-- The three numeric branches of `logRisingFactorial`, with the loops written as a product
and a sum over `i < n`. -/
theorem logRisingFactorial_eq {R : Type} [LinearOrderedField R] (L : Libm R) (x : R) (n : Int) :
    logRisingFactorial L x n
      = if 13 < n then
          if x < (10 : R) ^ 15 then L.lgamma (x + (n : R)) - L.lgamma x
          else ((List.range n.toNat).map (fun (i : Nat) => L.log (x + (i : R)))).sum
        else
          if x < (10 : R) ^ 22 then
            L.log (((List.range n.toNat).map (fun (i : Nat) => x + (i : R))).prod)
          else ((List.range n.toNat).map (fun (i : Nat) => L.log (x + (i : R)))).sum := by
  unfold logRisingFactorial
  simp only [bind_pure_comp, List.map_eq_map, List.foldl_map]
  rw [foldl_add_eq_map_sum (fun (i : Nat) => L.log (x + (i : R))),
    foldl_mul_eq_map_prod (fun (i : Nat) => x + (i : R)), zero_add, one_mul]

/-- C18. For every `x` and every count `n`, `logRisingFactorial` computes what the spec's
ordered rule selects: the direct product followed by `log` exactly when `n ≤ 13` and
`x < 1e22`; otherwise `lgamma(x+n) - lgamma(x)` exactly when `x < 1e15`; otherwise the
sum of `log(x+i)` for `i < n`. -/
theorem logRisingFactorial_refines_spec {R : Type} [LinearOrderedField R] (L : Libm R) (x : R)
    (n : Int) : logRisingFactorial L x n = logRisingFactorialSpec L x n := by
  have h1522 : (10 : R) ^ 15 ≤ (10 : R) ^ 22 :=
    pow_le_pow_right₀ (by norm_num) (by norm_num)
  rw [logRisingFactorial_eq]
  unfold logRisingFactorialSpec
  by_cases hn : 13 < n
  · have hn1 : ¬ (n ≤ 13 ∧ x < (10 : R) ^ 22) := fun h => absurd h.1 (not_le.mpr hn)
    rw [if_pos hn, if_neg hn1]
  · rw [if_neg hn]
    by_cases hx : x < (10 : R) ^ 22
    · rw [if_pos hx, if_pos ⟨not_lt.mp hn, hx⟩]
    · have hx1 : ¬ x < (10 : R) ^ 15 := fun h => hx (lt_of_lt_of_le h h1522)
      rw [if_neg hx, if_neg (fun h => hx h.2), if_neg hx1]

/-- C12. `logRisingFactorial(x, 0) = 0` for every `x` (in particular every `x > 0`, below
the `1e22` threshold, where the result is `log(1.0)`, and at or above it, where it is the
empty sum), `log(1.0)` being `0`. -/
theorem logRisingFactorial_zero {R : Type} [LinearOrderedField R] (L : Libm R)
    (hlog : L.log 1 = 0) (x : R) : logRisingFactorial L x 0 = 0 := by
  rw [logRisingFactorial_eq, if_neg (by norm_num)]
  split
  · exact hlog
  · rfl

/-- Witness of C12 with the stand-in libm, below and at the `1e22` threshold. -/
theorem logRisingFactorial_zero_witness :
    exampleLibm.log 1 = 0 ∧ logRisingFactorial exampleLibm (1 / 10) 0 = 0
      ∧ logRisingFactorial exampleLibm ((10 : ℚ) ^ 22) 0 = 0 :=
  ⟨by norm_num [exampleLibm], logRisingFactorial_zero exampleLibm (by norm_num [exampleLibm]) _,
    logRisingFactorial_zero exampleLibm (by norm_num [exampleLibm]) _⟩

theorem gamma_add_natCast (x : ℝ) (hx : 0 < x) (n : Nat) :
    Real.Gamma (x + (n : ℝ))
      = ((List.range n).map (fun (i : Nat) => x + (i : ℝ))).prod * Real.Gamma x := by
  induction n with
  | zero => simp
  | succ n ih =>
    have hne : x + (n : ℝ) ≠ 0 := by positivity
    rw [List.range_succ, List.map_append, List.prod_append, List.map_singleton,
      List.prod_singleton, Nat.cast_succ, ← add_assoc, Real.Gamma_add_one hne, ih]
    ring

theorem prod_range_pos (x : ℝ) (hx : 0 < x) (n : Nat) :
    0 < ((List.range n).map (fun (i : Nat) => x + (i : ℝ))).prod := by
  apply List.prod_pos
  intro a ha
  rw [List.mem_map] at ha
  obtain ⟨i, _, rfl⟩ := ha
  positivity

theorem log_prod_range (x : ℝ) (hx : 0 < x) (n : Nat) :
    Real.log (((List.range n).map (fun (i : Nat) => x + (i : ℝ))).prod)
      = ((List.range n).map (fun (i : Nat) => Real.log (x + (i : ℝ)))).sum := by
  induction n with
  | zero => simp
  | succ n ih =>
    have hne : x + (n : ℝ) ≠ 0 := by positivity
    rw [List.range_succ, List.map_append, List.prod_append, List.map_singleton,
      List.prod_singleton, Real.log_mul (ne_of_gt (prod_range_pos x hx n)) hne, ih,
      List.map_append, List.sum_append, List.map_singleton, List.sum_singleton]

/-- Over the reals every branch of `logRisingFactorial` returns `log(x (x+1) ... (x+n-1))`. -/
theorem logRisingFactorial_real (L : Libm ℝ) (hL : L.IsReal) (x : ℝ) (hx : 0 < x) (n : Nat) :
    logRisingFactorial L x (n : Int)
      = Real.log (((List.range n).map (fun (i : Nat) => x + (i : ℝ))).prod) := by
  have hsum : ((List.range n).map (fun (i : Nat) => L.log (x + (i : ℝ)))).sum
      = Real.log (((List.range n).map (fun (i : Nat) => x + (i : ℝ))).prod) := by
    rw [log_prod_range x hx n]
    congr 1
    apply List.map_congr_left
    intro i _
    exact hL.1 _
  rw [logRisingFactorial_eq, Int.toNat_ofNat, Int.cast_natCast, hsum, hL.1]
  have hxn : 0 < x + (n : ℝ) := by positivity
  rw [hL.2 _ hxn, hL.2 _ hx, gamma_add_natCast x hx n,
    Real.log_mul (ne_of_gt (prod_range_pos x hx n)) (ne_of_gt (Real.Gamma_pos_of_pos hx))]
  split
  · split
    · ring
    · rfl
  · split <;> rfl

/-- C11. Reading the arithmetic over the real numbers (`log` the natural logarithm, `lgamma`
the logarithm of the Gamma function), for every `x > 0` and every natural number `n`,
`logRisingFactorial(x, n+1) = logRisingFactorial(x, n) + log(x + n)`, whichever of the three
branches each of the two calls takes, and `logRisingFactorial(x, n) = log(x (x+1) ... (x+n-1))`. -/
theorem logRisingFactorial_succ (L : Libm ℝ) (hL : L.IsReal) (x : ℝ) (hx : 0 < x) (n : Nat) :
    logRisingFactorial L x ((n : Int) + 1) = logRisingFactorial L x (n : Int) + Real.log (x + (n : ℝ))
      ∧ logRisingFactorial L x (n : Int)
        = Real.log (((List.range n).map (fun (i : Nat) => x + (i : ℝ))).prod) := by
  refine ⟨?_, logRisingFactorial_real L hL x hx n⟩
  have h1 : ((n : Int) + 1) = ((n + 1 : Nat) : Int) := by push_cast; rfl
  have hne : x + (n : ℝ) ≠ 0 := by positivity
  rw [h1, logRisingFactorial_real L hL x hx, logRisingFactorial_real L hL x hx,
    List.range_succ, List.map_append, List.prod_append, List.map_singleton,
    List.prod_singleton, Real.log_mul (ne_of_gt (prod_range_pos x hx n)) hne]

/-- Witness of C11 with the real `log` and `log ∘ Gamma`: the step from `n = 13` (direct
product) to `n = 14` (`lgamma` difference) at `x = 1`, and the values `logRF(1, 5)
= log 120` and `logRF(0.1, 1) = log 0.1`. -/
theorem logRisingFactorial_succ_witness :
    Libm.IsReal ⟨Real.log, Real.exp, fun y => Real.log (Real.Gamma y)⟩
      ∧ (0 : ℝ) < 1
      ∧ logRisingFactorial ⟨Real.log, Real.exp, fun y => Real.log (Real.Gamma y)⟩ (1 : ℝ) 14
        = logRisingFactorial ⟨Real.log, Real.exp, fun y => Real.log (Real.Gamma y)⟩ (1 : ℝ) 13
          + Real.log 14
      ∧ logRisingFactorial ⟨Real.log, Real.exp, fun y => Real.log (Real.Gamma y)⟩ (1 : ℝ) 5
        = Real.log 120
      ∧ logRisingFactorial ⟨Real.log, Real.exp, fun y => Real.log (Real.Gamma y)⟩ (1 / 10 : ℝ) 1
        = Real.log (1 / 10) := by
  have hL : Libm.IsReal ⟨Real.log, Real.exp, fun y => Real.log (Real.Gamma y)⟩ :=
    ⟨fun _ => rfl, fun _ _ => rfl⟩
  refine ⟨hL, by norm_num, ?_, ?_, ?_⟩
  · have h := (logRisingFactorial_succ _ hL 1 (by norm_num) 13).1
    norm_num at h
    exact h
  · exact ((logRisingFactorial_succ _ hL 1 (by norm_num) 5).2).trans
      (by norm_num [List.range_succ])
  · exact ((logRisingFactorial_succ _ hL (1 / 10) (by norm_num) 1).2).trans
      (by norm_num [List.range_succ])

/-! ### The value subtracted from the log-weights -/

theorem foldl_min_le (l : List ℚ) (a : ℚ) :
    l.foldl min a ≤ a ∧ ∀ x ∈ l, l.foldl min a ≤ x := by
  induction l generalizing a with
  | nil => exact ⟨le_refl a, fun x hx => absurd hx (List.not_mem_nil x)⟩
  | cons b l ih =>
    rw [List.foldl_cons]
    obtain ⟨h1, h2⟩ := ih (min a b)
    refine ⟨le_trans h1 (min_le_left a b), ?_⟩
    intro x hx
    rw [List.mem_cons] at hx
    rcases hx with rfl | hx
    · exact le_trans h1 (min_le_right a x)
    · exact h2 x hx

theorem foldl_min_mem (l : List ℚ) (a : ℚ) : l.foldl min a ∈ a :: l := by
  induction l generalizing a with
  | nil => exact List.mem_singleton_self a
  | cons b l ih =>
    rw [List.foldl_cons]
    have h := ih (min a b)
    rw [List.mem_cons] at h
    rcases h with h | h
    · rw [h]
      rcases min_choice a b with e | e
      · rw [e]; exact List.mem_cons_self _ _
      · rw [e]; exact List.mem_cons_of_mem _ (List.mem_cons_self _ _)
    · exact List.mem_cons_of_mem _ (List.mem_cons_of_mem _ h)

theorem minElement_le (l : List ℚ) : ∀ x ∈ l, minElement l ≤ x := by
  cases l with
  | nil => intro x hx; exact absurd hx (List.not_mem_nil x)
  | cons a l =>
    intro x hx
    rw [List.mem_cons] at hx
    rcases hx with rfl | hx
    · exact (foldl_min_le l x).1
    · exact (foldl_min_le l a).2 x hx

theorem minElement_mem (l : List ℚ) (h : l ≠ []) : minElement l ∈ l := by
  cases l with
  | nil => exact absurd rfl h
  | cons a l => exact foldl_min_mem l a

theorem logWeights_ne_nil (L : Libm ℚ) (s : HdpLda) (t : Nat) : logWeights L s t ≠ [] := by
  unfold logWeights
  simp

/-- C13 fails on the code. In every per-table step the value that `attachDraw` (lines
282-286) subtracts from the `K + 1` log-weights is their minimum, so every exponent passed
to `exp` is `≥ 0`; in the first table step of `sampleTopics` on scenario S1 (with the
stand-in libm) the log-weights are `-1399/100` and `-119/100`, the value subtracted is
`-1399/100`, not the maximum `-119/100`, and the exponents are `0` and `64/5 > 0`. -/
theorem topic_weights_subtract_minimum :
    (∀ (L : Libm ℚ) (s : HdpLda) (t : Nat),
        minElement (logWeights L s t) ∈ logWeights L s t
          ∧ ∀ x ∈ logWeights L s t, 0 ≤ x - minElement (logWeights L s t))
      ∧ logWeights exampleLibm (detach exampleState 0) 0 = [-1399 / 100, -119 / 100]
      ∧ minElement (logWeights exampleLibm (detach exampleState 0) 0) = -1399 / 100
      ∧ (logWeights exampleLibm (detach exampleState 0) 0).map
          (fun x => x - minElement (logWeights exampleLibm (detach exampleState 0) 0))
        = [0, 64 / 5] := by
  refine ⟨fun L s t => ⟨minElement_mem _ (logWeights_ne_nil L s t), fun x hx => ?_⟩, ?_, ?_, ?_⟩
  · have := minElement_le _ x hx
    linarith
  · decide!
  · decide!
  · decide!

/-! ### Discrete sampling -/

theorem cumulativeSums_fold (w : List ℚ) (a : ℚ) (l : List ℚ) :
    w.foldl (fun acc x => (acc.1 + x, acc.2 ++ [acc.1 + x])) (a, l)
      = (a + w.sum, l ++ (List.range w.length).map (fun i => a + (w.take (i + 1)).sum)) := by
  induction w generalizing a l with
  | nil => simp
  | cons b w ih =>
    rw [List.foldl_cons, ih, List.sum_cons, List.length_cons, List.range_succ_eq_map,
      List.map_cons, List.map_map]
    simp only [List.take_succ_cons, List.sum_cons, List.take_zero, List.sum_nil, add_zero,
      List.append_assoc, List.singleton_append, Function.comp_def, add_assoc]

theorem cumulativeSums_eq (w : List ℚ) :
    cumulativeSums w = (List.range w.length).map (fun i => (w.take (i + 1)).sum) := by
  unfold cumulativeSums
  rw [cumulativeSums_fold]
  simp

theorem cumulativeSums_getD (w : List ℚ) (i : Nat) (hi : i < w.length) :
    (cumulativeSums w).getD i 0 = (w.take (i + 1)).sum := by
  rw [cumulativeSums_eq, List.getD_eq_getElem _ _ (by simpa using hi), List.getElem_map,
    List.getElem_range]

theorem find_range_eq (p : Nat → Bool) (n i : Nat) (hi : i < n) (hp : p i = true)
    (hmin : ∀ j, j < i → p j = false) : (List.range n).find? p = some i := by
  induction n with
  | zero => omega
  | succ n ih =>
    rw [List.range_succ, List.find?_append]
    by_cases h : i < n
    · rw [ih h]; rfl
    · have e : i = n := by omega
      subst e
      have hnone : (List.range i).find? p = none := by
        rw [List.find?_eq_none]
        intro x hx
        rw [List.mem_range] at hx
        simp [hmin x hx]
      rw [hnone]
      simp [hp]

theorem take_sum_mono (w : List ℚ) (hw : ∀ x ∈ w, 0 ≤ x) (i j : Nat) (hij : i ≤ j) :
    (w.take i).sum ≤ (w.take j).sum := by
  obtain ⟨d, rfl⟩ := Nat.exists_eq_add_of_le hij
  rw [List.take_add, List.sum_append]
  have : 0 ≤ ((w.drop i).take d).sum := by
    apply List.sum_nonneg
    intro x hx
    exact hw x (List.mem_of_mem_drop (List.mem_of_mem_take hx))
  linarith

theorem take_succ_sum (w : List ℚ) (i : Nat) (hi : i < w.length) :
    (w.take (i + 1)).sum = (w.take i).sum + w.getD i 0 := by
  rw [List.take_succ, List.sum_append, List.getD_eq_getElem _ _ hi, List.getElem?_eq_getElem hi]
  simp

/-- What the sampling loop returns, for any scaled variate below the last cumulant. -/
theorem drawIndex_least (cdf : List ℚ) (rnd : ℚ) (T : Nat) (hT : rnd < cdf.getD T 0) :
    drawIndex cdf rnd T ≤ T ∧ rnd < cdf.getD (drawIndex cdf rnd T) 0
      ∧ ∀ j, j < drawIndex cdf rnd T → ¬ rnd < cdf.getD j 0 := by
  have hex : ∃ i, i < T + 1 ∧ rnd < cdf.getD i 0 := ⟨T, Nat.lt_succ_self T, hT⟩
  have hfind : (List.range (T + 1)).find? (fun t => decide (cdf.getD t 0 > rnd))
      = some (Nat.find hex) := by
    apply find_range_eq _ _ _ (Nat.find_spec hex).1
    · simpa using (Nat.find_spec hex).2
    · intro j hj
      have h := Nat.find_min hex hj
      have hj1 : j < T + 1 := lt_trans hj (Nat.find_spec hex).1
      simpa using fun h2 => h ⟨hj1, h2⟩
  have e : drawIndex cdf rnd T = Nat.find hex := by
    unfold drawIndex
    rw [hfind]
    rfl
  rw [e]
  refine ⟨Nat.lt_succ_iff.mp (Nat.find_spec hex).1, (Nat.find_spec hex).2, ?_⟩
  intro j hj h2
  exact Nat.find_min hex hj ⟨lt_trans hj (Nat.find_spec hex).1, h2⟩

/-- C17. Discrete sampling from cumulative sums, in exact arithmetic: for every non-empty
list of non-negative weights with positive total and every `u` in `[0,1)`, the selected
index is a valid index of the list, its cumulative sum is strictly greater than
`u * total`, no smaller index has that property (and every larger index has it), and the
selected outcome has a weight `> 0` (an outcome with weight 0 is never selected). -/
theorem sampleIndex_least (w : List ℚ) (u : ℚ) (hne : w ≠ []) (hw : ∀ x ∈ w, 0 ≤ x)
    (htot : 0 < w.sum) (hu0 : 0 ≤ u) (hu1 : u < 1) :
    sampleIndex w u < w.length
      ∧ (cumulativeSums w).getD (w.length - 1) 0 = w.sum
      ∧ u * w.sum < (cumulativeSums w).getD (sampleIndex w u) 0
      ∧ (∀ j, j < sampleIndex w u → ¬ u * w.sum < (cumulativeSums w).getD j 0)
      ∧ (∀ j, sampleIndex w u ≤ j → j < w.length → u * w.sum < (cumulativeSums w).getD j 0)
      ∧ 0 < w.getD (sampleIndex w u) 0 := by
  have hlen : 0 < w.length := List.length_pos.mpr hne
  have hlast : (cumulativeSums w).getD (w.length - 1) 0 = w.sum := by
    rw [cumulativeSums_getD w _ (by omega), Nat.sub_add_cancel hlen, List.take_length]
  have hrnd : u * w.sum < (cumulativeSums w).getD (w.length - 1) 0 := by
    rw [hlast]
    nlinarith
  have hd := drawIndex_least (cumulativeSums w) (u * (cumulativeSums w).getD (w.length - 1) 0)
    (w.length - 1) (by rw [hlast]; rw [hlast] at hrnd; exact hrnd)
  have e : sampleIndex w u
      = drawIndex (cumulativeSums w) (u * (cumulativeSums w).getD (w.length - 1) 0)
        (w.length - 1) := rfl
  rw [← e, hlast] at hd
  obtain ⟨h1, h2, h3⟩ := hd
  have hi : sampleIndex w u < w.length := by omega
  refine ⟨hi, hlast, h2, h3, ?_, ?_⟩
  · intro j hij hj
    rw [cumulativeSums_getD w _ hi] at h2
    rw [cumulativeSums_getD w _ hj]
    exact lt_of_lt_of_le h2 (take_sum_mono w hw _ _ (by omega))
  rw [cumulativeSums_getD w _ hi, take_succ_sum w _ hi] at h2
  have hprev : (w.take (sampleIndex w u)).sum ≤ u * w.sum := by
    by_cases h0 : sampleIndex w u = 0
    · rw [h0, List.take_zero, List.sum_nil]
      exact mul_nonneg hu0 (le_of_lt htot)
    · have hj : sampleIndex w u - 1 < sampleIndex w u := by omega
      have := h3 _ hj
      rw [cumulativeSums_getD w _ (by omega), Nat.sub_add_cancel (by omega)] at this
      exact not_lt.mp this
  linarith

/-- Witness of C17: weights `[0, 2, 0, 3]`, where the zero-weight outcomes `0` and `2` are
skipped: `u = 0` selects index 1 and `u = 2/5` (scaled variate equal to the cumulant 2)
selects index 3. -/
theorem sampleIndex_least_witness :
    sampleIndex [0, 2, 0, 3] 0 = 1 ∧ sampleIndex [0, 2, 0, 3] (2 / 5) = 3
      ∧ sampleIndex [0, 2, 0, 3] 0 < ([0, 2, 0, 3] : List ℚ).length
      ∧ (cumulativeSums [0, 2, 0, 3]).getD (([0, 2, 0, 3] : List ℚ).length - 1) 0
        = ([0, 2, 0, 3] : List ℚ).sum
      ∧ 0 * ([0, 2, 0, 3] : List ℚ).sum
        < (cumulativeSums [0, 2, 0, 3]).getD (sampleIndex [0, 2, 0, 3] 0) 0
      ∧ (∀ j, j < sampleIndex [0, 2, 0, 3] 0
          → ¬ 0 * ([0, 2, 0, 3] : List ℚ).sum < (cumulativeSums [0, 2, 0, 3]).getD j 0)
      ∧ (∀ j, sampleIndex [0, 2, 0, 3] 0 ≤ j → j < ([0, 2, 0, 3] : List ℚ).length
          → 0 * ([0, 2, 0, 3] : List ℚ).sum < (cumulativeSums [0, 2, 0, 3]).getD j 0)
      ∧ 0 < ([0, 2, 0, 3] : List ℚ).getD (sampleIndex [0, 2, 0, 3] 0) 0 :=
  ⟨by decide!, by decide!,
    sampleIndex_least [0, 2, 0, 3] 0 (by simp) (by simp) (by norm_num) (le_refl 0)
      (by norm_num)⟩

theorem seatDraw_eq (s2 : HdpLda) (j i v : Nat) (G0_sum : ℚ) (G0_vk0 : List ℚ) (g : Rng) :
    seatDraw s2 j i v G0_sum G0_vk0 g
      = if tableDraw s2 j v G0_sum g < (s2.rest j).tables.length then
          (seat s2 j i v ((s2.rest j).tables.getD (tableDraw s2 j v G0_sum g) 0), (uniform g).2)
        else
          (seat (addTable (if dishDraw s2 G0_sum G0_vk0 (uniform g).2 < s2.topics.length
                then (s2, s2.topics.getD (dishDraw s2 G0_sum G0_vk0 (uniform g).2) 0)
                else addTopic s2).1 j
              (if dishDraw s2 G0_sum G0_vk0 (uniform g).2 < s2.topics.length
                then (s2, s2.topics.getD (dishDraw s2 G0_sum G0_vk0 (uniform g).2) 0)
                else addTopic s2).2).1 j i v
            (addTable (if dishDraw s2 G0_sum G0_vk0 (uniform g).2 < s2.topics.length
                then (s2, s2.topics.getD (dishDraw s2 G0_sum G0_vk0 (uniform g).2) 0)
                else addTopic s2).1 j
              (if dishDraw s2 G0_sum G0_vk0 (uniform g).2 < s2.topics.length
                then (s2, s2.topics.getD (dishDraw s2 G0_sum G0_vk0 (uniform g).2) 0)
                else addTopic s2).2).2,
            (uniform (uniform g).2).2) := rfl

theorem attachDraw_eq (L : Libm ℚ) (s1 : HdpLda) (t : Nat) (g : Rng) :
    attachDraw L s1 t g
      = (attach (if topicDraw L s1 t g < s1.topics.length
            then (s1, s1.topics.getD (topicDraw L s1 t g) 0) else addTopic s1).1 t
          (if topicDraw L s1 t g < s1.topics.length
            then (s1, s1.topics.getD (topicDraw L s1 t g) 0) else addTopic s1).2,
          (uniform g).2) := rfl

theorem cumulativeSums_foldl (w : List ℚ) :
    w.foldl (fun acc x => (acc.1 + x, acc.2 ++ [acc.1 + x])) ((0 : ℚ), ([] : List ℚ))
      = (w.sum, cumulativeSums w) := by
  rw [cumulativeSums_fold, cumulativeSums_eq]
  simp

theorem cumulativeSums_concat (w : List ℚ) (a : ℚ) :
    cumulativeSums (w ++ [a]) = cumulativeSums w ++ [w.sum + a] := by
  unfold cumulativeSums
  rw [List.foldl_append, cumulativeSums_foldl]
  rfl

theorem expCDF_eq (L : Libm ℚ) (logPk : List ℚ) (c : ℚ) :
    expCDF L logPk c = cumulativeSums (logPk.map (fun x => L.exp (x - c))) := by
  unfold expCDF cumulativeSums
  rw [List.foldl_map]

theorem tableLoop_eq (s : HdpLda) (tables : List Nat) (v : Nat) :
    tableLoop s tables v
      = ((tables.map (fun t => ((s.tableHeap t).n : ℚ)
            * (s.topicHeap (s.tableHeap t).topic).phi_v.getD v 0)).sum,
          cumulativeSums (tables.map (fun t => ((s.tableHeap t).n : ℚ)
            * (s.topicHeap (s.tableHeap t).topic).phi_v.getD v 0))) := by
  rw [← cumulativeSums_foldl, List.foldl_map]
  rfl

theorem tableDraw_eq_sampleIndex (s2 : HdpLda) (j v : Nat) (G0_sum : ℚ) (g : Rng) :
    tableDraw s2 j v G0_sum g = sampleIndex (tableWeights s2 j v G0_sum) (uniform g).1 := by
  unfold tableDraw sampleIndex tableWeights
  dsimp only
  rw [tableLoop_eq, cumulativeSums_concat]
  simp

theorem topicDraw_eq_sampleIndex (L : Libm ℚ) (s1 : HdpLda) (t : Nat) (g : Rng) :
    topicDraw L s1 t g = sampleIndex (topicWeights L s1 t) (uniform g).1 := by
  unfold topicDraw sampleIndex topicWeights
  dsimp only
  rw [expCDF_eq]
  simp [logWeights]

theorem phiLoop_fold (s : HdpLda) (v : Nat) (l : List Nat) (h : Nat → Topic) (a : ℚ) (c : List ℚ)
    (hh : ∀ k, (h k).n = (s.topicHeap k).n ∧ (h k).n_v = (s.topicHeap k).n_v
      ∧ (h k).m = (s.topicHeap k).m ∧ (h k).phi_v.length = (s.topicHeap k).phi_v.length) :
    (l.foldl (fun acc k =>
        let tp := acc.1 k
        let phi : ℚ := ((tp.n_v.getD v 0 : ℚ) + s.beta) / ((tp.n : ℚ) + (s.V : ℚ) * s.beta)
        let tp1 : Topic := { tp with phi_v := tp.phi_v.set v phi }
        let G0_v := acc.2.1 + (tp1.m : ℚ) * tp1.phi_v.getD v 0
        (Function.update acc.1 k tp1, G0_v, acc.2.2 ++ [G0_v])) (h, a, c)).2
      = (l.map (fun k => ((s.topicHeap k).m : ℚ)
          * ((s.topicHeap k).phi_v.set v
              ((((s.topicHeap k).n_v.getD v 0 : ℚ) + s.beta)
                / (((s.topicHeap k).n : ℚ) + (s.V : ℚ) * s.beta))).getD v 0)).foldl
          (fun acc x => (acc.1 + x, acc.2 ++ [acc.1 + x])) (a, c) := by
  induction l generalizing h a c with
  | nil => rfl
  | cons k l ih =>
    rw [List.foldl_cons, List.map_cons, List.foldl_cons]
    obtain ⟨h1, h2, h3, h4⟩ := hh k
    have hw : ((h k).m : ℚ) * ((h k).phi_v.set v
          ((((h k).n_v.getD v 0 : ℚ) + s.beta) / (((h k).n : ℚ) + (s.V : ℚ) * s.beta))).getD v 0
        = ((s.topicHeap k).m : ℚ) * ((s.topicHeap k).phi_v.set v
          ((((s.topicHeap k).n_v.getD v 0 : ℚ) + s.beta)
            / (((s.topicHeap k).n : ℚ) + (s.V : ℚ) * s.beta))).getD v 0 := by
      rw [h1, h2, h3, getD_set_rat, getD_set_rat, h4]
      by_cases hv : v < (s.topicHeap k).phi_v.length
      · simp [hv]
      · rw [if_neg (fun e => hv e.2), if_neg (fun e => hv e.2),
          List.getD_eq_default _ _ (by omega), List.getD_eq_default _ _ (by omega)]
    dsimp only
    rw [hw]
    apply ih
    intro k1
    by_cases e : k1 = k
    · subst e
      rw [Function.update_same]
      exact ⟨h1, h2, h3, by rw [List.length_set]; exact h4⟩
    · rw [Function.update_noteq e]
      exact hh k1

theorem phiLoop_eq (s : HdpLda) (v : Nat) :
    (phiLoop s v).2.2 ++ [(phiLoop s v).2.1 + s.gamma * (1 / (s.V : ℚ))]
      = cumulativeSums (dishWeights s v) := by
  have h := phiLoop_fold s v s.topics s.topicHeap 0 [] (fun _ => ⟨rfl, rfl, rfl, rfl⟩)
  rw [cumulativeSums_foldl] at h
  have h1 : (phiLoop s v).2.1 = _ := congrArg Prod.fst h
  have h2 : (phiLoop s v).2.2 = _ := congrArg Prod.snd h
  unfold dishWeights
  rw [cumulativeSums_concat, h1, h2]

theorem dishDraw_eq_sampleIndex (s1 : HdpLda) (v : Nat) (g : Rng) :
    dishDraw (refreshPhi s1 v) (phiLoop s1 v).2.1 (phiLoop s1 v).2.2 g
      = sampleIndex (dishWeights s1 v) (uniform g).1 := by
  unfold dishDraw sampleIndex refreshPhi
  dsimp only
  rw [phiLoop_eq]
  simp [dishWeights]

/-! ### A customer that is seated again at the table it left -/

theorem set_getD_self {α : Type} (l : List α) (i : Nat) (d : α) : l.set i (l.getD i d) = l := by
  induction l generalizing i with
  | nil => rfl
  | cons a l ih =>
    cases i with
    | zero => rfl
    | succ i =>
      rw [List.set_cons_succ, List.getD_cons_succ, ih]

theorem incAt_incAt_cancel (l : List Int) (v : Nat) (d : Int) :
    incAt (incAt l v (-d)) v d = l := by
  unfold incAt
  rw [List.set_set]
  by_cases hv : v < l.length
  · have e : (l.set v (l.getD v 0 + -d)).getD v 0 = l.getD v 0 + -d := by
      rw [List.getD_eq_getElem _ _ (by rw [List.length_set]; exact hv), List.getElem_set_self]
    rw [e, neg_add_cancel_right]
    exact set_getD_self l v 0
  · exact List.set_eq_of_length_le (not_lt.mp hv)

theorem sampleTablesStep_eq (s : HdpLda) (j i : Nat) (g : Rng) :
    sampleTablesStep s j i g
      = seatDraw (refreshPhi (unseat s j i) ((s.rest j).customers.getD i ⟨0, 0⟩).word) j i
          ((s.rest j).customers.getD i ⟨0, 0⟩).word
          (phiLoop (unseat s j i) ((s.rest j).customers.getD i ⟨0, 0⟩).word).2.1
          (phiLoop (unseat s j i) ((s.rest j).customers.getD i ⟨0, 0⟩).word).2.2 g := rfl

theorem unseat_of_two_le (s : HdpLda) (j i : Nat)
    (hn : 2 ≤ (s.tableHeap ((s.rest j).customers.getD i ⟨0, 0⟩).table).n) :
    unseat s j i = decrementCounts s ((s.rest j).customers.getD i ⟨0, 0⟩).table
      ((s.rest j).customers.getD i ⟨0, 0⟩).word := by
  unfold unseat removeEmptyTable
  dsimp only
  rw [if_neg]
  unfold decrementCounts
  dsimp only
  rw [Function.update_same]
  dsimp only
  omega

theorem seat_after_leave (s : HdpLda) (j i t v : Nat)
    (hc : (s.rest j).customers.getD i ⟨0, 0⟩ = ⟨v, t⟩) :
    (seat (refreshPhi (decrementCounts s t v) v) j i v t).tableHeap = s.tableHeap
      ∧ (∀ k, ((seat (refreshPhi (decrementCounts s t v) v) j i v t).topicHeap k).n
            = (s.topicHeap k).n
          ∧ ((seat (refreshPhi (decrementCounts s t v) v) j i v t).topicHeap k).n_v
            = (s.topicHeap k).n_v
          ∧ ((seat (refreshPhi (decrementCounts s t v) v) j i v t).topicHeap k).m
            = (s.topicHeap k).m)
      ∧ (seat (refreshPhi (decrementCounts s t v) v) j i v t).restaurants = s.restaurants := by
  have hth : (refreshPhi (decrementCounts s t v) v).tableHeap
      = Function.update s.tableHeap t
        { s.tableHeap t with n := (s.tableHeap t).n - 1,
                             n_v := incAt (s.tableHeap t).n_v v (-1) } := rfl
  refine ⟨?_, ?_, ?_⟩
  · show Function.update (refreshPhi (decrementCounts s t v) v).tableHeap t _ = s.tableHeap
    rw [hth, Function.update_same, Function.update_idem]
    apply Function.update_eq_self_iff.mpr
    dsimp only
    rw [incAt_incAt_cancel _ _ 1, sub_add_cancel]
  · intro k
    have hk := phiLoop_counts (decrementCounts s t v) v
    show (Function.update (phiLoop (decrementCounts s t v) v).1
        ((refreshPhi (decrementCounts s t v) v).tableHeap t).topic _ k).n = _
      ∧ (Function.update (phiLoop (decrementCounts s t v) v).1
        ((refreshPhi (decrementCounts s t v) v).tableHeap t).topic _ k).n_v = _
      ∧ (Function.update (phiLoop (decrementCounts s t v) v).1
        ((refreshPhi (decrementCounts s t v) v).tableHeap t).topic _ k).m = _
    rw [hth, Function.update_same]
    dsimp only
    have hdec : (decrementCounts s t v).topicHeap
        = Function.update s.topicHeap (s.tableHeap t).topic
          { s.topicHeap (s.tableHeap t).topic with
            n := (s.topicHeap (s.tableHeap t).topic).n - 1,
            n_v := incAt (s.topicHeap (s.tableHeap t).topic).n_v v (-1) } := rfl
    by_cases e : k = (s.tableHeap t).topic
    · subst e
      rw [Function.update_same]
      dsimp only
      obtain ⟨h1, h2, h3⟩ := hk (s.tableHeap t).topic
      rw [show (refreshPhi (decrementCounts s t v) v).topicHeap
          = (phiLoop (decrementCounts s t v) v).1 from rfl, h1, h2, h3, hdec,
        Function.update_same]
      dsimp only
      rw [incAt_incAt_cancel _ _ 1, sub_add_cancel]
      exact ⟨rfl, rfl, rfl⟩
    · rw [Function.update_noteq e]
      obtain ⟨h1, h2, h3⟩ := hk k
      rw [h1, h2, h3, hdec, Function.update_noteq e]
      exact ⟨rfl, rfl, rfl⟩
  · have hr : (incrementCounts (refreshPhi (decrementCounts s t v) v) t v).rest j = s.rest j := rfl
    unfold seat assignTable HdpLda.setRest
    dsimp only
    rw [hr, hc]
    dsimp only
    rw [← hc, set_getD_self]
    exact set_getD_self s.restaurants j _

/-- C14. In a per-customer step of `sampleTables`, from any state, for a customer whose
current table seats at least 2 customers before the step: if the table draw selects that
same table, then after the step every table's `n`, `n_v` and topic, every topic's `n`,
`n_v` and `m`, the franchise `m`, every restaurant's table list, customers (with their
table references) and `n`, and the franchise's topic list are exactly what they were
before the step. -/
theorem reseat_same_table_restores_counts (s : HdpLda) (j i : Nat) (g : Rng)
    (hn : 2 ≤ (s.tableHeap ((s.rest j).customers.getD i ⟨0, 0⟩).table).n)
    (hsel : (s.rest j).tables[stepTableDraw s j i g]?
      = some ((s.rest j).customers.getD i ⟨0, 0⟩).table) :
    (sampleTablesStep s j i g).1.tableHeap = s.tableHeap
      ∧ (∀ k, ((sampleTablesStep s j i g).1.topicHeap k).n = (s.topicHeap k).n
          ∧ ((sampleTablesStep s j i g).1.topicHeap k).n_v = (s.topicHeap k).n_v
          ∧ ((sampleTablesStep s j i g).1.topicHeap k).m = (s.topicHeap k).m)
      ∧ (sampleTablesStep s j i g).1.m = s.m
      ∧ (sampleTablesStep s j i g).1.restaurants = s.restaurants
      ∧ (sampleTablesStep s j i g).1.topics = s.topics := by
  have hun := unseat_of_two_le s j i hn
  rw [List.getElem?_eq_some_iff] at hsel
  obtain ⟨hlt, hget⟩ := hsel
  have hrest : ((refreshPhi (unseat s j i) ((s.rest j).customers.getD i ⟨0, 0⟩).word).rest j)
      = s.rest j := by rw [hun]; rfl
  have hdraw : tableDraw (refreshPhi (unseat s j i) ((s.rest j).customers.getD i ⟨0, 0⟩).word) j
      ((s.rest j).customers.getD i ⟨0, 0⟩).word
      (phiLoop (unseat s j i) ((s.rest j).customers.getD i ⟨0, 0⟩).word).2.1 g
      = stepTableDraw s j i g := rfl
  rw [sampleTablesStep_eq, seatDraw_eq, hdraw, hrest, if_pos hlt,
    List.getD_eq_getElem _ _ hlt, hget, hun]
  obtain ⟨h1, h2, h3⟩ := seat_after_leave s j i
    ((s.rest j).customers.getD i ⟨0, 0⟩).table ((s.rest j).customers.getD i ⟨0, 0⟩).word rfl
  exact ⟨h1, h2, rfl, h3, rfl⟩

/-- Witness of C14 on scenario S1: customer 0 of document 0 sits at a table of 2 customers
and, with the variate `0`, is drawn the same table again. -/
theorem reseat_same_table_restores_counts_witness :
    stepTableDraw exampleState 0 0 zeroRng = 0
      ∧ 2 ≤ (exampleState.tableHeap
          ((exampleState.rest 0).customers.getD 0 ⟨0, 0⟩).table).n
      ∧ (exampleState.rest 0).tables[stepTableDraw exampleState 0 0 zeroRng]?
        = some ((exampleState.rest 0).customers.getD 0 ⟨0, 0⟩).table
      ∧ (sampleTablesStep exampleState 0 0 zeroRng).1.tableHeap = exampleState.tableHeap
      ∧ (∀ k, ((sampleTablesStep exampleState 0 0 zeroRng).1.topicHeap k).n
            = (exampleState.topicHeap k).n
          ∧ ((sampleTablesStep exampleState 0 0 zeroRng).1.topicHeap k).n_v
            = (exampleState.topicHeap k).n_v
          ∧ ((sampleTablesStep exampleState 0 0 zeroRng).1.topicHeap k).m
            = (exampleState.topicHeap k).m)
      ∧ (sampleTablesStep exampleState 0 0 zeroRng).1.m = exampleState.m
      ∧ (sampleTablesStep exampleState 0 0 zeroRng).1.restaurants = exampleState.restaurants
      ∧ (sampleTablesStep exampleState 0 0 zeroRng).1.topics = exampleState.topics :=
  ⟨by decide!, by decide, by decide!,
    reseat_same_table_restores_counts exampleState 0 0 zeroRng (by decide) (by decide!)⟩

/-! ### The step of the only customer of a restaurant -/

theorem pickTopic_frame (s2 : HdpLda) (c : Prop) [Decidable c] (k : Nat) :
    (if c then (s2, k) else addTopic s2).1.restaurants = s2.restaurants
      ∧ (if c then (s2, k) else addTopic s2).1.m = s2.m
      ∧ (if c then (s2, k) else addTopic s2).1.nextTable = s2.nextTable
      ∧ (if c then (s2, k) else addTopic s2).1.tableHeap = s2.tableHeap
      ∧ (if c then (s2, k) else addTopic s2).1.V = s2.V := by
  split <;> exact ⟨rfl, rfl, rfl, rfl, rfl⟩

theorem seat_new_table (p : HdpLda) (j i v k : Nat) (hj : j < p.restaurants.length) :
    ((seat (addTable p j k).1 j i v (addTable p j k).2).rest j).tables
        = (p.rest j).tables ++ [p.nextTable]
      ∧ ((seat (addTable p j k).1 j i v (addTable p j k).2).rest j).customers
        = (p.rest j).customers.set i ⟨((p.rest j).customers.getD i ⟨0, 0⟩).word, p.nextTable⟩
      ∧ (seat (addTable p j k).1 j i v (addTable p j k).2).m = p.m + 1
      ∧ ((seat (addTable p j k).1 j i v (addTable p j k).2).tableHeap p.nextTable).n = 1
      ∧ ((seat (addTable p j k).1 j i v (addTable p j k).2).tableHeap p.nextTable).topic = k := by
  have hr : ((addTable p j k).1.rest j) = { p.rest j with tables := (p.rest j).tables ++ [p.nextTable] } := by
    unfold HdpLda.rest
    show (p.restaurants.set j _).getD j _ = _
    rw [rest_set p j j _ hj, if_pos rfl]
    rfl
  have hl : j < (incrementCounts (addTable p j k).1 (addTable p j k).2 v).restaurants.length := by
    show j < (p.restaurants.set j _).length
    rw [List.length_set]; exact hj
  have hr2 : (incrementCounts (addTable p j k).1 (addTable p j k).2 v).rest j
      = (addTable p j k).1.rest j := rfl
  have hseat : (seat (addTable p j k).1 j i v (addTable p j k).2).rest j
      = { (addTable p j k).1.rest j with
          customers := ((addTable p j k).1.rest j).customers.set i
            (⟨(((addTable p j k).1.rest j).customers.getD i ⟨0, 0⟩).word, (addTable p j k).2⟩ : Customer) } := by
    unfold seat assignTable
    dsimp only
    rw [rest_setRest _ j j _ hl, if_pos rfl, hr2]
  refine ⟨?_, ?_, rfl, ?_, ?_⟩
  · rw [hseat, hr]
  · rw [hseat, hr]; rfl
  · show (Function.update (Function.update p.tableHeap p.nextTable _) p.nextTable _ p.nextTable).n = 1
    rw [Function.update_same]
    show (Function.update p.tableHeap p.nextTable (Table.new p.V k) p.nextTable).n + 1 = 1
    rw [Function.update_same]
    rfl
  · show (Function.update (Function.update p.tableHeap p.nextTable _) p.nextTable _ p.nextTable).topic = k
    rw [Function.update_same]
    show (Function.update p.tableHeap p.nextTable (Table.new p.V k) p.nextTable).topic = k
    rw [Function.update_same]
    rfl

theorem eq_singleton_of_nodup (l : List Nat) (a : Nat) (hnd : l.Nodup) (ha : a ∈ l)
    (hall : ∀ x ∈ l, x = a) : l = [a] := by
  cases l with
  | nil => exact absurd ha (List.not_mem_nil a)
  | cons b l =>
    have hb : b = a := hall b (List.mem_cons_self _ _)
    subst hb
    cases l with
    | nil => rfl
    | cons d l =>
      have hd : d = b := hall d (List.mem_cons_of_mem _ (List.mem_cons_self _ _))
      subst hd
      exact absurd (List.mem_cons_self _ _) (List.nodup_cons.mp hnd).1

theorem removeEmptyTable_m (s : HdpLda) (j t : Nat) (hn : (s.tableHeap t).n = 0) :
    (removeEmptyTable s j t).m = s.m - 1 ∧ (removeEmptyTable s j t).nextTable = s.nextTable := by
  unfold removeEmptyTable; rw [if_pos hn]; dsimp only; split <;> exact ⟨rfl, rfl⟩

theorem removeEmptyTable_rest (s : HdpLda) (j t : Nat) (hjl : j < s.restaurants.length)
    (hn : (s.tableHeap t).n = 0) :
    ((removeEmptyTable s j t).rest j).tables = (s.rest j).tables.filter (· ≠ t)
      ∧ ((removeEmptyTable s j t).rest j).customers = (s.rest j).customers
      ∧ (removeEmptyTable s j t).restaurants.length = s.restaurants.length := by
  have h := removeEmptyTable_restaurants s j t hn
  unfold HdpLda.rest
  rw [h, List.length_set, (rest_set s j j _ hjl).trans (if_pos rfl)]
  exact ⟨rfl, rfl, rfl⟩

theorem unseat_last_customer (s : HdpLda) (j i : Nat)
    (hjl : j < s.restaurants.length)
    (hn : (s.tableHeap ((s.rest j).customers.getD i ⟨0, 0⟩).table).n = 1) :
    ((unseat s j i).rest j).tables
        = (s.rest j).tables.filter (· ≠ ((s.rest j).customers.getD i ⟨0, 0⟩).table)
      ∧ ((unseat s j i).rest j).customers = (s.rest j).customers
      ∧ (unseat s j i).m = s.m - 1
      ∧ (unseat s j i).nextTable = s.nextTable
      ∧ (unseat s j i).restaurants.length = s.restaurants.length := by
  have h0 : ((decrementCounts s ((s.rest j).customers.getD i ⟨0, 0⟩).table
      ((s.rest j).customers.getD i ⟨0, 0⟩).word).tableHeap
        ((s.rest j).customers.getD i ⟨0, 0⟩).table).n = 0 := by
    unfold decrementCounts
    dsimp only
    rw [Function.update_same]
    dsimp only
    omega
  obtain ⟨hm, hnext⟩ := removeEmptyTable_m _ j _ h0
  obtain ⟨r1, r2, r3⟩ := removeEmptyTable_rest _ j _
    (show j < (decrementCounts s ((s.rest j).customers.getD i ⟨0, 0⟩).table
      ((s.rest j).customers.getD i ⟨0, 0⟩).word).restaurants.length from hjl) h0
  exact ⟨r1, r2, hm, hnext, r3⟩

theorem sampleTablesStep_new_table (s : HdpLda) (j i : Nat) (g : Rng)
    (hT : ((unseat s j i).rest j).tables = []) :
    ∃ p : HdpLda × Nat, p.1.restaurants = (unseat s j i).restaurants
      ∧ p.1.m = (unseat s j i).m ∧ p.1.nextTable = (unseat s j i).nextTable
      ∧ (sampleTablesStep s j i g).1
        = seat (addTable p.1 j p.2).1 j i ((s.rest j).customers.getD i ⟨0, 0⟩).word
            (addTable p.1 j p.2).2 := by
  have hlen : ¬ tableDraw (refreshPhi (unseat s j i) ((s.rest j).customers.getD i ⟨0, 0⟩).word) j
      ((s.rest j).customers.getD i ⟨0, 0⟩).word
      (phiLoop (unseat s j i) ((s.rest j).customers.getD i ⟨0, 0⟩).word).2.1 g
      < ((refreshPhi (unseat s j i) ((s.rest j).customers.getD i ⟨0, 0⟩).word).rest j).tables.length := by
    have hr2 : (refreshPhi (unseat s j i) ((s.rest j).customers.getD i ⟨0, 0⟩).word).rest j
        = (unseat s j i).rest j := rfl
    rw [hr2, hT]
    exact Nat.not_lt_zero _
  obtain ⟨p1, p2, p3, _, _⟩ := pickTopic_frame
    (refreshPhi (unseat s j i) ((s.rest j).customers.getD i ⟨0, 0⟩).word)
    (dishDraw (refreshPhi (unseat s j i) ((s.rest j).customers.getD i ⟨0, 0⟩).word)
        (phiLoop (unseat s j i) ((s.rest j).customers.getD i ⟨0, 0⟩).word).2.1
        (phiLoop (unseat s j i) ((s.rest j).customers.getD i ⟨0, 0⟩).word).2.2 (uniform g).2
      < (refreshPhi (unseat s j i) ((s.rest j).customers.getD i ⟨0, 0⟩).word).topics.length)
    ((refreshPhi (unseat s j i) ((s.rest j).customers.getD i ⟨0, 0⟩).word).topics.getD
      (dishDraw (refreshPhi (unseat s j i) ((s.rest j).customers.getD i ⟨0, 0⟩).word)
        (phiLoop (unseat s j i) ((s.rest j).customers.getD i ⟨0, 0⟩).word).2.1
        (phiLoop (unseat s j i) ((s.rest j).customers.getD i ⟨0, 0⟩).word).2.2 (uniform g).2) 0)
  refine ⟨_, p1, p2, p3, ?_⟩
  rw [sampleTablesStep_eq, seatDraw_eq, if_neg hlen]

/-- The step of the only customer of a restaurant without empty table, in a state where
the counts agree with the seating: the old table is removed, the customer is seated at a
table with a fresh identity, which is then the only table of the restaurant, with `n = 1`,
and the franchise table counter `m` is back at its value. -/
theorem single_customer_step (s : HdpLda) (j : Nat) (c : Customer) (g : Rng)
    (hI : Inv s) (hj : j < s.D) (hc : (s.rest j).customers = [c])
    (hpos : ∀ t ∈ (s.rest j).tables, (s.tableHeap t).n ≠ 0) :
    (s.rest j).tables = [c.table]
      ∧ ((unseat s j 0).rest j).tables = []
      ∧ ((sampleTablesStep s j 0 g).1.rest j).tables = [s.nextTable]
      ∧ s.nextTable ≠ c.table ∧ s.nextTable ∉ s.allTables
      ∧ ((sampleTablesStep s j 0 g).1.rest j).customers = [⟨c.word, s.nextTable⟩]
      ∧ ((sampleTablesStep s j 0 g).1.tableHeap s.nextTable).n = 1
      ∧ (sampleTablesStep s j 0 g).1.m = s.m := by
  have hjl : j < s.restaurants.length := hI.1.lenR ▸ hj
  have hc0 : (s.rest j).customers.getD 0 ⟨0, 0⟩ = c := by rw [hc]; rfl
  have hcs : c ∈ s.seated j := by
    unfold HdpLda.seated; rw [hc]; exact Multiset.mem_singleton_self c
  obtain ⟨ht, _⟩ := hI.1.seatIn j hj c hcs
  have hcount : ∀ t ∈ (s.rest j).tables,
      (s.tableHeap t).n = if c.table = t then 1 else 0 := by
    intro t htj
    rw [hI.1.nT j hj t htj]
    unfold HdpLda.seated
    rw [hc, Multiset.coe_countP, List.countP_singleton]
    by_cases e : c.table = t <;> simp [e]
  have htabs : (s.rest j).tables = [c.table] := by
    apply eq_singleton_of_nodup _ _
      (tables_nodup_of_getD s.restaurants _ j hI.1.nodupT hjl) ht
    intro t htj
    by_contra hne
    apply hpos t htj
    rw [hcount t htj, if_neg (fun e => hne e.symm)]
  have hn1 : (s.tableHeap ((s.rest j).customers.getD 0 ⟨0, 0⟩).table).n = 1 := by
    rw [hc0, hcount _ ht, if_pos rfl]
  obtain ⟨u1, u2, u3, u4, u5⟩ := unseat_last_customer s j 0 hjl hn1
  rw [hc0, htabs] at u1
  have u1a : ((unseat s j 0).rest j).tables = [] := by rw [u1]; simp
  have hnew : s.nextTable ∉ s.allTables := fun h => lt_irrefl _ (hI.1.ltT _ h)
  have hne : s.nextTable ≠ c.table := fun e => hnew (e ▸ hI.1.mem_all hj ht)
  obtain ⟨p, p1, p2, p3, hstep⟩ := sampleTablesStep_new_table s j 0 g u1a
  rw [hstep]
  have hpl : j < p.1.restaurants.length := by
    rw [p1, u5]; exact hjl
  have hpr : p.1.rest j = (unseat s j 0).rest j := by
    unfold HdpLda.rest; rw [p1]
  have hpn : p.1.nextTable = s.nextTable := p3.trans u4
  have hpm : p.1.m = s.m - 1 := p2.trans u3
  obtain ⟨q1, q2, q3, q4, _⟩ := seat_new_table p.1 j 0 ((s.rest j).customers.getD 0 ⟨0, 0⟩).word
    p.2 hpl
  rw [hpr, u1a, hpn] at q1
  rw [hpr, u2, hpn] at q2
  rw [hpm] at q3
  rw [hpn] at q4
  refine ⟨htabs, u1a, q1, hne, hnew, ?_, q4, by rw [q3]; ring⟩
  rw [q2, hc]
  rfl

/-! ### Orphan topics -/

theorem detach_nextTopic (s : HdpLda) (t : Nat) : (detach s t).nextTopic = s.nextTopic := by
  unfold detach
  dsimp only
  split <;> rfl

theorem topic_m_of_only_table (s : HdpLda) (t : Nat) (hI : Inv s) (ht : t ∈ s.allTables)
    (honly : ∀ t1 ∈ s.allTables, (s.tableHeap t1).topic = (s.tableHeap t).topic → t1 = t) :
    (s.topicHeap (s.tableHeap t).topic).m = 1 := by
  have hA := hI.2.topicIn t ht
  rw [hI.2.mK _ hA, tsum_coe]
  have hf : s.allTables.filter (fun t1 => (s.tableHeap t1).topic = (s.tableHeap t).topic) = [t] := by
    apply eq_singleton_of_nodup _ _ (hI.1.nodupT.filter _)
    · rw [List.mem_filter]; exact ⟨ht, by simp⟩
    · intro x hx
      rw [List.mem_filter] at hx
      exact honly x hx.1 (by simpa using hx.2)
  rw [hf]
  rfl

theorem orphan_step (L : Libm ℚ) (s : HdpLda) (t : Nat) (g : Rng) (hI : Inv s)
    (ht : t ∈ s.allTables)
    (honly : ∀ t1 ∈ s.allTables, (s.tableHeap t1).topic = (s.tableHeap t).topic → t1 = t) :
    (s.tableHeap t).topic ∈ s.topics
      ∧ (s.tableHeap t).topic ∉ (detach s t).topics
      ∧ ((sampleTopicsStep L s t g).1.tableHeap t).topic ≠ (s.tableHeap t).topic
      ∧ (s.tableHeap t).topic ∉ (sampleTopicsStep L s t g).1.topics := by
  have hA := hI.2.topicIn t ht
  have hm := topic_m_of_only_table s t hI ht honly
  have hd : (s.tableHeap t).topic ∉ (detach s t).topics := by
    rw [detach_topics, hm, if_pos (by norm_num), List.mem_filter]
    intro h
    simpa using h.2
  have hlt : (s.tableHeap t).topic < (detach s t).nextTopic := by
    rw [detach_nextTopic]; exact hI.2.ltK _ hA
  have key : ∀ p : HdpLda × Nat, p.2 ∈ p.1.topics → (s.tableHeap t).topic ∉ p.1.topics →
      ((attach p.1 t p.2).tableHeap t).topic ≠ (s.tableHeap t).topic
        ∧ (s.tableHeap t).topic ∉ (attach p.1 t p.2).topics := by
    intro p hp hn
    refine ⟨?_, hn⟩
    show (Function.update p.1.tableHeap t _ t).topic ≠ _
    rw [Function.update_same]
    exact fun e => hn (e ▸ hp)
  refine ⟨hA, hd, ?_⟩
  unfold sampleTopicsStep
  rw [attachDraw_eq]
  apply key
  · split
    · next h => exact getD_mem_of_lt _ _ h
    · exact addTopic_mem _
  · split
    · exact hd
    · show (s.tableHeap t).topic ∉ (detach s t).topics ++ [(detach s t).nextTopic]
      rw [List.mem_append, List.mem_singleton]
      rintro (h | h)
      · exact hd h
      · exact absurd h (ne_of_lt hlt)

theorem two_restaurants (s : HdpLda) (t0 t1 : Nat) (hlen : s.restaurants.length = 2)
    (h0 : (s.rest 0).tables = [t0]) (h1 : (s.rest 1).tables = [t1]) :
    s.allTables = [t0, t1] := by
  obtain ⟨a, b, hab⟩ := List.length_eq_two.mp hlen
  unfold HdpLda.rest at h0 h1
  unfold HdpLda.allTables
  rw [hab] at h0 h1 ⊢
  have e0 : a.tables = [t0] := h0
  have e1 : b.tables = [t1] := h1
  simp [List.flatMap, e0, e1]

theorem all_tables_one_topic (corpus : Corpus) (s : HdpLda) (t0 t1 : Nat)
    (hG : Good corpus s) (hD : corpus.D = 2)
    (h0 : (s.rest 0).tables = [t0]) (h1 : (s.rest 1).tables = [t1])
    (hB : (s.tableHeap t1).topic = (s.tableHeap t0).topic) :
    s.topics = [(s.tableHeap t0).topic]
      ∧ (s.topicHeap (s.tableHeap t0).topic).m = 2
      ∧ (s.topicHeap (s.tableHeap t0).topic).n = (corpus.N : Nat) := by
  have hlen : s.restaurants.length = 2 := by rw [hG.inv.1.lenR, hG.dEq, hD]
  have hall := two_restaurants s t0 t1 hlen h0 h1
  have ht0 : t0 ∈ s.allTables := by rw [hall]; simp
  have hBin := hG.inv.2.topicIn t0 ht0
  have hts : ∀ (k : Nat) (F : Table → Int), tsum s.tableHeap ↑s.allTables k F
      = (if (s.tableHeap t0).topic = k then F (s.tableHeap t0) else 0)
        + (if (s.tableHeap t0).topic = k then F (s.tableHeap t1) else 0) := by
    intro k F
    rw [hall, tsum_coe, List.filter_cons, List.filter_cons, List.filter_nil, hB]
    by_cases e : (s.tableHeap t0).topic = k <;> simp [e]
  have htop : s.topics = [(s.tableHeap t0).topic] := by
    apply eq_singleton_of_nodup _ _ hG.inv.2.nodupK hBin
    intro k hk
    by_contra hne
    have hpos := hG.posK (by rw [hD]; norm_num) k hk
    rw [hG.inv.2.mK k hk, hts, if_neg (fun e => hne e.symm)] at hpos
    norm_num at hpos
  refine ⟨htop, ?_, ?_⟩
  · rw [hG.inv.2.mK _ hBin, hts, if_pos rfl]
    rfl
  · rw [hG.inv.2.nK _ hBin, hts, if_pos rfl]
    have s0 := hG.tables_sum 0 (by rw [hD]; norm_num)
    have s1 := hG.tables_sum 1 (by rw [hD]; norm_num)
    rw [h0, (hG.rest 0).1] at s0
    rw [h1, (hG.rest 1).1] at s1
    simp only [List.map_cons, List.map_nil, List.sum_cons, List.sum_nil, add_zero] at s0 s1
    rw [s0, s1]
    obtain ⟨a, b, hab⟩ := List.length_eq_two.mp (show corpus.documents.length = 2 from hD)
    unfold Corpus.N
    rw [hab]
    simp

/-! ### Every restaurant keeps a table -/

theorem rest_of_set (s s1 : HdpLda) (j j1 : Nat) (r : Restaurant)
    (h : s1.restaurants = s.restaurants.set j r) (hne : j1 ≠ j) : s1.rest j1 = s.rest j1 := by
  unfold HdpLda.rest
  rw [h, getD_set_rest, if_neg (fun e => hne e.1)]

theorem unseat_other (s : HdpLda) (j i j1 : Nat) (hne : j1 ≠ j) :
    (unseat s j i).rest j1 = s.rest j1 := by
  unfold unseat
  by_cases hn : ((decrementCounts s ((s.rest j).customers.getD i ⟨0, 0⟩).table
      ((s.rest j).customers.getD i ⟨0, 0⟩).word).tableHeap
        ((s.rest j).customers.getD i ⟨0, 0⟩).table).n = 0
  · exact rest_of_set (decrementCounts s _ _) _ j j1 _ (removeEmptyTable_restaurants _ j _ hn) hne
  · rw [removeEmptyTable_of_ne _ j _ hn]
    rfl

theorem seat_other (s2 : HdpLda) (j i v t j1 : Nat) (hne : j1 ≠ j) :
    (seat s2 j i v t).rest j1 = s2.rest j1 :=
  rest_of_set (incrementCounts s2 t v) _ j j1 _ rfl hne

theorem addTable_other (s : HdpLda) (j k j1 : Nat) (hne : j1 ≠ j) :
    (addTable s j k).1.rest j1 = s.rest j1 :=
  rest_of_set s _ j j1 _ rfl hne

theorem seatDraw_other (s2 : HdpLda) (j i v : Nat) (G0_sum : ℚ) (G0_vk0 : List ℚ) (g : Rng)
    (j1 : Nat) (hne : j1 ≠ j) :
    (seatDraw s2 j i v G0_sum G0_vk0 g).1.rest j1 = s2.rest j1 := by
  rw [seatDraw_eq]
  split
  · exact seat_other s2 j i v _ j1 hne
  · show (seat _ j i v _).rest j1 = _
    rw [seat_other _ j i v _ j1 hne, addTable_other _ j _ j1 hne]
    unfold HdpLda.rest
    rw [(pickTopic_frame s2 _ _).1]

theorem sampleTablesStep_other (s : HdpLda) (j i : Nat) (g : Rng) (j1 : Nat) (hne : j1 ≠ j) :
    (sampleTablesStep s j i g).1.rest j1 = s.rest j1 := by
  rw [sampleTablesStep_eq, seatDraw_other _ j i _ _ _ g j1 hne]
  exact unseat_other s j i j1 hne

theorem sampleTablesStep_tabNe (s : HdpLda) (j i : Nat) (g : Rng) (hI : Inv s) (hj : j < s.D)
    (hi : i < (s.rest j).customers.length) (h : TabNe s) : TabNe (sampleTablesStep s j i g).1 := by
  have hS := sampleTablesStep_spec s j i g hI hj hi
  intro j1 hj1
  by_cases e : j1 = j
  · subst e
    have hlen := length_of_Shape hS.2.2.2.1 j1
    have hpos : 0 < ((sampleTablesStep s j1 i g).1.rest j1).customers.length := by
      rw [hlen]; exact lt_of_le_of_lt (Nat.zero_le i) hi
    obtain ⟨c, hc⟩ := List.exists_mem_of_length_pos hpos
    have hcs : c ∈ (sampleTablesStep s j1 i g).1.seated j1 := hc
    exact List.ne_nil_of_mem (hS.1.1.seatIn j1 hj1 c hcs).1
  · rw [sampleTablesStep_other s j i g j1 e]
    exact h j1 (hS.2.1 ▸ hj1)

theorem sampleTables_tabNe (s : HdpLda) (g : Rng) (hI : Inv s) (h : TabNe s) :
    TabNe (sampleTables s g).1 := by
  have key : Step s (sampleTables s g).1 ∧ TabNe (sampleTables s g).1 := by
    unfold sampleTables
    apply foldl_invariant (fun p : HdpLda × Rng => Step s p.1 ∧ TabNe p.1)
    · exact ⟨Step.refl hI, h⟩
    · intro p j hj hp
      rw [List.mem_range] at hj
      have hjp : j < p.1.D := hp.1.2.1 ▸ hj
      have key2 : Step p.1 (sampleTablesRestaurant p.1 j p.2).1
          ∧ TabNe (sampleTablesRestaurant p.1 j p.2).1 := by
        unfold sampleTablesRestaurant
        apply foldl_invariant (fun q : HdpLda × Rng => Step p.1 q.1 ∧ TabNe q.1)
        · exact ⟨Step.refl hp.1.1, hp.2⟩
        · intro q i hi hq
          rw [List.mem_range] at hi
          have hjq : j < q.1.D := hq.1.2.1 ▸ hjp
          have hiq : i < (q.1.rest j).customers.length := by
            rw [length_of_Shape hq.1.2.2.2.1 j]; exact hi
          exact ⟨Step.trans hq.1 (sampleTablesStep_spec q.1 j i q.2 hq.1.1 hjq hiq),
            sampleTablesStep_tabNe q.1 j i q.2 hq.1.1 hjq hiq hq.2⟩
      exact ⟨Step.trans hp.1 key2.1, key2.2⟩
  exact key.2

theorem TabNe.of_restaurants {s s1 : HdpLda} (h : TabNe s) (hD : s1.D = s.D)
    (hr : s1.restaurants = s.restaurants) : TabNe s1 := by
  intro j hj
  unfold HdpLda.rest
  rw [hr]
  exact h j (hD ▸ hj)

theorem reachable_tabNe (corpus : Corpus) (s : HdpLda) (h : Reachable corpus s) : TabNe s := by
  induction h with
  | init gamma alpha0 beta K gamma_a gamma_b alpha0_a alpha0_b s h =>
    have hP := init_some corpus gamma alpha0 beta K gamma_a gamma_b alpha0_a alpha0_b s h
    intro j hj
    obtain ⟨t, _, _, h3⟩ := hP.fresh j (hP.dEq ▸ hj)
    rw [h3]
    exact List.cons_ne_nil _ _
  | tables s g hr ih => exact sampleTables_tabNe s g (reachable_good corpus s hr).inv ih
  | topics L s g hr ih =>
    have hS := sampleTopics_spec L s g (reachable_good corpus s hr).inv
    exact ih.of_restaurants hS.1.2.1 hS.2
  | sweep L s g hr ih =>
    have hG1 := reachable_good corpus _ (Reachable.tables s g hr)
    have h1 := sampleTables_tabNe s g (reachable_good corpus s hr).inv ih
    have hS := sampleTopics_spec L _ (sampleTables s g).2 hG1.inv
    exact (h1.of_restaurants hS.1.2.1 hS.2).of_restaurants rfl rfl
  | gamma s x _ ih => exact ih.of_restaurants rfl rfl
  | alpha0 s x _ ih => exact ih.of_restaurants rfl rfl

/-! ### Rows of theta -/

theorem sum_set_add (l : List ℚ) (k : Nat) (x : ℚ) (hk : k < l.length) :
    (l.set k (l.getD k 0 + x)).sum = l.sum + x := by
  induction l generalizing k with
  | nil => simp at hk
  | cons a l ih =>
    cases k with
    | zero => simp; ring
    | succ k =>
      rw [List.set_cons_succ, List.getD_cons_succ, List.sum_cons, List.sum_cons,
        ih k (by simpa using hk)]
      ring

theorem thetaCounts_sum (s : HdpLda) (tables : List Nat) (acc : List ℚ)
    (hlen : acc.length = s.topics.length)
    (hin : ∀ t ∈ tables, (s.tableHeap t).topic ∈ s.topics) :
    (tables.foldl (fun th t =>
        th.set (s.topics.indexOf (s.tableHeap t).topic)
          (th.getD (s.topics.indexOf (s.tableHeap t).topic) 0 + ((s.tableHeap t).n : ℚ)))
      acc).sum = acc.sum + (tables.map (fun t => ((s.tableHeap t).n : ℚ))).sum
    ∧ (tables.foldl (fun th t =>
        th.set (s.topics.indexOf (s.tableHeap t).topic)
          (th.getD (s.topics.indexOf (s.tableHeap t).topic) 0 + ((s.tableHeap t).n : ℚ)))
      acc).length = s.topics.length := by
  induction tables generalizing acc with
  | nil => simp [hlen]
  | cons t ts ih =>
    have hti := hin t (List.mem_cons_self _ _)
    have hlt : s.topics.indexOf (s.tableHeap t).topic < acc.length := by
      rw [hlen]; exact List.indexOf_lt_length.mpr hti
    rw [List.foldl_cons]
    obtain ⟨h1, h2⟩ := ih (acc.set (s.topics.indexOf (s.tableHeap t).topic)
        (acc.getD (s.topics.indexOf (s.tableHeap t).topic) 0 + ((s.tableHeap t).n : ℚ)))
      (by rw [List.length_set]; exact hlen)
      (fun t1 h1 => hin t1 (List.mem_cons_of_mem _ h1))
    refine ⟨?_, h2⟩
    rw [h1, sum_set_add _ _ _ hlt, List.map_cons, List.sum_cons]
    ring

theorem sum_range_getD_rat (l : List ℚ) :
    ((List.range l.length).map (fun k => l.getD k 0)).sum = l.sum := by
  induction l using List.reverseRecOn with
  | nil => rfl
  | append_singleton l a ih =>
    rw [List.length_append, List.length_singleton, List.range_succ, List.map_append,
      List.sum_append, List.sum_append, List.map_singleton, List.sum_singleton,
      List.sum_singleton]
    congr 1
    · rw [← ih]
      congr 1
      apply List.map_congr_left
      intro v hv
      rw [List.mem_range] at hv
      rw [List.getD_append _ _ _ _ hv]
    · rw [List.getD_append_right _ _ _ _ (le_refl _)]
      simp

theorem map_range_getD (l : List Nat) (f : Nat → ℚ) :
    (List.range l.length).map (fun k => f (l.getD k 0)) = l.map f := by
  apply List.ext_getElem
  · simp
  · intro i h1 h2
    have hi : i < l.length := by simpa using h2
    rw [List.getElem_map, List.getElem_map, List.getElem_range, List.getD_eq_getElem _ _ hi]

theorem sum_range_affine (K : Nat) (f g : Nat → ℚ) (a b c d : ℚ) :
    ((List.range K).map (fun k => (g k + a * (f k + b) / c) / d)).sum
      = (((List.range K).map g).sum + a * (((List.range K).map f).sum + (K : ℚ) * b) / c) / d := by
  induction K with
  | zero => simp
  | succ K ih =>
    simp only [List.range_succ, List.map_append, List.sum_append, List.map_singleton,
      List.sum_singleton]
    rw [ih]
    push_cast
    ring

theorem sum_topic_m (s : HdpLda) (hT : TInv s ↑s.allTables) :
    (s.topics.map (fun k => ((s.topicHeap k).m : ℚ))).sum = (s.m : ℚ) := by
  have h1 : s.topics.map (fun k => (s.topicHeap k).m)
      = s.topics.map (fun k => tsum s.tableHeap ↑s.allTables k (fun _ => 1)) :=
    List.map_congr_left (fun k hk => hT.mK k hk)
  have h2 : (s.topics.map (fun k => (s.topicHeap k).m)).sum = s.m := by
    rw [h1, sum_tsum_one _ _ _ hT.nodupK hT.topicIn, hT.mTot]
  rw [← h2]
  push_cast
  rw [List.map_map]
  rfl

/-- C20. In every state reached from construction by calls of `sampleTables` /
`sampleTopics`, with `alpha0 > 0` and `gamma > 0`, each row of the matrix returned by
`calcTheta` sums to exactly 1 in exact arithmetic: for every document `j` the sum over the
topics of `theta[j][k]` is 1. -/
theorem calcTheta_rows_sum_to_one (corpus : Corpus) (s : HdpLda) (h : Reachable corpus s)
    (ha : 0 < s.alpha0) (hg : 0 < s.gamma) :
    ∀ j, j < s.D → ((calcTheta s).getD j []).sum = 1 := by
  intro j hj
  have hG := reachable_good corpus s h
  have hne := reachable_tabNe corpus s h j hj
  have hin : ∀ t ∈ (s.rest j).tables, (s.tableHeap t).topic ∈ s.topics :=
    fun t ht => hG.inv.2.topicIn t (hG.inv.1.mem_all hj ht)
  have hK : 0 < s.topics.length := by
    obtain ⟨t, ht⟩ := List.exists_mem_of_ne_nil _ hne
    exact List.length_pos_of_mem (hin t ht)
  have hKq : (s.topics.length : ℚ) ≠ 0 := by exact_mod_cast (ne_of_gt hK)
  have hrow : (calcTheta s).getD j [] = (List.range s.topics.length).map (fun k =>
      ((thetaCounts s (s.rest j).tables).getD k 0
        + s.alpha0 * (((s.topicHeap (s.topics.getD k 0)).m : ℚ)
            + s.gamma / (s.topics.length : ℚ)) / ((s.m : ℚ) + s.gamma))
      / (((s.rest j).n : ℚ) + s.alpha0)) := by
    unfold calcTheta
    dsimp only
    rw [List.getD_eq_getElem _ _ (by simpa using hj), List.getElem_map, List.getElem_range]
  obtain ⟨hsum, hlen⟩ := thetaCounts_sum s (s.rest j).tables
    (List.replicate s.topics.length 0) (by simp) hin
  have hth : ((List.range s.topics.length).map
      (fun k => (thetaCounts s (s.rest j).tables).getD k 0)).sum
      = (((s.rest j).n : Int) : ℚ) := by
    have hlen1 : (thetaCounts s (s.rest j).tables).length = s.topics.length := hlen
    have hsum1 : (thetaCounts s (s.rest j).tables).sum
        = (List.replicate s.topics.length (0 : ℚ)).sum
          + ((s.rest j).tables.map (fun t => ((s.tableHeap t).n : ℚ))).sum := hsum
    rw [← hlen1, sum_range_getD_rat, hsum1]
    have hts := hG.tables_sum j (hG.dEq ▸ hj)
    rw [← hts]
    push_cast
    rw [List.map_map]
    simp
    rfl
  have hm : ((List.range s.topics.length).map
      (fun k => ((s.topicHeap (s.topics.getD k 0)).m : ℚ))).sum = (s.m : ℚ) := by
    rw [map_range_getD s.topics (fun k => ((s.topicHeap k).m : ℚ)), sum_topic_m s hG.inv.2]
  have hm0 : (0 : ℚ) ≤ (s.m : ℚ) := by
    have : (0 : Int) ≤ s.m := by rw [hG.inv.2.mTot]; exact Int.natCast_nonneg _
    exact_mod_cast this
  have hn0 : (0 : ℚ) ≤ ((s.rest j).n : ℚ) := by
    have : (0 : Int) ≤ (s.rest j).n := by rw [(hG.rest j).1]; exact Int.natCast_nonneg _
    exact_mod_cast this
  rw [hrow, sum_range_affine, hth, hm, mul_div_cancel₀ _ hKq,
    mul_div_assoc, div_self (by linarith), mul_one, div_self (by linarith)]

/-- Witness of C20 on the state reached from scenario S1 by one sweep (`alpha0 = 1`,
`gamma = 1`). -/
theorem calcTheta_rows_sum_to_one_witness :
    Reachable exampleCorpus exampleSwept ∧ 0 < exampleSwept.alpha0 ∧ 0 < exampleSwept.gamma
      ∧ ∀ j, j < exampleSwept.D → ((calcTheta exampleSwept).getD j []).sum = 1 :=
  ⟨exampleSwept_reachable, by rw [exampleSwept_alpha0]; norm_num,
    by rw [exampleSwept_gamma]; norm_num,
    calcTheta_rows_sum_to_one exampleCorpus exampleSwept exampleSwept_reachable
      (by rw [exampleSwept_alpha0]; norm_num) (by rw [exampleSwept_gamma]; norm_num)⟩

/-! ### Parameters of the draws of the hyper-parameter sampler -/

theorem length_allTables_ge (l : List Restaurant) (h : ∀ r ∈ l, r.tables ≠ []) :
    l.length ≤ (l.flatMap Restaurant.tables).length := by
  induction l with
  | nil => simp
  | cons a l ih =>
    rw [List.flatMap_cons, List.length_append, List.length_cons]
    have h1 : 0 < a.tables.length := List.length_pos.mpr (h a (List.mem_cons_self _ _))
    have h2 := ih (fun r hr => h r (List.mem_cons_of_mem _ hr))
    omega

theorem m_ge_D (s : HdpLda) (hI : Inv s) (hT : TabNe s) : (s.D : Int) ≤ s.m := by
  rw [hI.2.mTot, Multiset.coe_card]
  have h1 : s.restaurants.length ≤ s.allTables.length := by
    apply length_allTables_ge
    intro r hr
    obtain ⟨j, hj, rfl⟩ := List.getElem_of_mem hr
    have := hT j (hI.1.lenR ▸ hj)
    unfold HdpLda.rest at this
    rw [List.getD_eq_getElem _ _ hj] at this
    exact this
  rw [hI.1.lenR] at h1
  exact_mod_cast h1

theorem alpha0Sums_bounds (L : Libm ℚ) (w : Nat → ℚ) (sb : Nat → Bool)
    (hlog : ∀ j, L.log (w j) < 0) (D : Nat) :
    ((List.range D).foldl
        (fun acc j => (acc.1 + L.log (w j), acc.2 + (if sb j then 1 else 0)))
        ((0 : ℚ), (0 : ℚ))).1 ≤ 0
      ∧ ((List.range D).foldl
        (fun acc j => (acc.1 + L.log (w j), acc.2 + (if sb j then 1 else 0)))
        ((0 : ℚ), (0 : ℚ))).2 ≤ (D : ℚ) := by
  induction D with
  | zero => simp
  | succ D ih =>
    rw [List.range_succ, List.foldl_append]
    obtain ⟨h1, h2⟩ := ih
    have h3 := hlog D
    refine ⟨?_, ?_⟩
    · show _ + L.log (w D) ≤ 0
      linarith
    · show _ + (if sb D then (1 : ℚ) else 0) ≤ ((D + 1 : Nat) : ℚ)
      push_cast
      split <;> linarith

theorem sampleGamma_well_formed (L : Libm ℚ) (corpus : Corpus) (s : HdpLda)
    (hlog : ∀ y : ℚ, 0 < y → y < 1 → L.log y < 0)
    (h : Reachable corpus s) (hD : 1 ≤ corpus.D)
    (hg : 0 < s.gamma) (hga : 0 < s.gamma_a) (hgb : 0 < s.gamma_b)
    (eta : ℚ) (pi : Bool) (x : ℚ) (h0 : 0 < eta) (h1 : eta < 1) :
    0 < (sampleGamma L s eta pi x).2.betaAlpha ∧ 0 < (sampleGamma L s eta pi x).2.betaBeta
      ∧ 0 < (sampleGamma L s eta pi x).2.p_pi ∧ (sampleGamma L s eta pi x).2.p_pi < 1
      ∧ 0 < (sampleGamma L s eta pi x).2.shape ∧ 0 < (sampleGamma L s eta pi x).2.scale := by
  have hG := reachable_good corpus s h
  have hT := reachable_tabNe corpus s h
  have hDs : 1 ≤ s.D := hG.dEq ▸ hD
  have hm : (1 : ℚ) ≤ (s.m : ℚ) := by
    have := m_ge_D s hG.inv hT
    have h2 : (1 : Int) ≤ s.m := le_trans (by exact_mod_cast hDs) this
    exact_mod_cast h2
  have hK : (1 : ℚ) ≤ (s.topics.length : ℚ) := by
    obtain ⟨t, ht⟩ := List.exists_mem_of_ne_nil _ (hT 0 hDs)
    have hk := hG.inv.2.topicIn t (hG.inv.1.mem_all hDs ht)
    have : 1 ≤ s.topics.length := List.length_pos_of_mem hk
    exact_mod_cast this
  have hl := hlog eta h0 h1
  have hden : 0 < s.gamma_b - L.log eta := by linarith
  have hnum : 0 < s.gamma_a + (s.topics.length : ℚ) - 1 := by linarith
  have hmd : 0 < (s.m : ℚ) * (s.gamma_b - L.log eta) := mul_pos (by linarith) hden
  refine ⟨?_, ?_, ?_, ?_, ?_, ?_⟩
  · show 0 < s.gamma + 1
    linarith
  · show 0 < (s.m : ℚ)
    linarith
  · show 0 < (s.gamma_a + (s.topics.length : ℚ) - 1)
      / (s.gamma_a + (s.topics.length : ℚ) - 1 + (s.m : ℚ) * (s.gamma_b - L.log eta))
    exact div_pos hnum (by linarith)
  · show (s.gamma_a + (s.topics.length : ℚ) - 1)
      / (s.gamma_a + (s.topics.length : ℚ) - 1 + (s.m : ℚ) * (s.gamma_b - L.log eta)) < 1
    rw [div_lt_one (by linarith)]
    linarith
  · show 0 < (if pi = true then s.gamma_a + (s.topics.length : ℚ)
      else s.gamma_a + (s.topics.length : ℚ) - 1)
    split <;> linarith
  · show 0 < 1 / (s.gamma_b - L.log eta)
    exact one_div_pos.mpr hden

theorem sampleAlpha0Params_well_formed (L : Libm ℚ) (corpus : Corpus) (s : HdpLda)
    (hlog : ∀ y : ℚ, 0 < y → y < 1 → L.log y < 0)
    (h : Reachable corpus s) (hne : ∀ doc ∈ corpus.documents, doc ≠ [])
    (ha : 0 < s.alpha0) (haa : 0 < s.alpha0_a) (hab : 0 < s.alpha0_b)
    (w : Nat → ℚ) (sb : Nat → Bool) (hw : ∀ j, 0 < w j ∧ w j < 1) :
    0 < (sampleAlpha0Params L s w sb).betaAlpha
      ∧ (sampleAlpha0Params L s w sb).betaBeta.length = s.D
      ∧ (∀ x ∈ (sampleAlpha0Params L s w sb).betaBeta, 0 < x)
      ∧ (∀ x ∈ (sampleAlpha0Params L s w sb).p_s, 0 < x ∧ x < 1)
      ∧ s.alpha0_a ≤ (sampleAlpha0Params L s w sb).shape
      ∧ 0 < (sampleAlpha0Params L s w sb).shape
      ∧ 0 < (sampleAlpha0Params L s w sb).scale := by
  have hG := reachable_good corpus s h
  have hT := reachable_tabNe corpus s h
  have hmD : (s.D : ℚ) ≤ (s.m : ℚ) := by exact_mod_cast m_ge_D s hG.inv hT
  obtain ⟨b1, b2⟩ := alpha0Sums_bounds L w sb (fun j => hlog (w j) (hw j).1 (hw j).2) s.D
  have hn : ∀ j, j < s.D → (0 : ℚ) < ((s.rest j).n : ℚ) := by
    intro j hj
    have hjc : j < corpus.documents.length := by
      have h2 : j < corpus.D := hG.dEq ▸ hj
      exact h2
    have hdoc : corpus.documents.getD j [] ≠ [] := by
      apply hne
      rw [List.getD_eq_getElem _ _ hjc]
      exact List.getElem_mem hjc
    have hpos : 0 < (corpus.documents.getD j []).length := List.length_pos.mpr hdoc
    rw [(hG.rest j).1]
    exact_mod_cast hpos
  have hshape : s.alpha0_a ≤ s.alpha0_a + (s.m : ℚ) - (alpha0Sums L s w sb).2 := by
    have : (alpha0Sums L s w sb).2 ≤ (s.D : ℚ) := b2
    linarith
  refine ⟨?_, ?_, ?_, ?_, hshape, lt_of_lt_of_le haa hshape, ?_⟩
  · show 0 < s.alpha0 + 1
    linarith
  · show ((List.range s.D).map _).length = s.D
    simp
  · intro x hx
    have hx' : x ∈ (List.range s.D).map (fun j => ((s.rest j).n : ℚ)) := hx
    rw [List.mem_map] at hx'
    obtain ⟨j, hj, rfl⟩ := hx'
    exact hn j (List.mem_range.mp hj)
  · intro x hx
    have hx' : x ∈ (List.range s.D).map
        (fun j => ((s.rest j).n : ℚ) / (s.alpha0 + ((s.rest j).n : ℚ))) := hx
    rw [List.mem_map] at hx'
    obtain ⟨j, hj, rfl⟩ := hx'
    have hnj := hn j (List.mem_range.mp hj)
    refine ⟨div_pos hnj (by linarith), ?_⟩
    rw [div_lt_one (by linarith)]
    linarith
  · show 0 < 1 / (s.alpha0_b - (alpha0Sums L s w sb).1)
    have : (alpha0Sums L s w sb).1 ≤ 0 := b1
    exact one_div_pos.mpr (by linarith)

theorem sampleAlpha0_well_formed (L : Libm ℚ) (corpus : Corpus)
    (hlog : ∀ y : ℚ, 0 < y → y < 1 → L.log y < 0)
    (hne : ∀ doc ∈ corpus.documents, doc ≠ [])
    (draws : List ((Nat → ℚ) × (Nat → Bool) × ℚ)) (s : HdpLda)
    (h : Reachable corpus s) (ha : 0 < s.alpha0) (haa : 0 < s.alpha0_a) (hab : 0 < s.alpha0_b)
    (hd : ∀ d ∈ draws, (∀ j, 0 < d.1 j ∧ d.1 j < 1) ∧ 0 < d.2.2) :
    (sampleAlpha0 L s draws).2.length = draws.length
      ∧ ∀ p ∈ (sampleAlpha0 L s draws).2,
        0 < p.betaAlpha ∧ p.betaBeta.length = s.D ∧ (∀ x ∈ p.betaBeta, 0 < x)
          ∧ (∀ x ∈ p.p_s, 0 < x ∧ x < 1)
          ∧ s.alpha0_a ≤ p.shape ∧ 0 < p.shape ∧ 0 < p.scale := by
  induction draws generalizing s with
  | nil => exact ⟨rfl, fun p hp => absurd hp (List.not_mem_nil p)⟩
  | cons d draws ih =>
    obtain ⟨hw, hx⟩ := hd d (List.mem_cons_self _ _)
    obtain ⟨i1, i2⟩ := ih (assignAlpha0 s d.2.2) (Reachable.alpha0 s d.2.2 h) hx haa hab
      (fun d1 h1 => hd d1 (List.mem_cons_of_mem _ h1))
    have e : (sampleAlpha0 L s (d :: draws)).2
        = sampleAlpha0Params L s d.1 d.2.1 :: (sampleAlpha0 L (assignAlpha0 s d.2.2) draws).2 :=
      rfl
    rw [e]
    refine ⟨by rw [List.length_cons, i1, List.length_cons], ?_⟩
    intro p hp
    rw [List.mem_cons] at hp
    rcases hp with rfl | hp
    · exact sampleAlpha0Params_well_formed L corpus s hlog h hne ha haa hab d.1 d.2.1 hw
    · exact i2 p hp

/-- C19. The concentration resamplers only draw from well-formed distributions: in every
state reachable from construction on a corpus with `D ≥ 1` non-empty documents, with
`gamma`, `alpha0` and the prior parameters `gamma_a`, `gamma_b`, `alpha0_a`, `alpha0_b` all
`> 0` (and `log y < 0` for `0 < y < 1`), for every auxiliary Beta value in `(0,1)` and
every Bernoulli outcome: in `sampleGamma` the Beta parameters `gamma + 1` and `m` are
`> 0`, the Bernoulli probability lies in `(0,1)`, and shape and scale are `> 0`; in every
iteration of `sampleAlpha0` (each Gamma draw returning a value `> 0`) the Beta parameters
`alpha0 + 1` and `n_j` are `> 0`, the Bernoulli probabilities lie in `(0,1)`, the shape
`alpha0_a + m - sum_j s_j` is `≥ alpha0_a > 0`, because `m ≥ D`, and the scale
`1 / (alpha0_b - sum_j log w_j)` is `> 0`. -/
theorem concentration_draws_well_formed (L : Libm ℚ) (corpus : Corpus) (s : HdpLda)
    (hlog : ∀ y : ℚ, 0 < y → y < 1 → L.log y < 0)
    (h : Reachable corpus s) (hD : 1 ≤ corpus.D) (hne : ∀ doc ∈ corpus.documents, doc ≠ [])
    (hg : 0 < s.gamma) (ha : 0 < s.alpha0) (hga : 0 < s.gamma_a) (hgb : 0 < s.gamma_b)
    (haa : 0 < s.alpha0_a) (hab : 0 < s.alpha0_b) :
    (∀ (eta : ℚ) (pi : Bool) (x : ℚ), 0 < eta → eta < 1 →
        (sampleGamma L s eta pi x).2.betaAlpha = s.gamma + 1
          ∧ (sampleGamma L s eta pi x).2.betaBeta = (s.m : ℚ)
          ∧ 0 < (sampleGamma L s eta pi x).2.betaAlpha
          ∧ 0 < (sampleGamma L s eta pi x).2.betaBeta
          ∧ 0 < (sampleGamma L s eta pi x).2.p_pi ∧ (sampleGamma L s eta pi x).2.p_pi < 1
          ∧ 0 < (sampleGamma L s eta pi x).2.shape ∧ 0 < (sampleGamma L s eta pi x).2.scale)
      ∧ (∀ draws : List ((Nat → ℚ) × (Nat → Bool) × ℚ),
          (∀ d ∈ draws, (∀ j, 0 < d.1 j ∧ d.1 j < 1) ∧ 0 < d.2.2) →
          (sampleAlpha0 L s draws).2.length = draws.length
            ∧ ∀ p ∈ (sampleAlpha0 L s draws).2,
              0 < p.betaAlpha ∧ p.betaBeta.length = s.D ∧ (∀ x ∈ p.betaBeta, 0 < x)
                ∧ (∀ x ∈ p.p_s, 0 < x ∧ x < 1)
                ∧ s.alpha0_a ≤ p.shape ∧ 0 < p.shape ∧ 0 < p.scale)
      ∧ (s.D : Int) ≤ s.m := by
  refine ⟨?_, ?_, m_ge_D s (reachable_good corpus s h).inv (reachable_tabNe corpus s h)⟩
  · intro eta pi x h0 h1
    exact ⟨rfl, rfl, sampleGamma_well_formed L corpus s hlog h hD hg hga hgb eta pi x h0 h1⟩
  · intro draws hd
    exact sampleAlpha0_well_formed L corpus hlog hne draws s h ha haa hab hd

theorem exampleLibm_log_neg : ∀ y : ℚ, 0 < y → y < 1 → exampleLibm.log y < 0 := by
  intro y _ h1
  show y - 1 < 0
  linarith

/-- Witness of C19 on the state reached from scenario S1 by one sweep, where all the
hyper-parameters and prior parameters are 1, with the stand-in libm (`log y = y - 1`). -/
theorem concentration_draws_well_formed_witness :
    (∀ y : ℚ, 0 < y → y < 1 → exampleLibm.log y < 0)
      ∧ Reachable exampleCorpus exampleSwept ∧ 1 ≤ exampleCorpus.D
      ∧ (∀ doc ∈ exampleCorpus.documents, doc ≠ [])
      ∧ exampleSwept.params = (1, 1, 1 / 10, 5, 1, 1, 1, 1)
      ∧ 0 < (sampleGamma exampleLibm exampleSwept (1 / 2) true 2).2.p_pi
      ∧ (sampleGamma exampleLibm exampleSwept (1 / 2) true 2).2.p_pi < 1
      ∧ 0 < (sampleGamma exampleLibm exampleSwept (1 / 2) true 2).2.shape
      ∧ 0 < (sampleGamma exampleLibm exampleSwept (1 / 2) true 2).2.scale
      ∧ (∀ p ∈ (sampleAlpha0 exampleLibm exampleSwept
            [(fun _ => 1 / 2, fun _ => true, 3), (fun _ => 1 / 3, fun _ => false, 2)]).2,
          exampleSwept.alpha0_a ≤ p.shape ∧ 0 < p.shape ∧ 0 < p.scale)
      ∧ (exampleSwept.D : Int) ≤ exampleSwept.m := by
  have hp := exampleSwept_params
  have hthm := concentration_draws_well_formed exampleLibm exampleCorpus exampleSwept
    exampleLibm_log_neg exampleSwept_reachable (by decide) (by decide)
    (by rw [exampleSwept_gamma]; norm_num) (by rw [exampleSwept_alpha0]; norm_num)
    (by rw [show exampleSwept.gamma_a = 1 from congrArg (fun p => p.2.2.2.2.1) hp]; norm_num)
    (by rw [show exampleSwept.gamma_b = 1 from congrArg (fun p => p.2.2.2.2.2.1) hp]; norm_num)
    (by rw [show exampleSwept.alpha0_a = 1 from congrArg (fun p => p.2.2.2.2.2.2.1) hp]; norm_num)
    (by rw [show exampleSwept.alpha0_b = 1 from congrArg (fun p => p.2.2.2.2.2.2.2) hp]; norm_num)
  have hgam := hthm.1 (1 / 2) true 2 (by norm_num) (by norm_num)
  have halp := (hthm.2.1 [(fun _ => 1 / 2, fun _ => true, 3), (fun _ => 1 / 3, fun _ => false, 2)]
    (by
      intro d hd
      simp only [List.mem_cons, List.mem_singleton, List.not_mem_nil, or_false] at hd
      rcases hd with rfl | rfl
      · exact ⟨fun _ => by norm_num, by norm_num⟩
      · exact ⟨fun _ => by norm_num, by norm_num⟩)).2
  exact ⟨exampleLibm_log_neg, exampleSwept_reachable, by decide, by decide, hp,
    hgam.2.2.2.2.1, hgam.2.2.2.2.2.1, hgam.2.2.2.2.2.2.1, hgam.2.2.2.2.2.2.2,
    fun p hp1 => ⟨(halp p hp1).2.2.2.2.1, (halp p hp1).2.2.2.2.2.1, (halp p hp1).2.2.2.2.2.2⟩,
    hthm.2.2⟩

/-! ### States between two steps -/

theorem visited_good (corpus : Corpus) (s : HdpLda) (h : Visited corpus s) : Good corpus s := by
  induction h with
  | reach s h => exact reachable_good corpus s h
  | tableStep s j i g _ hj hi ih => exact ih.of_step (sampleTablesStep_spec s j i g ih.inv hj hi)
  | topicStep L s t g _ ht ih => exact ih.of_step (sampleTopicsStep_spec L s t g ih.inv ht).1

theorem Single.hpos {s : HdpLda} {j v : Nat} (h : Single s j v) (hI : Inv s) (hj : j < s.D) :
    ∀ t ∈ (s.rest j).tables, (s.tableHeap t).n ≠ 0 := by
  obtain ⟨t, hc, ht⟩ := h
  intro t1 ht1
  rw [hI.1.nT j hj t1 ht1]
  unfold HdpLda.seated
  rw [ht, List.mem_singleton] at ht1
  rw [hc, Multiset.coe_countP, List.countP_singleton, ht1]
  simp

theorem sampleTablesStep_single (s : HdpLda) (j v j1 i : Nat) (g : Rng) (hI : Inv s)
    (hj : j < s.D) (hj1 : j1 < s.D) (hi : i < (s.rest j1).customers.length)
    (h : Single s j v) : Single (sampleTablesStep s j1 i g).1 j v := by
  by_cases e : j = j1
  · subst e
    obtain ⟨t, hc, ht⟩ := h
    have hi0 : i = 0 := by rw [hc] at hi; simpa using hi
    subst hi0
    obtain ⟨_, _, a3, _, _, a6, _, _⟩ := single_customer_step s j ⟨v, t⟩ g hI hj hc
      (Single.hpos ⟨t, hc, ht⟩ hI hj)
    exact ⟨s.nextTable, a6, a3⟩
  · unfold Single
    rw [sampleTablesStep_other s j1 i g j e]
    exact h

theorem sampleTables_single (s : HdpLda) (j v : Nat) (g : Rng) (hI : Inv s) (hj : j < s.D)
    (h : Single s j v) : Single (sampleTables s g).1 j v := by
  have key : Step s (sampleTables s g).1 ∧ Single (sampleTables s g).1 j v := by
    unfold sampleTables
    apply foldl_invariant (fun p : HdpLda × Rng => Step s p.1 ∧ Single p.1 j v)
    · exact ⟨Step.refl hI, h⟩
    · intro p j1 hj1 hp
      rw [List.mem_range] at hj1
      have hjp : j1 < p.1.D := hp.1.2.1 ▸ hj1
      have key2 : Step p.1 (sampleTablesRestaurant p.1 j1 p.2).1
          ∧ Single (sampleTablesRestaurant p.1 j1 p.2).1 j v := by
        unfold sampleTablesRestaurant
        apply foldl_invariant (fun q : HdpLda × Rng => Step p.1 q.1 ∧ Single q.1 j v)
        · exact ⟨Step.refl hp.1.1, hp.2⟩
        · intro q i hi hq
          rw [List.mem_range] at hi
          have hjq : j1 < q.1.D := hq.1.2.1 ▸ hjp
          have hiq : i < (q.1.rest j1).customers.length := by
            rw [length_of_Shape hq.1.2.2.2.1 j1]; exact hi
          exact ⟨Step.trans hq.1 (sampleTablesStep_spec q.1 j1 i q.2 hq.1.1 hjq hiq),
            sampleTablesStep_single q.1 j v j1 i q.2 hq.1.1
              (hq.1.2.1 ▸ hp.1.2.1 ▸ hj) hjq hiq hq.2⟩
      exact ⟨Step.trans hp.1 key2.1, key2.2⟩
  exact key.2

theorem Single.of_same_restaurants {s s1 : HdpLda} {j v : Nat} (h : Single s j v)
    (hr : s1.restaurants = s.restaurants) : Single s1 j v := by
  unfold Single HdpLda.rest
  rw [hr]
  exact h

theorem reachable_single (corpus : Corpus) (s : HdpLda) (j v : Nat) (h : Reachable corpus s)
    (hj : j < corpus.D) (hdoc : corpus.documents.getD j [] = [v]) : Single s j v := by
  induction h with
  | init gamma alpha0 beta K gamma_a gamma_b alpha0_a alpha0_b s h =>
    have hP := init_some corpus gamma alpha0 beta K gamma_a gamma_b alpha0_a alpha0_b s h
    obtain ⟨t, h1, _, h3⟩ := hP.fresh j hj
    rw [hdoc] at h1
    exact ⟨t, h1, h3⟩
  | tables s g hr ih =>
    have hG := reachable_good corpus s hr
    exact sampleTables_single s j v g hG.inv (hG.dEq ▸ hj) ih
  | topics L s g hr ih =>
    exact ih.of_same_restaurants (sampleTopics_spec L s g (reachable_good corpus s hr).inv).2
  | sweep L s g hr ih =>
    have hG := reachable_good corpus s hr
    have hG1 := reachable_good corpus _ (Reachable.tables s g hr)
    have h1 := sampleTables_single s j v g hG.inv (hG.dEq ▸ hj) ih
    have hS := sampleTopics_spec L _ (sampleTables s g).2 hG1.inv
    exact (h1.of_same_restaurants hS.2).of_same_restaurants rfl
  | gamma s x _ ih => exact ih.of_same_restaurants rfl
  | alpha0 s x _ ih => exact ih.of_same_restaurants rfl

theorem visited_single (corpus : Corpus) (s : HdpLda) (j v : Nat) (h : Visited corpus s)
    (hj : j < corpus.D) (hdoc : corpus.documents.getD j [] = [v]) : Single s j v := by
  induction h with
  | reach s h => exact reachable_single corpus s j v h hj hdoc
  | tableStep s j1 i g hv hj1 hi ih =>
    have hG := visited_good corpus s hv
    exact sampleTablesStep_single s j v j1 i g hG.inv (hG.dEq ▸ hj) hj1 hi ih
  | topicStep L s t g hv ht ih =>
    have hG := visited_good corpus s hv
    exact ih.of_same_restaurants (sampleTopicsStep_spec L s t g hG.inv ht).2

/-- C16. Empty-table removal in `sampleTables`: for a restaurant `j` whose document has
exactly one token `v`, in every state in which a step can start and for every stream of
uniform draws, the restaurant has one table `t`, where its customer sits; the customer's
step removes `t` from the restaurant (the table list is empty in the middle of the step),
seats the customer at a newly created table (a table identity not in use before,
different from `t`), and leaves the restaurant with exactly that one table, with `n = 1`,
and the franchise table counter `m` at its value before the step. -/
theorem single_token_customer_moves_to_new_table (corpus : Corpus) (s : HdpLda) (j v : Nat)
    (g : Rng) (h : Visited corpus s) (hj : j < corpus.D)
    (hdoc : corpus.documents.getD j [] = [v]) :
    ∃ t, (s.rest j).customers = [⟨v, t⟩] ∧ (s.rest j).tables = [t]
      ∧ ((unseat s j 0).rest j).tables = []
      ∧ ((sampleTablesStep s j 0 g).1.rest j).tables = [s.nextTable]
      ∧ s.nextTable ≠ t ∧ s.nextTable ∉ s.allTables
      ∧ ((sampleTablesStep s j 0 g).1.rest j).customers = [⟨v, s.nextTable⟩]
      ∧ ((sampleTablesStep s j 0 g).1.tableHeap s.nextTable).n = 1
      ∧ (sampleTablesStep s j 0 g).1.m = s.m := by
  have hG := visited_good corpus s h
  have hjs : j < s.D := hG.dEq ▸ hj
  obtain ⟨t, hc, ht⟩ := visited_single corpus s j v h hj hdoc
  obtain ⟨_, a2, a3, a4, a5, a6, a7, a8⟩ := single_customer_step s j ⟨v, t⟩ g hG.inv hjs hc
    (Single.hpos ⟨t, hc, ht⟩ hG.inv hjs)
  exact ⟨t, hc, ht, a2, a3, a4, a5, a6, a7, a8⟩

/-- Witness of C16 on the single-token corpus (scenario S2), in the state right after
construction and in the state after one call of `sampleTables`: the customer leaves its
table and is seated at the new table (`0` then `1`, `1` then `2`), and `m` stays 1. -/
theorem single_token_customer_moves_to_new_table_witness :
    Visited singleTokenCorpus singleTokenState ∧ 0 < singleTokenCorpus.D
      ∧ singleTokenCorpus.documents.getD 0 [] = [0]
      ∧ (singleTokenState.rest 0).tables = [0] ∧ singleTokenState.nextTable = 1
      ∧ singleTokenState.m = 1
      ∧ ((sampleTablesStep singleTokenState 0 0 exampleRng).1.rest 0).tables = [1]
      ∧ (sampleTablesStep singleTokenState 0 0 exampleRng).1.m = 1
      ∧ (∃ t, (singleTokenState.rest 0).customers = [⟨0, t⟩]
        ∧ (singleTokenState.rest 0).tables = [t]
        ∧ ((unseat singleTokenState 0 0).rest 0).tables = []
        ∧ ((sampleTablesStep singleTokenState 0 0 exampleRng).1.rest 0).tables
          = [singleTokenState.nextTable]
        ∧ singleTokenState.nextTable ≠ t
        ∧ singleTokenState.nextTable ∉ singleTokenState.allTables
        ∧ ((sampleTablesStep singleTokenState 0 0 exampleRng).1.rest 0).customers
          = [⟨0, singleTokenState.nextTable⟩]
        ∧ ((sampleTablesStep singleTokenState 0 0 exampleRng).1.tableHeap
            singleTokenState.nextTable).n = 1
        ∧ (sampleTablesStep singleTokenState 0 0 exampleRng).1.m = singleTokenState.m)
      ∧ ((sampleTablesStep (sampleTables singleTokenState exampleRng).1 0 0
          zeroRng).1.rest 0).tables = [(sampleTables singleTokenState exampleRng).1.nextTable] :=
  ⟨Visited.reach _ (Reachable.init _ _ _ _ _ _ _ _ _ singleTokenState_init),
    by decide, by decide, by decide, by decide, by decide, by decide!, by decide!,
    single_token_customer_moves_to_new_table singleTokenCorpus singleTokenState 0 0 exampleRng
      (Visited.reach _ (Reachable.init _ _ _ _ _ _ _ _ _ singleTokenState_init))
      (by decide) (by decide),
    (single_token_customer_moves_to_new_table singleTokenCorpus
      (sampleTables singleTokenState exampleRng).1 0 0 zeroRng
      (Visited.reach _ (Reachable.tables _ _
        (Reachable.init _ _ _ _ _ _ _ _ _ singleTokenState_init)))
      (by decide) (by decide)).elim (fun _ h => h.2.2.2.1)⟩

/-- C15. Orphan-topic removal in `sampleTopics`. First part: in every state in which a step
can start, whenever the table `t` being processed is the only table of the franchise
serving its topic `A`, `A` is removed from the topic list before the weights are computed
(it is not in the list of `detach s t`), the table ends the step serving a topic other
than `A`, and `A` is not in the topic list afterwards. Second part: for two single-table
documents both serving `A`, if a call of `sampleTopics` leaves the first table at a new
topic `B` and the second table at `B`, then after the call the franchise has exactly one
topic, `B`, `A` is gone, `m_B = 2` and `n_B` is the total token count. -/
theorem orphan_topic_removed (L : Libm ℚ) (corpus : Corpus) :
    (∀ (s : HdpLda) (t : Nat) (g : Rng), Visited corpus s → t ∈ s.allTables →
        (∀ t1 ∈ s.allTables, (s.tableHeap t1).topic = (s.tableHeap t).topic → t1 = t) →
        (s.tableHeap t).topic ∈ s.topics
          ∧ (s.tableHeap t).topic ∉ (detach s t).topics
          ∧ ((sampleTopicsStep L s t g).1.tableHeap t).topic ≠ (s.tableHeap t).topic
          ∧ (s.tableHeap t).topic ∉ (sampleTopicsStep L s t g).1.topics)
      ∧ (∀ (s : HdpLda) (g : Rng) (t0 t1 : Nat), Reachable corpus s →
          corpus.D = 2 → (s.rest 0).tables = [t0] → (s.rest 1).tables = [t1] →
          (s.tableHeap t1).topic = (s.tableHeap t0).topic →
          ((sampleTopics L s g).1.tableHeap t0).topic ∉ s.topics →
          ((sampleTopics L s g).1.tableHeap t1).topic
            = ((sampleTopics L s g).1.tableHeap t0).topic →
          (sampleTopics L s g).1.topics = [((sampleTopics L s g).1.tableHeap t0).topic]
            ∧ (s.tableHeap t0).topic ∉ (sampleTopics L s g).1.topics
            ∧ ((sampleTopics L s g).1.topicHeap
                ((sampleTopics L s g).1.tableHeap t0).topic).m = 2
            ∧ ((sampleTopics L s g).1.topicHeap
                ((sampleTopics L s g).1.tableHeap t0).topic).n = (corpus.N : Nat)) := by
  refine ⟨fun s t g hv ht honly =>
    orphan_step L s t g (visited_good corpus s hv).inv ht honly, ?_⟩
  intro s g t0 t1 h hD h0 h1 _ hnew hsame
  have hGs := reachable_good corpus s h
  have hGF := reachable_good corpus _ (Reachable.topics L s g h)
  have hres := (sampleTopics_spec L s g hGs.inv).2
  have hr : ∀ j, (sampleTopics L s g).1.rest j = s.rest j := by
    intro j; unfold HdpLda.rest; rw [hres]
  obtain ⟨a1, a2, a3⟩ := all_tables_one_topic corpus _ t0 t1 hGF hD
    (by rw [hr]; exact h0) (by rw [hr]; exact h1) hsame
  refine ⟨a1, ?_, a2, a3⟩
  rw [a1, List.mem_singleton]
  intro e
  apply hnew
  rw [← e]
  apply hGs.inv.2.topicIn
  have hj0 : 0 < s.D := by rw [hGs.dEq, hD]; norm_num
  exact hGs.inv.1.mem_all hj0 (by rw [h0]; exact List.mem_singleton_self t0)

/-- Witness of C15 on scenario S3 (the state constructed on scenario S1's corpus: two
documents, one table each, both serving topic 0): with the stream `1/2, 0, ...` the first
table moves to the new topic 1, which leaves table 1 as the only table serving topic 0, and
the second table moves to topic 1; afterwards the topic list is `[1]`, with `m = 2` and
`n = 5`. -/
theorem orphan_topic_removed_witness :
    Visited exampleCorpus (sampleTopicsStep exampleLibm exampleState 0 orphanRng).1
      ∧ (sampleTopicsStep exampleLibm exampleState 0 orphanRng).1.topics = [0, 1]
      ∧ (sampleTopicsStep exampleLibm exampleState 0 orphanRng).1.allTables = [0, 1]
      ∧ ((sampleTopicsStep exampleLibm exampleState 0 orphanRng).1.tableHeap 0).topic = 1
      ∧ ((sampleTopicsStep exampleLibm exampleState 0 orphanRng).1.tableHeap 1).topic = 0
      ∧ (0 ∉ (detach (sampleTopicsStep exampleLibm exampleState 0 orphanRng).1 1).topics
        ∧ ((sampleTopicsStep exampleLibm
            (sampleTopicsStep exampleLibm exampleState 0 orphanRng).1 1
              (sampleTopicsStep exampleLibm exampleState 0 orphanRng).2).1.tableHeap 1).topic ≠ 0
        ∧ 0 ∉ (sampleTopicsStep exampleLibm
            (sampleTopicsStep exampleLibm exampleState 0 orphanRng).1 1
              (sampleTopicsStep exampleLibm exampleState 0 orphanRng).2).1.topics)
      ∧ Reachable exampleCorpus exampleState ∧ exampleCorpus.D = 2
      ∧ exampleState.topics = [0]
      ∧ ((sampleTopics exampleLibm exampleState orphanRng).1.tableHeap 0).topic = 1
      ∧ ((sampleTopics exampleLibm exampleState orphanRng).1.tableHeap 1).topic = 1
      ∧ (sampleTopics exampleLibm exampleState orphanRng).1.topics = [1]
      ∧ ((sampleTopics exampleLibm exampleState orphanRng).1.topicHeap 1).m = 2
      ∧ ((sampleTopics exampleLibm exampleState orphanRng).1.topicHeap 1).n = 5 := by
  have hV : Visited exampleCorpus (sampleTopicsStep exampleLibm exampleState 0 orphanRng).1 :=
    Visited.topicStep exampleLibm exampleState 0 orphanRng
      (Visited.reach _ exampleState_reachable) (by decide)
  have h1 := (orphan_topic_removed exampleLibm exampleCorpus).1
    (sampleTopicsStep exampleLibm exampleState 0 orphanRng).1 1
    (sampleTopicsStep exampleLibm exampleState 0 orphanRng).2 hV (by decide!) (by decide!)
  have e1 : ((sampleTopicsStep exampleLibm exampleState 0 orphanRng).1.tableHeap 1).topic = 0 := by
    decide!
  rw [e1] at h1
  have h2 := (orphan_topic_removed exampleLibm exampleCorpus).2 exampleState orphanRng 0 1
    exampleState_reachable (by decide) (by decide) (by decide) (by decide) (by decide!)
    (by decide!)
  have e2 : ((sampleTopics exampleLibm exampleState orphanRng).1.tableHeap 0).topic = 1 := by
    decide!
  rw [e2] at h2
  exact ⟨hV, by decide!, by decide!, by decide!, e1, h1.2, exampleState_reachable, by decide,
    by decide, e2, by decide!, h2.1, h2.2.2.1, h2.2.2.2⟩

end hdplda
